import Mathlib

/-!
Verification of the pytorch repository slice: the dynamo polyfills
(`torch/_dynamo/polyfills/__init__.py`) and a model of the inductor
reinplacing pass described by the design document and exercised by
`test/inductor/test_inplacing_pass.py`.
-/

namespace Polyfills

/-! ### Embeddings of `torch/_dynamo/polyfills/__init__.py` -/

/-- The stream `itertools.islice(enumerate(iterator), start, end)` of the
polyfill `index`: enumerated pairs `(i, iterator[i])`, kept for stream
positions `start ≤ k` and, when `end` is given, `k < end`. -/
def slice (iterator : List Int) (start : Nat) (stop : Option Nat) :
    List (Nat × Int) :=
  match stop with
  | none => iterator.enum.drop start
  | some e => (iterator.enum.take e).drop start

/-- Embedding of the polyfill `index`:
`for i, elem in itertools.islice(enumerate(iterator), start, end): if item == elem: return i`
followed by `raise ValueError`.  The raised `ValueError` is modelled as
`none`. -/
def index (iterator : List Int) (item : Int) (start : Nat := 0)
    (stop : Option Nat := none) : Option Nat :=
  ((slice iterator start stop).find? (fun p => item == p.2)).map (fun p => p.1)

/-- Embedding of the polyfill `list_cmp`:
`for a, b in zip(left, right): if a != b: return op(a, b)` and then
`return op(len(left), len(right))`.  Elements are embedded as integers so
that `op` can also be applied to the two lengths, as the Python code does. -/
def list_cmp (op : Int → Int → Bool) (left right : List Int) : Bool :=
  match (List.zip left right).find? (fun p => p.1 != p.2) with
  | some p => op p.1 p.2
  | none => op left.length right.length

theorem sum_length_tail_lt (l : List (List α)) (h : ¬ l.all (·.isEmpty) = true) :
    ((l.map List.tail).map List.length).sum < (l.map List.length).sum := by
  induction l with
  | nil => simp at h
  | cons x xs ih =>
    have hle : ((xs.map List.tail).map List.length).sum ≤ (xs.map List.length).sum := by
      clear h ih
      induction xs with
      | nil => simp
      | cons y ys ihy =>
        simp only [List.map_cons, List.sum_cons]
        have : y.tail.length ≤ y.length := by
          rw [List.length_tail]; omega
        omega
    simp only [List.all_cons, Bool.and_eq_true, not_and_or] at h
    simp only [List.map_cons, List.sum_cons]
    rcases h with h | h
    · have hx : 0 < x.length := by
        cases x with
        | nil => simp [List.isEmpty] at h
        | cons a t => simp
      rw [List.length_tail]
      omega
    · have := ih h
      have : x.tail.length ≤ x.length := by rw [List.length_tail]; omega
      omega

/-- Embedding of the polyfill `zip_longest`: repeatedly pull the next
element from every iterator, padding exhausted iterators with `fillvalue`;
the loop stops at the first round in which no iterator produced an element
(`active` stayed false), discarding that round's row. -/
def zip_longest (fillvalue : α) (iterables : List (List α)) : List (List α) :=
  if h : iterables.all (·.isEmpty) then []
  else
    (iterables.map (fun it => it.head?.getD fillvalue)) ::
      zip_longest fillvalue (iterables.map List.tail)
termination_by (iterables.map List.length).sum
decreasing_by
  exact sum_length_tail_lt iterables h

/-- The length of the longest iterable: the output length of the reference
`itertools.zip_longest`. -/
def maxLen (l : List (List α)) : Nat := (l.map List.length).foldr max 0

/-- Reference behaviour of `itertools.zip_longest`: the `i`-th row holds the
`i`-th element of each iterable, with exhausted iterables padded by the
fill value, and there are as many rows as the longest iterable has
elements. -/
def zip_longest_ref (fillvalue : α) (iterables : List (List α)) : List (List α) :=
  (List.range (maxLen iterables)).map
    (fun i => iterables.map (fun it => it[i]?.getD fillvalue))

theorem maxLen_eq_zero_iff (l : List (List α)) :
    maxLen l = 0 ↔ l.all (·.isEmpty) = true := by
  induction l with
  | nil => simp [maxLen]
  | cons x xs ih =>
    simp only [maxLen, List.map_cons, List.foldr_cons, List.all_cons,
      Bool.and_eq_true, Nat.max_eq_zero_iff, List.length_eq_zero,
      List.isEmpty_iff] at *
    tauto

theorem maxLen_map_tail (l : List (List α)) :
    maxLen (l.map List.tail) = maxLen l - 1 := by
  induction l with
  | nil => simp [maxLen]
  | cons x xs ih =>
    simp only [maxLen, List.map_cons, List.foldr_cons] at *
    rw [List.length_tail, ih]
    omega

theorem maxLen_cons (x : List α) (xs : List (List α)) :
    maxLen (x :: xs) = max x.length (maxLen xs) := rfl

/-- CLAIM C8: for every finite collection of finite iterables and every
fillvalue, the polyfill `zip_longest` returns the list of tuples in which
the `i`-th tuple holds the `i`-th element of each iterable, with exhausted
iterables padded by the fill value, and whose length equals the maximum
input length (the empty list when all inputs are empty): it agrees with the
reference `itertools.zip_longest`. -/
theorem zip_longest_eq_ref (fillvalue : α) (iterables : List (List α)) :
    zip_longest fillvalue iterables = zip_longest_ref fillvalue iterables ∧
    (zip_longest fillvalue iterables).length = maxLen iterables := by
  have main : zip_longest fillvalue iterables = zip_longest_ref fillvalue iterables := by
    generalize hn : maxLen iterables = n
    induction n generalizing iterables with
    | zero =>
      rw [zip_longest, dif_pos ((maxLen_eq_zero_iff iterables).mp hn)]
      rw [zip_longest_ref, hn]
      simp
    | succ n ih =>
      have hne : ¬ iterables.all (·.isEmpty) = true := by
        intro hc
        rw [(maxLen_eq_zero_iff iterables).mpr hc] at hn
        exact Nat.succ_ne_zero n hn.symm
      rw [zip_longest, dif_neg hne]
      have htail : maxLen (iterables.map List.tail) = n := by
        rw [maxLen_map_tail, hn]; omega
      rw [ih (iterables.map List.tail) htail]
      rw [zip_longest_ref, zip_longest_ref, hn, htail,
        List.range_succ_eq_map, List.map_cons]
      congr 1
      · apply List.map_congr_left
        intro it _
        rw [List.head?_eq_getElem? it]
      · conv_rhs => rw [List.map_map]
        apply List.map_congr_left
        intro i _
        simp only [Function.comp_apply, List.map_map]
        apply List.map_congr_left
        intro it _
        simp only [Function.comp_apply, List.getElem?_tail]
  exact ⟨main, by rw [main, zip_longest_ref, List.length_map, List.length_range]⟩

theorem find?_zip_self (c : List Int) :
    (List.zip c c).find? (fun p => p.1 != p.2) = none := by
  induction c with
  | nil => rfl
  | cons x c ih =>
    rw [List.zip_cons_cons, List.find?_cons_of_neg _ (by simp), ih]

theorem zip_self_append (c t : List Int) : List.zip c (c ++ t) = List.zip c c := by
  induction c with
  | nil => simp
  | cons x c ih => rw [List.cons_append, List.zip_cons_cons, List.zip_cons_cons, ih]

theorem zip_append_self (c t : List Int) : List.zip (c ++ t) c = List.zip c c := by
  induction c with
  | nil => simp
  | cons x c ih => rw [List.cons_append, List.zip_cons_cons, List.zip_cons_cons, ih]

theorem lex_cons_iff (a b : Int) (l r : List Int) :
    List.Lex (· < ·) (a :: l) (b :: r) ↔ a < b ∨ (a = b ∧ List.Lex (· < ·) l r) := by
  constructor
  · intro h
    cases h with
    | cons h => exact Or.inr ⟨rfl, h⟩
    | rel h => exact Or.inl h
  · rintro (h | ⟨rfl, h⟩)
    · exact List.Lex.rel h
    · exact List.Lex.cons h

theorem list_cmp_cons_cons (op : Int → Int → Bool) (x y : Int) (l r : List Int) :
    list_cmp op (x :: l) (y :: r) =
      match ((x, y) :: List.zip l r).find? (fun p => p.1 != p.2) with
      | some p => op p.1 p.2
      | none => op (l.length + 1) (r.length + 1) := by
  simp only [list_cmp, List.zip_cons_cons, List.length_cons]
  norm_cast

theorem list_cmp_lex_iff (l r : List Int) :
    (list_cmp (fun a b => decide (a < b)) l r = true ↔ List.Lex (· < ·) l r) ∧
    (list_cmp (fun a b => decide (a ≤ b)) l r = true ↔
      (List.Lex (· < ·) l r ∨ l = r)) ∧
    (list_cmp (fun a b => decide (b < a)) l r = true ↔ List.Lex (· < ·) r l) ∧
    (list_cmp (fun a b => decide (b ≤ a)) l r = true ↔
      (List.Lex (· < ·) r l ∨ r = l)) := by
  induction l generalizing r with
  | nil =>
    cases r with
    | nil =>
      refine ⟨?_, ?_, ?_, ?_⟩ <;>
        simp [list_cmp, List.Lex.not_nil_right]
    | cons y r =>
      have hz : List.zip ([] : List Int) (y :: r) = [] := rfl
      refine ⟨?_, ?_, ?_, ?_⟩ <;>
        simp [list_cmp, hz, List.Lex.not_nil_right, List.Lex.nil] <;>
        omega
  | cons x l ih =>
    cases r with
    | nil =>
      have hz : List.zip (x :: l) ([] : List Int) = [] := rfl
      refine ⟨?_, ?_, ?_, ?_⟩ <;>
        simp [list_cmp, hz, List.Lex.not_nil_right, List.Lex.nil] <;>
        omega
    | cons y r =>
      by_cases hxy : x = y
      · subst hxy
        have hskip : ∀ op : Int → Int → Bool,
            list_cmp op (x :: l) (x :: r) =
              match (List.zip l r).find? (fun p => p.1 != p.2) with
              | some p => op p.1 p.2
              | none => op (l.length + 1) (r.length + 1) := by
          intro op
          rw [list_cmp_cons_cons, List.find?_cons_of_neg _ (by simp)]
        have hlex : List.Lex (· < ·) (x :: l) (x :: r) ↔ List.Lex (· < ·) l r := by
          rw [lex_cons_iff]; simp
        have hlex' : List.Lex (· < ·) (x :: r) (x :: l) ↔ List.Lex (· < ·) r l := by
          rw [lex_cons_iff]; simp
        have heq : (x :: l = x :: r) ↔ l = r := by simp
        have heq' : (x :: r = x :: l) ↔ r = l := by simp
        obtain ⟨ih1, ih2, ih3, ih4⟩ := ih r
        rcases hf : (List.zip l r).find? (fun p => p.1 != p.2) with _ | pr
        · rw [list_cmp, hf] at ih1 ih2 ih3 ih4
          refine ⟨?_, ?_, ?_, ?_⟩ <;>
            rw [hskip, hf] <;>
            simp only [hlex, hlex', heq, heq'] <;>
            simp only [decide_eq_true_eq] at ih1 ih2 ih3 ih4 ⊢
          · rw [← ih1]; omega
          · rw [← ih2]; omega
          · rw [← ih3]; omega
          · rw [← ih4]; omega
        · rw [list_cmp, hf] at ih1 ih2 ih3 ih4
          refine ⟨?_, ?_, ?_, ?_⟩ <;>
            rw [hskip, hf] <;>
            simp only [hlex, hlex', heq, heq']
          · exact ih1
          · exact ih2
          · exact ih3
          · exact ih4
      · have hfind : ((x, y) :: List.zip l r).find? (fun p => p.1 != p.2)
            = some (x, y) :=
          List.find?_cons_of_pos _ (by simpa using hxy)
        have hlex : List.Lex (· < ·) (x :: l) (y :: r) ↔ x < y := by
          rw [lex_cons_iff]; simp [hxy]
        have hlex' : List.Lex (· < ·) (y :: r) (x :: l) ↔ y < x := by
          rw [lex_cons_iff]; simp [Ne.symm hxy]
        have heq : ¬ (x :: l = y :: r) := by simp [hxy]
        have heq' : ¬ (y :: r = x :: l) := by simp [Ne.symm hxy]
        refine ⟨?_, ?_, ?_, ?_⟩ <;>
          rw [list_cmp_cons_cons, hfind] <;>
          simp only [hlex, hlex', heq, heq', or_false, decide_eq_true_eq]
        · constructor
          · intro h; omega
          · intro h; omega
        · constructor
          · intro h; omega
          · intro h; omega

/-- CLAIM C9: for every comparison operator `op` and pair of sequences, the
polyfill `list_cmp` returns `op a b` at the first position where the
sequences differ (part 1), returns `op len(left) len(right)` when no
position in the common prefix differs, i.e. when one sequence is a prefix
of the other (part 2); consequently, for `op` among `<`, `≤`, `>`, `≥` it
computes exactly Python's lexicographic sequence comparison (part 3). -/
theorem list_cmp_spec (op : Int → Int → Bool) (a b : Int) (hab : a ≠ b) :
    (∀ c l r : List Int, list_cmp op (c ++ a :: l) (c ++ b :: r) = op a b) ∧
    (∀ c t : List Int,
      list_cmp op c (c ++ t) = op c.length (c ++ t).length ∧
      list_cmp op (c ++ t) c = op (c ++ t).length c.length) ∧
    (∀ l r : List Int,
      list_cmp (fun x y => decide (x < y)) l r = decide (List.Lex (· < ·) l r) ∧
      list_cmp (fun x y => decide (x ≤ y)) l r
        = decide (List.Lex (· < ·) l r ∨ l = r) ∧
      list_cmp (fun x y => decide (y < x)) l r = decide (List.Lex (· < ·) r l) ∧
      list_cmp (fun x y => decide (y ≤ x)) l r
        = decide (List.Lex (· < ·) r l ∨ r = l)) := by
  refine ⟨?_, ?_, ?_⟩
  · intro c l r
    have hz : List.zip (c ++ a :: l) (c ++ b :: r)
        = List.zip c c ++ ((a, b) :: List.zip l r) := by
      rw [List.zip_append rfl, List.zip_cons_cons]
    have hfind : (List.zip (c ++ a :: l) (c ++ b :: r)).find?
        (fun p => p.1 != p.2) = some (a, b) := by
      rw [hz, List.find?_append, find?_zip_self,
        List.find?_cons_of_pos _ (by simpa using hab)]
      rfl
    simp [list_cmp, hfind]
  · intro c t
    constructor
    · simp [list_cmp, zip_self_append, find?_zip_self]
    · simp [list_cmp, zip_append_self, find?_zip_self]
  · intro l r
    obtain ⟨h1, h2, h3, h4⟩ := list_cmp_lex_iff l r
    refine ⟨?_, ?_, ?_, ?_⟩ <;>
      rw [Bool.eq_iff_iff] <;>
      simp only [decide_eq_true_eq]
    · exact h1
    · exact h2
    · exact h3
    · exact h4

/-- Witness for C9 at a concrete input: `[5, 1, 9]` versus `[5, 2]` differ
first at position 1, so `list_cmp (<)` returns `decide (1 < 2) = true`
there. -/
theorem list_cmp_spec_witness :
    list_cmp (fun x y => decide (x < y)) ([5] ++ 1 :: [9]) ([5] ++ 2 :: [])
      = decide ((1 : Int) < (2 : Int)) :=
  (list_cmp_spec (fun x y => decide (x < y)) 1 2 (by decide)).1 [5] [9] []

theorem slice_getElem? (xs : List Int) (start : Nat) (stop : Option Nat)
    (k : Nat) :
    (slice xs start stop)[k]? =
      if stop.all (fun e => decide (start + k < e)) = true
      then xs[start + k]?.map (fun v => (start + k, v)) else none := by
  cases stop with
  | none =>
    simp only [slice, List.getElem?_drop, Option.all_none, if_pos rfl]
    rw [List.enum, List.getElem?_enumFrom]
    simp
  | some e =>
    simp only [slice, List.getElem?_drop, Option.all_some]
    by_cases h : start + k < e
    · rw [if_pos (by simpa using h), List.getElem?_take_of_lt h]
      rw [List.enum, List.getElem?_enumFrom]
      simp
    · rw [if_neg (by simpa using h), List.getElem?_eq_none]
      rw [List.length_take]
      omega

theorem find?_eq_none_getElem? {p : α → Bool} {l : List α} :
    l.find? p = none ↔ ∀ (k : Nat) (a : α), l[k]? = some a → p a = false := by
  rw [List.find?_eq_none]
  constructor
  · intro h k a hk
    have ha : a ∈ l := List.mem_iff_getElem?.mpr ⟨k, hk⟩
    simpa using h a ha
  · intro h a ha
    obtain ⟨k, hk⟩ := List.mem_iff_getElem?.mp ha
    simpa using h k a hk

theorem find?_eq_some_getElem? {p : α → Bool} {l : List α} {a : α}
    (h : l.find? p = some a) :
    p a = true ∧ ∃ k : Nat, l[k]? = some a ∧
      ∀ j : Nat, j < k → ∀ b : α, l[j]? = some b → p b = false := by
  rw [List.find?_eq_some] at h
  obtain ⟨hpa, as, bs, rfl, hall⟩ := h
  refine ⟨hpa, as.length, ?_, ?_⟩
  · rw [List.getElem?_append_right (le_refl _)]
    simp
  · intro j hj b hjb
    rw [List.getElem?_append_left hj] at hjb
    have hb : b ∈ as := List.mem_iff_getElem?.mpr ⟨j, hjb⟩
    simpa using hall b hb

/-- CLAIM C10: for every sequence, item and bounds, the polyfill `index`
returns the smallest position `i` with `start ≤ i` (and `i < end` when
`end` is given) whose element equals `item`, and raises `ValueError`
(modelled as `none`) exactly when no element in that slice equals
`item`. -/
theorem index_spec (xs : List Int) (item : Int) (start : Nat)
    (stop : Option Nat) :
    (∀ i, index xs item start stop = some i →
      start ≤ i ∧ (∀ e ∈ stop, i < e) ∧ xs[i]? = some item ∧
      ∀ j, start ≤ j → j < i → xs[j]? ≠ some item) ∧
    (index xs item start stop = none ↔
      ∀ i, start ≤ i → (∀ e ∈ stop, i < e) → xs[i]? ≠ some item) := by
  constructor
  · intro i hi
    rw [index, Option.map_eq_some'] at hi
    obtain ⟨pr, hfind, hpr1⟩ := hi
    obtain ⟨hp, k, hk, hmin⟩ := find?_eq_some_getElem? hfind
    rw [slice_getElem?] at hk
    by_cases hcond : stop.all (fun e => decide (start + k < e)) = true
    swap
    · rw [if_neg hcond] at hk; exact absurd hk (by simp)
    rw [if_pos hcond] at hk
    rw [Option.map_eq_some'] at hk
    obtain ⟨v, hv, hveq⟩ := hk
    have hik : i = start + k := by rw [← hpr1, ← hveq]
    have hvitem : v = item := by
      rw [← hveq] at hp
      exact (beq_iff_eq.mp hp).symm
    rw [hvitem] at hv
    have hstop : ∀ e ∈ stop, i < e := by
      intro e he
      cases stop with
      | none => simp at he
      | some e2 =>
        simp only [Option.mem_def, Option.some.injEq] at he
        subst he
        rw [Option.all_some] at hcond
        rw [hik]
        simpa using hcond
    refine ⟨by omega, hstop, by rw [hik]; exact hv, ?_⟩
    intro j hj1 hj2 hjitem
    have hk' : j - start < k := by omega
    have hjval : (slice xs start stop)[j - start]? = some (j, item) := by
      rw [slice_getElem?]
      have : start + (j - start) = j := by omega
      rw [this]
      rw [if_pos ?side, hjitem]
      case side =>
        cases stop with
        | none => simp
        | some e2 =>
          rw [Option.all_some]
          have := hstop e2 (by simp)
          simp only [decide_eq_true_eq]
          omega
      rfl
    have := hmin (j - start) hk' (j, item) hjval
    simp [beq_iff_eq] at this
  · rw [index, Option.map_eq_none']
    rw [find?_eq_none_getElem?]
    constructor
    · intro h i hstart hstop hitem
      have hcond : (stop.all (fun e => decide (start + (i - start) < e))) = true := by
        cases stop with
        | none => simp
        | some e2 =>
          rw [Option.all_some]
          have := hstop e2 (by simp)
          simp only [decide_eq_true_eq]
          omega
      have hv : (slice xs start stop)[i - start]? = some (i, item) := by
        rw [slice_getElem?, if_pos hcond]
        have : start + (i - start) = i := by omega
        rw [this, hitem]
        rfl
      have := h (i - start) (i, item) hv
      simp [beq_iff_eq] at this
    · intro h k pr hk
      rw [slice_getElem?] at hk
      by_cases hcond : stop.all (fun e => decide (start + k < e)) = true
      swap
      · rw [if_neg hcond] at hk; exact absurd hk (by simp)
      rw [if_pos hcond, Option.map_eq_some'] at hk
      obtain ⟨v, hv, hveq⟩ := hk
      have hstop : ∀ e ∈ stop, start + k < e := by
        intro e he
        cases stop with
        | none => simp at he
        | some e2 =>
          simp only [Option.mem_def, Option.some.injEq] at he
          subst he
          rw [Option.all_some] at hcond
          simpa using hcond
      have hne := h (start + k) (by omega) hstop
      rw [hv] at hne
      have : v ≠ item := fun hc => hne (by rw [hc])
      rw [← hveq]
      simpa [beq_eq_false_iff_ne] using Ne.symm this

/-- Witness for C10 at a concrete input: in `[7, 3, 7]` searching for `7`
from position `1`, the polyfill returns position `2`, which is in range,
holds `7`, and is the first such position at or after `1`. -/
theorem index_spec_witness :
    (1 ≤ 2 ∧ (∀ e ∈ (none : Option Nat), 2 < e) ∧
      [(7 : Int), 3, 7][2]? = some 7 ∧
      ∀ j, 1 ≤ j → j < 2 → [(7 : Int), 3, 7][j]? ≠ some 7) :=
  (index_spec [7, 3, 7] 7 1 none).1 2 (by decide)

end Polyfills

namespace Reinplace

/-!
### Model of the inductor reinplacing pass

Modelled from the spec: the implementation of
`torch._inductor.fx_passes.reinplace.reinplace_inplaceable_ops_core` is not
part of the repository slice (only its test file is), so the IR graph
model, liveness and alias analysis, mutation-safety oracle, rewriter and
instrumentation counters are built from the design document, sections 3
and 4 and the design notes of section 9.
-/

/-- Modelled from the spec: a Value is identified by a number; graph inputs
are the Values `0, …, nIn - 1` and each Node's outputs continue the
numbering (single static assignment). -/
abbrev ValueId := Nat

/-- Modelled from the spec: an argument of a Node is a single tensor Value
or a list-of-tensors composite. -/
inductive Arg
  | val (v : ValueId)
  | vlist (vs : List ValueId)
deriving DecidableEq

/-- The element Values of an argument (a single Value, or the elements of a
list argument). -/
def Arg.elems : Arg → List ValueId
  | .val v => [v]
  | .vlist vs => vs

/-- Modelled from the spec: the closed tagged variant of operation shapes
from design note 9 — a plain functional op, an explicitly marked
alias-producing (view) op, a functional op with an in-place counterpart, an
`auto_functionalized` wrapper carrying the wrapped op's `mutates_args`
positions, an explicit in-place op (user-written, or produced by the
rewriter), and the defensive copy the rewriter inserts. -/
inductive NodeKind
  | pure (f : String)
  | view
  | inplaceable (f : String)
  | autoFunc (f : String) (muts : List Nat)
  | inplaceOp (f : String) (muts : List Nat)
  | clone
deriving DecidableEq

/-- Modelled from the spec: a Node has an operation identity with its
mutation contract (`kind`), an ordered sequence of input Values and its
output Values. -/
structure Node where
  kind : NodeKind
  args : List Arg
  outs : List ValueId
deriving DecidableEq

/-- Modelled from the spec: a Graph is an ordered sequence of Nodes (the
definitive scheduling order), together with the number of graph inputs and
the list of required graph outputs. -/
structure Graph where
  nIn : Nat
  nodes : List Node
  outputs : List ValueId
deriving DecidableEq

instance : Inhabited Arg := ⟨Arg.vlist []⟩

instance : Inhabited Node := ⟨⟨NodeKind.pure "", [], []⟩⟩

/-- The flattened mutated target Values of a node: for each position in the
mutation contract, the element Values of the argument at that position. -/
def targetsOf (args : List Arg) (muts : List Nat) : List ValueId :=
  muts.flatMap (fun k => (args.getD k default).elems)

/-- Number of output Values a node produces: one per flattened mutated
target for wrapper and in-place ops (the post-mutation stand-ins), one
otherwise. -/
def outCount (n : Node) : Nat :=
  match n.kind with
  | .autoFunc _ muts => (targetsOf n.args muts).length
  | .inplaceOp _ muts => (targetsOf n.args muts).length
  | _ => 1

/-- The single Value argument of a `view` or `clone` node. -/
def headVal (args : List Arg) : ValueId := (args.flatMap Arg.elems).headD 0

/-- Pointwise update of a map on Value ids. -/
def upd (f : Nat → α) (k : Nat) (a : α) : Nat → α :=
  fun v => if v = k then a else f v

/-- Modelled from the spec: one step of the alias-group (root storage)
computation of section 4.2 — a view's output joins its base's alias group,
an in-place op's output stand-ins join their mutated targets' groups, every
other output owns fresh storage. -/
def rootStep (ρ : Nat → Nat) (n : Node) : Nat → Nat :=
  match n.kind with
  | .view => upd ρ (n.outs.headD 0) (ρ (headVal n.args))
  | .autoFunc _ _ => n.outs.foldl (fun ρ2 o => upd ρ2 o o) ρ
  | .inplaceOp _ muts =>
      let rs := (targetsOf n.args muts).map ρ
      (List.zip n.outs rs).foldl (fun ρ2 p => upd ρ2 p.1 p.2) ρ
  | _ => upd ρ (n.outs.headD 0) (n.outs.headD 0)

/-- Modelled from the spec: the alias-resolution map `base_of` of section
4.1, sending every Value to its root storage identity. -/
def roots0 (g : Graph) : Nat → Nat := g.nodes.foldl rootStep (fun v => v)

/-- Whether node `n` reads the storage root `r`: some argument element (a
list argument is a use of every element) resolves to `r`. -/
def readsRoot (ρ : Nat → Nat) (n : Node) (r : Nat) : Bool :=
  (n.args.flatMap Arg.elems).any (fun v => ρ v == r)

/-- Modelled from the spec: the liveness fact of section 4.2 — whether the
storage root `r` (the Value or any alias of it) is read by a node strictly
after position `i`. -/
def usedAfter (g : Graph) (ρ : Nat → Nat) (i : Nat) (r : Nat) : Bool :=
  (g.nodes.drop (i + 1)).any (fun n => readsRoot ρ n r)

/-- Whether the storage root `r` holds a required graph output (treated as
live forever). -/
def isOutRoot (g : Graph) (ρ : Nat → Nat) (r : Nat) : Bool :=
  g.outputs.any (fun v => ρ v == r)

/-- Whether the storage root `r` is still live at (or after) node `i`: read
by node `i` or later, or a graph output. -/
def liveFrom (g : Graph) (ρ : Nat → Nat) (i : Nat) (r : Nat) : Bool :=
  (g.nodes.drop i).any (fun n => readsRoot ρ n r) || isOutRoot g ρ r

/-- Modelled from the spec: the mutation-safety check for one single-tensor
target, rules 1 and 2 of section 4.3 — the argument must not resolve to a
graph input (the pass never mutates inputs on its own initiative), and the
node must be the argument's last use (no alias read later, no alias a graph
output).  Returns the missed-opportunity diagnostic reason on failure. -/
def checkVal (g : Graph) (ρ : Nat → Nat) (i : Nat) (t : ValueId) :
    Option String :=
  if ρ t < g.nIn then some "argument is a graph input or a view of one"
  else if usedAfter g ρ i (ρ t) || isOutRoot g ρ (ρ t) then
    some "argument used after op"
  else none

/-- Modelled from the spec: the mutation-safety check for one argument,
section 4.3 — a list argument is reinplaceable only at whole-list
granularity (rule 3), recording a single "entire list" diagnostic when any
element fails. -/
def checkArg (g : Graph) (ρ : Nat → Nat) (i : Nat) : Arg → Option String
  | .val t => checkVal g ρ i t
  | .vlist ts =>
      if ts.all (fun t => (checkVal g ρ i t).isNone) then none
      else some "entire list"

/-- Modelled from the spec: the Mutation-Safety Oracle contract
`can_reinplace(node, buffer_arg) -> bool` of section 4.3; it is a total
Boolean function, never raising. -/
def can_reinplace (g : Graph) (ρ : Nat → Nat) (i : Nat) (a : Arg) : Bool :=
  (checkArg g ρ i a).isNone

/-- State threaded by the Reinplacing Rewriter: the rewritten node list,
the missed-opportunity diagnostics recorded so far, and the next fresh
Value id for defensive copies. -/
structure PassState where
  revNodes : List Node
  counters : List String
  fresh : ValueId
deriving DecidableEq

/-- Insert one defensive copy (clone) node per element Value, returning
the ids of the copies. -/
def cloneElems (st : PassState) : List ValueId → PassState × List ValueId
  | [] => (st, [])
  | e :: es =>
      let st2 : PassState :=
        { st with
            revNodes := st.revNodes ++ [⟨.clone, [.val e], [st.fresh]⟩],
            fresh := st.fresh + 1 }
      let r := cloneElems st2 es
      (r.1, st.fresh :: r.2)

/-- Insert defensive copy (clone) nodes for every element of an argument
that could not be reinplaced, and return the argument rewritten to use the
copies (one copy per element of an unsafe list). -/
def cloneArg (st : PassState) (a : Arg) : PassState × Arg :=
  match a with
  | .val e =>
      let r := cloneElems st [e]
      (r.1, .val (r.2.headD 0))
  | .vlist es =>
      let r := cloneElems st es
      (r.1, .vlist r.2)

/-- Modelled from the spec: per-argument driving loop of section 4.4 for a
wrapper node — each mutated argument is checked independently by the
oracle; a safe argument is kept (it will be mutated in place), an unsafe
one records its diagnostic exactly once and is replaced by defensive
copies. -/
def processMuts (g : Graph) (ρ : Nat → Nat) (i : Nat) :
    List Nat → PassState → List Arg → PassState × List Arg
  | [], st, args => (st, args)
  | k :: rest, st, args =>
      match checkArg g ρ i (args.getD k default) with
      | none => processMuts g ρ i rest st args
      | some reason =>
          let r := cloneArg { st with counters := st.counters ++ [reason] }
            (args.getD k default)
          processMuts g ρ i rest r.1 (args.set k r.2)

/-- Modelled from the spec: the Reinplacing Rewriter step of section 4.4
for one node.  A functional op with an in-place counterpart is rewritten to
it when safe and otherwise left functional (it has a non-mutating
fallback), recording the diagnostic; an `auto_functionalized` wrapper has
no functional fallback, so it always becomes the explicit in-place op,
mutating the original buffers when safe and fresh defensive copies when
not; every other node is kept unchanged (explicit in-place calls written by
the user are honored as-is). -/
def processNode (g : Graph) (ρ : Nat → Nat) (i : Nat) (st : PassState)
    (n : Node) : PassState :=
  match n.kind with
  | .inplaceable f =>
      match n.args with
      | .val t :: _ =>
          if can_reinplace g ρ i (.val t) then
            { st with revNodes := st.revNodes ++ [⟨.inplaceOp f [0], n.args, n.outs⟩] }
          else
            { st with revNodes := st.revNodes ++ [n],
                      counters := st.counters ++ (checkArg g ρ i (.val t)).toList }
      | _ => { st with revNodes := st.revNodes ++ [n] }
  | .autoFunc f muts =>
      let r := processMuts g ρ i muts st n.args
      { r.1 with revNodes := r.1.revNodes ++ [⟨.inplaceOp f muts, r.2, n.outs⟩] }
  | _ => { st with revNodes := st.revNodes ++ [n] }

/-- The Rewriter's walk over the node sequence in scheduling order. -/
def passGo (g : Graph) (ρ : Nat → Nat) : Nat → PassState → List Node → PassState
  | _, st, [] => st
  | i, st, n :: rest => passGo g ρ (i + 1) (processNode g ρ i st n) rest

/-- First Value id beyond every id of the (well-formed) graph; defensive
copies are numbered from here. -/
def defBound (g : Graph) (i : Nat) : Nat :=
  g.nIn + ((g.nodes.take i).map outCount).sum

/-- Value ids produced by the whole graph stay below this bound. -/
def freshBound (g : Graph) : Nat := defBound g g.nodes.length

/-- Modelled from the spec: `run_pass(graph)` of section 6 — liveness and
alias analysis run once, then the rewriter walks the nodes in scheduling
order; the result is the rewritten graph together with the
missed-opportunity diagnostics recorded (the process-wide counter set,
returned explicitly as design note 9 recommends). -/
def run_pass (g : Graph) : Graph × List String :=
  let ρ := roots0 g
  let st := passGo g ρ 0 ⟨[], [], freshBound g⟩ g.nodes
  ({ g with nodes := st.revNodes }, st.counters)

/-- The test counter `possibly_missed_reinplacing_opportunities`: total
number of missed-opportunity diagnostics recorded by the pass. -/
def num_reinplacing_failures (g : Graph) : Nat := (run_pass g).2.length

/-- Number of defensive copy nodes in a graph. -/
def cloneCount (g : Graph) : Nat :=
  (g.nodes.filter (fun n => n.kind = NodeKind.clone)).length

/-!
### Execution semantics

Modelled from the spec: tensor contents are an abstract type `V`; an
operation identity is interpreted by an arbitrary function
`interp f j inVals` giving the contents the op stores in its `j`-th output
buffer (or produces as its `j`-th functional output) from the contents of
all its argument elements.  Quantifying over `interp` and over the input
contents captures "for all inputs".  A state maps every Value to the
contents of its storage and to its storage root; writing in place updates
the contents of every Value sharing the target's storage.
-/

/-- Execution state: per-Value contents and per-Value storage root. -/
structure St (V : Type) where
  env : Nat → V
  root : Nat → Nat

/-- Initial state: Value `v` holds the caller-provided contents `inputs v`
and owns its storage. -/
def initSt (inputs : Nat → V) : St V := ⟨inputs, fun v => v⟩

/-- Contents of all argument elements of a node, in order. -/
def argVals (σ : St V) (args : List Arg) : List V :=
  (args.flatMap Arg.elems).map σ.env

/-- Overwrite the storage of `t` in place: every Value rooted with `t` now
holds `w`. -/
def writeGroup (σ : St V) (t : ValueId) (w : V) : St V :=
  ⟨fun v => if σ.root v = σ.root t then w else σ.env v, σ.root⟩

/-- Define a new Value owning fresh storage with contents `w`. -/
def defineFresh (σ : St V) (o : ValueId) (w : V) : St V :=
  ⟨upd σ.env o w, upd σ.root o o⟩

/-- Define a new Value aliasing the storage root `r`, holding contents
`w`. -/
def defineRooted (σ : St V) (o : ValueId) (r : ValueId) (w : V) : St V :=
  ⟨upd σ.env o w, upd σ.root o r⟩

/-- Modelled from the spec: execution of one node.  Functional ops allocate
fresh storage for their outputs; a view aliases its base; a clone copies
contents into fresh storage; an in-place op first computes every written
content from the pre-state, then overwrites each mutated target's storage,
and its output stand-ins alias the mutated targets. -/
def execNode (interp : String → Nat → List V → V) (σ : St V) (n : Node) :
    St V :=
  let fin := argVals σ n.args
  match n.kind with
  | .pure f => defineFresh σ (n.outs.headD 0) (interp f 0 fin)
  | .inplaceable f => defineFresh σ (n.outs.headD 0) (interp f 0 fin)
  | .view =>
      defineRooted σ (n.outs.headD 0) (σ.root (headVal n.args))
        (σ.env (headVal n.args))
  | .clone => defineFresh σ (n.outs.headD 0) (σ.env (headVal n.args))
  | .autoFunc f _ =>
      (List.zip n.outs (List.range (outCount n))).foldl
        (fun σ2 p => defineFresh σ2 p.1 (interp f p.2 fin)) σ
  | .inplaceOp f muts =>
      let ts := targetsOf n.args muts
      let ws := (List.range ts.length).map (fun j => interp f j fin)
      let rs := ts.map σ.root
      let σw := (List.zip ts ws).foldl (fun σ2 p => writeGroup σ2 p.1 p.2) σ
      (List.zip n.outs (List.zip rs ws)).foldl
        (fun σ2 p => defineRooted σ2 p.1 p.2.1 p.2.2) σw

/-- Execute a node sequence in scheduling order. -/
def execNodes (interp : String → Nat → List V → V) (σ : St V)
    (ns : List Node) : St V :=
  ns.foldl (execNode interp) σ

/-- Contents of the graph outputs after executing the whole graph on the
given inputs. -/
def graphOutputs (interp : String → Nat → List V → V) (inputs : Nat → V)
    (g : Graph) : List V :=
  g.outputs.map (execNodes interp (initSt inputs) g.nodes).env

/-!
### The literal test scenarios
-/

/-- The graph of `test_dont_modify_live`:
`x = cos(x0); x2 = index_put(x, (y,), 0.0); return (x2, x)` with inputs
`x0 = 0`, `y = 1`. -/
def liveGraph : Graph :=
  ⟨2,
    [⟨.pure "cos", [.val 0], [2]⟩,
     ⟨.inplaceable "index_put", [.val 2, .val 1], [3]⟩],
    [3, 2]⟩

/-- The graph of `test_multiple_intermediate`:
`out = empty_like(x); sin(x, out); sin(out, out); sin(out, out); return out`
with input `x = 0`; each custom `sin` call is an `auto_functionalized`
wrapper mutating its argument at position 1. -/
def multiIntermediateGraph : Graph :=
  ⟨1,
    [⟨.pure "empty_like", [.val 0], [1]⟩,
     ⟨.autoFunc "sin" [1], [.val 0, .val 1], [2]⟩,
     ⟨.autoFunc "sin" [1], [.val 2, .val 2], [3]⟩,
     ⟨.autoFunc "sin" [1], [.val 3, .val 3], [4]⟩],
    [4]⟩

/-- The graph of `test_lists`: two views of the input `b` collected into a
list passed to the whole-list-mutating `mutate_op` wrapper, followed by the
functionalization epilogue copying the mutated stand-ins back into the
input's views. -/
def listsGraph : Graph :=
  ⟨1,
    [⟨.view, [.val 0], [1]⟩,
     ⟨.view, [.val 0], [2]⟩,
     ⟨.autoFunc "mutate_op" [0], [.vlist [1, 2]], [3, 4]⟩,
     ⟨.inplaceOp "copy_" [0], [.val 1, .val 3], [5]⟩,
     ⟨.inplaceOp "copy_" [0], [.val 2, .val 4], [6]⟩],
    []⟩

/-- The graph of `test_multi_output_intermediate`:
`out1 = empty_like(x); out2 = empty_like(x); sin_cos(x, out1, out2);
return (out1, out2, x ** 2)` with the wrapper mutating positions 1 and
2. -/
def multiOutGraph : Graph :=
  ⟨1,
    [⟨.pure "empty_like", [.val 0], [1]⟩,
     ⟨.pure "empty_like", [.val 0], [2]⟩,
     ⟨.autoFunc "sin_cos" [1, 2], [.val 0, .val 1, .val 2], [3, 4]⟩,
     ⟨.pure "pow", [.val 0], [5]⟩],
    [3, 4, 5]⟩

/-- The graph of `test_counters`:
`out = empty_like(x); (_, new_out) = auto_functionalized(sin, x, out);
y = out * new_out; return (new_out, y)` — `out` is read again after the
wrapper, so reinplacing must be refused. -/
def countersGraph : Graph :=
  ⟨1,
    [⟨.pure "empty_like", [.val 0], [1]⟩,
     ⟨.autoFunc "sin" [1], [.val 0, .val 1], [2]⟩,
     ⟨.pure "mul", [.val 1, .val 2], [3]⟩],
    [2, 3]⟩

/-!
### Well-formedness of input graphs
-/

/-- The flattened mutated targets whose whole argument passes the oracle
(a partially-safe list contributes no kept target: it is cloned whole). -/
def keptTargets (g : Graph) (ρ : Nat → Nat) (i : Nat) (args : List Arg)
    (muts : List Nat) : List ValueId :=
  muts.flatMap (fun k =>
    let a := args.getD k default
    if (checkArg g ρ i a).isNone then a.elems else [])

/-- Modelled from the spec: structural well-formedness of one node of an
input graph, section 3's single-static-assignment invariant — arguments
refer to already-defined Values, outputs continue the consecutive
numbering, alias and candidate ops have their expected argument shapes,
mutation contracts reference existing arguments without duplicates, and the
buffers a node actually mutates in place occupy pairwise distinct storage
roots.  Defensive copies are produced only by the pass, never by the
tracer. -/
def nodeWF (g : Graph) (i : Nat) (n : Node) : Bool :=
  ((n.args.flatMap Arg.elems).all (fun v => decide (v < defBound g i))) &&
  (decide (n.outs = List.range' (defBound g i) (outCount n))) &&
  (match n.kind with
   | .pure _ => true
   | .view => (match n.args with | [.val _] => true | _ => false)
   | .clone => false
   | .inplaceable _ => (match n.args with | .val _ :: _ => true | _ => false)
   | .autoFunc _ muts =>
       muts.all (fun k => decide (k < n.args.length)) && decide muts.Nodup &&
       decide ((keptTargets g (roots0 g) i n.args muts).map (roots0 g)).Nodup
   | .inplaceOp _ muts =>
       muts.all (fun k => decide (k < n.args.length)) && decide muts.Nodup &&
       decide (((targetsOf n.args muts).map (roots0 g)).Nodup))

/-- Modelled from the spec: a graph the pass accepts — every node
well-formed at its position and every required output an existing
Value. -/
def WF (g : Graph) : Bool :=
  (g.nodes.enum.all (fun p => nodeWF g p.1 p.2)) &&
  g.outputs.all (fun v => decide (v < freshBound g))

/-- The missed-opportunity diagnostics the oracle reports for one node:
one entry per disqualified buffer argument of a candidate node,
independent of every other buffer. -/
def nodeFailures (g : Graph) (ρ : Nat → Nat) (i : Nat) (n : Node) :
    List String :=
  match n.kind with
  | .inplaceable _ =>
      match n.args with
      | .val t :: _ => (checkArg g ρ i (.val t)).toList
      | _ => []
  | .autoFunc _ muts =>
      muts.filterMap (fun k => checkArg g ρ i (n.args.getD k default))
  | _ => []

end Reinplace


namespace Reinplace

/-- CLAIM C3: on the graph computing
`x = cos(x0); y = index_put(x, (idx,), 0.0); return (y, x)` the pass
refuses to reinplace the `index_put` into `x` (`x` is still live through
the second return value), leaving every node unchanged, and the
missed-opportunity counter equals exactly 1 after the pass. -/
theorem live_scenario :
    (run_pass liveGraph).1.nodes = liveGraph.nodes ∧
    num_reinplacing_failures liveGraph = 1 := by
  constructor
  · decide
  · decide

/-- CLAIM C5: for the two-element list `[b0, b1]` of views of the input
passed to the whole-list-mutating op, the pass records exactly one
"entire list" missed-opportunity diagnostic — so the counter is 1 and no
per-element diagnostic exists — and inserts exactly 2 defensive copy
(clone) nodes in the rewritten graph. -/
theorem lists_scenario :
    (run_pass listsGraph).2 = ["entire list"] ∧
    num_reinplacing_failures listsGraph = 1 ∧
    cloneCount (run_pass listsGraph).1 = 2 := by
  refine ⟨?_, ?_, ?_⟩
  · decide
  · decide
  · decide

end Reinplace

namespace Reinplace

/-- CLAIM C4: on the graph computing
`out = empty_like(x); sin(x, out); sin(out, out); sin(out, out); return out`
the pass reinplaces all three mutations (each wrapper becomes the explicit
in-place op on its original buffer, with no defensive copies), the
missed-opportunity counter equals 0 after the pass, and for every
interpretation in which the custom op `sin` stores the sine of its first
argument into its output buffer, the executed result of the rewritten
graph equals `sin (sin (sin x))`. -/
theorem multi_intermediate_scenario (V : Type) (interp : String → Nat → List V → V)
    (sinF : V → V) (d : V)
    (hsin : ∀ l : List V, interp "sin" 0 l = sinF (l.headD d))
    (inputs : Nat → V) :
    (run_pass multiIntermediateGraph).1.nodes =
      [⟨.pure "empty_like", [.val 0], [1]⟩,
       ⟨.inplaceOp "sin" [1], [.val 0, .val 1], [2]⟩,
       ⟨.inplaceOp "sin" [1], [.val 2, .val 2], [3]⟩,
       ⟨.inplaceOp "sin" [1], [.val 3, .val 3], [4]⟩] ∧
    num_reinplacing_failures multiIntermediateGraph = 0 ∧
    graphOutputs interp inputs (run_pass multiIntermediateGraph).1
      = [sinF (sinF (sinF (inputs 0)))] := by
  refine ⟨by decide, by decide, ?_⟩
  have h : graphOutputs interp inputs (run_pass multiIntermediateGraph).1
      = [interp "sin" 0
          [interp "sin" 0
            [interp "sin" 0 [inputs 0, interp "empty_like" 0 [inputs 0]],
             interp "sin" 0 [inputs 0, interp "empty_like" 0 [inputs 0]]],
           interp "sin" 0
            [interp "sin" 0 [inputs 0, interp "empty_like" 0 [inputs 0]],
             interp "sin" 0 [inputs 0, interp "empty_like" 0 [inputs 0]]]]] := rfl
  rw [h]
  simp only [hsin, List.headD_cons]

end Reinplace

namespace Reinplace

/-- Witness for C4 at a concrete interpretation: contents are natural
numbers, `sin` is modelled as successor and the input holds 10, so the
rewritten graph returns 13 after the three reinplaced mutations. -/
theorem multi_intermediate_scenario_witness :
    (run_pass multiIntermediateGraph).1.nodes =
      [⟨.pure "empty_like", [.val 0], [1]⟩,
       ⟨.inplaceOp "sin" [1], [.val 0, .val 1], [2]⟩,
       ⟨.inplaceOp "sin" [1], [.val 2, .val 2], [3]⟩,
       ⟨.inplaceOp "sin" [1], [.val 3, .val 3], [4]⟩] ∧
    num_reinplacing_failures multiIntermediateGraph = 0 ∧
    graphOutputs (fun f _ l => if f = "sin" then l.headD 0 + 1 else 0)
      (fun _ => 10) (run_pass multiIntermediateGraph).1 = [13] :=
  multi_intermediate_scenario Nat
    (fun f _ l => if f = "sin" then l.headD 0 + 1 else 0)
    (fun v => v + 1) 0 (fun _ => rfl) (fun _ => 10)

end Reinplace

namespace Reinplace

theorem cloneElems_counters : ∀ (es : List ValueId) (st : PassState),
    (cloneElems st es).1.counters = st.counters
  | [], _ => rfl
  | e :: es, st => by
    show (cloneElems
      { st with
          revNodes := st.revNodes ++ [⟨.clone, [.val e], [st.fresh]⟩],
          fresh := st.fresh + 1 } es).1.counters = st.counters
    rw [cloneElems_counters es]

theorem cloneElems_fresh : ∀ (es : List ValueId) (st : PassState),
    (cloneElems st es).1.fresh = st.fresh + es.length
  | [], _ => rfl
  | e :: es, st => by
    show (cloneElems
      { st with
          revNodes := st.revNodes ++ [⟨.clone, [.val e], [st.fresh]⟩],
          fresh := st.fresh + 1 } es).1.fresh = st.fresh + (es.length + 1)
    rw [cloneElems_fresh es]
    show st.fresh + 1 + es.length = st.fresh + (es.length + 1)
    ring

theorem cloneElems_ids : ∀ (es : List ValueId) (st : PassState),
    (cloneElems st es).2 = List.range' st.fresh es.length
  | [], _ => rfl
  | e :: es, st => by
    show st.fresh :: (cloneElems
      { st with
          revNodes := st.revNodes ++ [⟨.clone, [.val e], [st.fresh]⟩],
          fresh := st.fresh + 1 } es).2 = List.range' st.fresh (es.length + 1)
    rw [cloneElems_ids es]
    rw [List.range'_succ]

theorem cloneArg_counters (st : PassState) (a : Arg) :
    (cloneArg st a).1.counters = st.counters := by
  cases a with
  | val e => exact cloneElems_counters [e] st
  | vlist es => exact cloneElems_counters es st

theorem processMuts_spec (g : Graph) (ρ : Nat → Nat) (i : Nat) :
    ∀ (muts : List Nat) (st : PassState) (args args0 : List Arg),
    (∀ k ∈ muts, args.getD k default = args0.getD k default) →
    muts.Nodup →
    (processMuts g ρ i muts st args).1.counters
      = st.counters
        ++ muts.filterMap (fun k => checkArg g ρ i (args0.getD k default)) ∧
    (∀ j : Nat, j ∉ muts →
      (processMuts g ρ i muts st args).2.getD j default
        = args.getD j default) ∧
    (∀ k ∈ muts, checkArg g ρ i (args0.getD k default) = none →
      (processMuts g ρ i muts st args).2.getD k default
        = args0.getD k default) := by
  intro muts
  induction muts with
  | nil =>
    intro st args args0 hagree hnodup
    refine ⟨by simp [processMuts], ?_, ?_⟩
    · intro j _; rfl
    · intro k hk; simp at hk
  | cons k rest ih =>
    intro st args args0 hagree hnodup
    have hk0 : args.getD k default = args0.getD k default :=
      hagree k (List.mem_cons_self k rest)
    have hnd := List.nodup_cons.mp hnodup
    cases hc : checkArg g ρ i (args0.getD k default) with
    | none =>
      have hstep : processMuts g ρ i (k :: rest) st args
          = processMuts g ρ i rest st args := by
        simp only [processMuts, hk0, hc]
      obtain ⟨ih1, ih2, ih3⟩ := ih st args args0
        (fun k2 hk2 => hagree k2 (List.mem_cons_of_mem k hk2)) hnd.2
      refine ⟨?_, ?_, ?_⟩
      · rw [hstep, ih1]
        simp only [List.filterMap_cons, hc]
      · intro j hj
        rw [hstep]
        exact ih2 j (fun hj2 => hj (List.mem_cons_of_mem k hj2))
      · intro k2 hk2 hc2
        rcases List.mem_cons.mp hk2 with rfl | hk2
        · rw [hstep]
          rw [ih2 k2 hnd.1, hk0]
        · rw [hstep]
          exact ih3 k2 hk2 hc2
    | some reason =>
      have hstep : processMuts g ρ i (k :: rest) st args
          = processMuts g ρ i rest
              (cloneArg { st with counters := st.counters ++ [reason] }
                (args.getD k default)).1
              (args.set k
                (cloneArg { st with counters := st.counters ++ [reason] }
                  (args.getD k default)).2) := by
        simp only [processMuts, hk0, hc]
      set st2 := (cloneArg { st with counters := st.counters ++ [reason] }
        (args.getD k default)).1 with hst2
      set a2 := (cloneArg { st with counters := st.counters ++ [reason] }
        (args.getD k default)).2 with ha2
      have hagree2 : ∀ k2 ∈ rest, (args.set k a2).getD k2 default
          = args0.getD k2 default := by
        intro k2 hk2
        have hne : k ≠ k2 := fun hctr => hnd.1 (hctr ▸ hk2)
        rw [List.getD_eq_getElem?_getD, List.getElem?_set_ne hne,
          ← List.getD_eq_getElem?_getD]
        exact hagree k2 (List.mem_cons_of_mem k hk2)
      obtain ⟨ih1, ih2, ih3⟩ := ih st2 (args.set k a2) args0 hagree2 hnd.2
      have hcnt2 : st2.counters = st.counters ++ [reason] := by
        rw [hst2, cloneArg_counters]
      refine ⟨?_, ?_, ?_⟩
      · rw [hstep, ih1, hcnt2]
        simp only [List.filterMap_cons, hc, List.append_assoc,
          List.singleton_append]
      · intro j hj
        rw [hstep]
        have hne : k ≠ j := fun hctr => hj (hctr ▸ List.mem_cons_self k rest)
        rw [ih2 j (fun hj2 => hj (List.mem_cons_of_mem k hj2))]
        rw [List.getD_eq_getElem?_getD, List.getElem?_set_ne hne,
          ← List.getD_eq_getElem?_getD]
      · intro k2 hk2 hc2
        rcases List.mem_cons.mp hk2 with rfl | hk2
        · rw [hc] at hc2; exact absurd hc2 (by simp)
        · rw [hstep]
          exact ih3 k2 hk2 hc2

end Reinplace

namespace Reinplace

/-- Per-node mutation contracts are duplicate-free (the part of
well-formedness the counter characterization needs). -/
def mutsNodup (n : Node) : Prop :=
  match n.kind with
  | .autoFunc _ muts => muts.Nodup
  | _ => True

theorem processNode_counters (g : Graph) (ρ : Nat → Nat) (i : Nat)
    (st : PassState) (n : Node) (hnd : mutsNodup n) :
    (processNode g ρ i st n).counters = st.counters ++ nodeFailures g ρ i n := by
  obtain ⟨kind, args, outs⟩ := n
  cases kind with
  | pure f => simp [processNode, nodeFailures]
  | view => simp [processNode, nodeFailures]
  | clone => simp [processNode, nodeFailures]
  | inplaceOp f muts => simp [processNode, nodeFailures]
  | inplaceable f =>
    cases args with
    | nil => simp [processNode, nodeFailures]
    | cons a rest =>
      cases a with
      | vlist vs => simp [processNode, nodeFailures]
      | val t =>
        cases hc : checkArg g ρ i (.val t) with
        | none =>
          have hcan : can_reinplace g ρ i (.val t) = true := by
            rw [can_reinplace, hc]; rfl
          simp [processNode, nodeFailures, hcan, hc]
        | some reason =>
          have hcan : can_reinplace g ρ i (.val t) = false := by
            rw [can_reinplace, hc]; rfl
          simp [processNode, nodeFailures, hcan, hc]
  | autoFunc f muts =>
    have hnd2 : muts.Nodup := hnd
    have hspec := (processMuts_spec g ρ i muts st args args
      (fun _ _ => rfl) hnd2).1
    show (processMuts g ρ i muts st args).1.counters = _
    rw [hspec]
    rfl

/-- The missed-opportunity diagnostics of all nodes from position `i` on,
in scheduling order. -/
def failuresFrom (g : Graph) (ρ : Nat → Nat) : Nat → List Node → List String
  | _, [] => []
  | i, n :: rest => nodeFailures g ρ i n ++ failuresFrom g ρ (i + 1) rest

theorem passGo_counters (g : Graph) (ρ : Nat → Nat) :
    ∀ (ns : List Node) (i : Nat) (st : PassState),
    (∀ n ∈ ns, mutsNodup n) →
    (passGo g ρ i st ns).counters = st.counters ++ failuresFrom g ρ i ns := by
  intro ns
  induction ns with
  | nil => intro i st _; simp [passGo, failuresFrom]
  | cons n rest ih =>
    intro i st hnd
    show (passGo g ρ (i + 1) (processNode g ρ i st n) rest).counters = _
    rw [ih (i + 1) (processNode g ρ i st n)
      (fun n2 hn2 => hnd n2 (List.mem_cons_of_mem n hn2))]
    rw [processNode_counters g ρ i st n (hnd n (List.mem_cons_self n rest))]
    rw [failuresFrom, List.append_assoc]

theorem wf_mutsNodup (g : Graph) (hwf : WF g = true) :
    ∀ n ∈ g.nodes, mutsNodup n := by
  intro n hn
  obtain ⟨j, hj, hget⟩ := List.mem_iff_getElem.mp hn
  have hall := (Bool.and_eq_true_iff.mp hwf).1
  rw [List.all_eq_true] at hall
  have hmem : (j, n) ∈ g.nodes.enum := by
    rw [List.mem_enum_iff_getElem?]
    rw [List.getElem?_eq_getElem hj, hget]
  have := hall (j, n) hmem
  rw [nodeWF, Bool.and_eq_true_iff, Bool.and_eq_true_iff] at this
  obtain ⟨-, hkind⟩ := this
  cases hk : n.kind with
  | autoFunc f muts =>
    rw [mutsNodup, hk]
    rw [hk] at hkind
    simp only [Bool.and_eq_true_iff, decide_eq_true_eq] at hkind
    exact hkind.1.2
  | pure f => rw [mutsNodup, hk]; trivial
  | view => rw [mutsNodup, hk]; trivial
  | clone => rw [mutsNodup, hk]; trivial
  | inplaceable f => rw [mutsNodup, hk]; trivial
  | inplaceOp f muts => rw [mutsNodup, hk]; trivial

end Reinplace

namespace Reinplace

/-- CLAIM C7: the Mutation-Safety Oracle `can_reinplace` is a total Boolean
function (it never raises); it returns false exactly on the disqualifying
conditions (argument resolving to a graph input, or still live — read
later or a graph output — after the op, a list failing whenever one
element does); on a well-formed graph the diagnostics recorded by the pass
are exactly one entry per disqualified candidate buffer, in order; and in
the `test_counters` scenario, where the candidate buffer is read again
after the wrapper, exactly one "argument used after op" missed-opportunity
is recorded. -/
theorem can_reinplace_spec (g : Graph) (hwf : WF g = true) :
    (∀ (i : Nat) (t : ValueId), can_reinplace g (roots0 g) i (.val t) = false ↔
      (roots0 g t < g.nIn ∨ usedAfter g (roots0 g) i (roots0 g t) = true ∨
        isOutRoot g (roots0 g) (roots0 g t) = true)) ∧
    (∀ (i : Nat) (ts : List ValueId),
      can_reinplace g (roots0 g) i (.vlist ts) = false ↔
      ∃ t ∈ ts, (roots0 g t < g.nIn ∨ usedAfter g (roots0 g) i (roots0 g t) = true ∨
        isOutRoot g (roots0 g) (roots0 g t) = true)) ∧
    (run_pass g).2 = failuresFrom g (roots0 g) 0 g.nodes ∧
    (run_pass countersGraph).2 = ["argument used after op"] := by
  have hval : ∀ (i : Nat) (t : ValueId),
      (checkVal g (roots0 g) i t).isNone = false ↔
      (roots0 g t < g.nIn ∨ usedAfter g (roots0 g) i (roots0 g t) = true ∨
        isOutRoot g (roots0 g) (roots0 g t) = true) := by
    intro i t
    rw [checkVal]
    by_cases h1 : roots0 g t < g.nIn
    · simp [h1]
    · rw [if_neg h1]
      by_cases h2 : (usedAfter g (roots0 g) i (roots0 g t)
          || isOutRoot g (roots0 g) (roots0 g t)) = true
      · rw [if_pos h2]
        rw [Bool.or_eq_true] at h2
        simp [h1, h2]
      · rw [if_neg h2]
        rw [Bool.or_eq_true] at h2
        push_neg at h2
        simp [h1, h2.1, h2.2]
  refine ⟨?_, ?_, ?_, ?_⟩
  · intro i t
    rw [can_reinplace, checkArg]
    exact hval i t
  · intro i ts
    rw [can_reinplace, checkArg]
    by_cases hall : ts.all (fun t => (checkVal g (roots0 g) i t).isNone) = true
    · rw [if_pos hall]
      rw [List.all_eq_true] at hall
      simp only [Option.isNone_none]
      constructor
      · intro hx; exact absurd hx (by simp)
      · rintro ⟨t, ht, hcond⟩
        have := hall t ht
        rw [← hval i t] at hcond
        rw [this] at hcond
        exact absurd hcond (by simp)
    · rw [if_neg hall]
      simp only [Option.isNone_some]
      constructor
      · intro _
        rw [List.all_eq_true] at hall
        push_neg at hall
        obtain ⟨t, ht, hfail⟩ := hall
        refine ⟨t, ht, ?_⟩
        rw [← hval i t]
        exact Bool.eq_false_iff.mpr hfail
      · intro _; trivial
  · rw [run_pass]
    exact passGo_counters g (roots0 g) g.nodes 0 ⟨[], [], freshBound g⟩
      (wf_mutsNodup g hwf)
  · decide

/-- Witness for C7 at the `test_counters` graph (well-formedness discharged
by computation): the counters recorded are exactly the per-node oracle
failures, and the single failure is "argument used after op". -/
theorem can_reinplace_spec_witness :
    (run_pass countersGraph).2
      = failuresFrom countersGraph (roots0 countersGraph) 0 countersGraph.nodes ∧
    (run_pass countersGraph).2 = ["argument used after op"] :=
  ⟨(can_reinplace_spec countersGraph (by decide)).2.2.1,
   (can_reinplace_spec countersGraph (by decide)).2.2.2⟩

/-- CLAIM C6: for a multi-output operation mutating several named buffers,
the oracle checks each buffer independently — the diagnostics of an
`auto_functionalized` node are exactly the independent per-buffer check
results, and a buffer whose own check succeeds keeps its original storage
(it is reinplaced) no matter how the other buffers fare; in particular, in
the `sin_cos` scenario with two fresh intermediate buffers both returned as
outputs, zero missed-opportunity diagnostics are recorded and the wrapper
is reinplaced onto both buffers. -/
theorem multi_output_independent (g : Graph) (i : Nat) (f : String)
    (muts : List Nat) (args : List Arg) (outs : List ValueId) (st : PassState)
    (hnodup : muts.Nodup) :
    (processNode g (roots0 g) i st ⟨.autoFunc f muts, args, outs⟩).counters
      = st.counters
        ++ muts.filterMap (fun k => checkArg g (roots0 g) i (args.getD k default)) ∧
    (processNode g (roots0 g) i st ⟨.autoFunc f muts, args, outs⟩).revNodes
      = (processMuts g (roots0 g) i muts st args).1.revNodes
        ++ [⟨.inplaceOp f muts, (processMuts g (roots0 g) i muts st args).2, outs⟩] ∧
    (∀ k ∈ muts, checkArg g (roots0 g) i (args.getD k default) = none →
      (processMuts g (roots0 g) i muts st args).2.getD k default
        = args.getD k default) ∧
    (run_pass multiOutGraph).2 = [] ∧
    (run_pass multiOutGraph).1.nodes
      = [⟨.pure "empty_like", [.val 0], [1]⟩,
         ⟨.pure "empty_like", [.val 0], [2]⟩,
         ⟨.inplaceOp "sin_cos" [1, 2], [.val 0, .val 1, .val 2], [3, 4]⟩,
         ⟨.pure "pow", [.val 0], [5]⟩] := by
  obtain ⟨hcnt, hkeep, hkept⟩ :=
    processMuts_spec g (roots0 g) i muts st args args (fun _ _ => rfl) hnodup
  refine ⟨?_, rfl, ?_, by decide, by decide⟩
  · show (processMuts g (roots0 g) i muts st args).1.counters = _
    exact hcnt
  · intro k hk hc
    exact hkept k hk hc

/-- Witness for C6: the `sin_cos` node of the scenario graph, with both
buffer checks succeeding, recording no diagnostics and keeping both
buffers' arguments unchanged in the rewritten in-place node. -/
theorem multi_output_independent_witness :
    (run_pass multiOutGraph).2 = [] ∧
    (run_pass multiOutGraph).1.nodes
      = [⟨.pure "empty_like", [.val 0], [1]⟩,
         ⟨.pure "empty_like", [.val 0], [2]⟩,
         ⟨.inplaceOp "sin_cos" [1, 2], [.val 0, .val 1, .val 2], [3, 4]⟩,
         ⟨.pure "pow", [.val 0], [5]⟩] :=
  (multi_output_independent multiOutGraph 2 "sin_cos" [1, 2]
    [.val 0, .val 1, .val 2] [3, 4] ⟨[], [], 7⟩ (by decide)).2.2.2

end Reinplace

namespace Reinplace

theorem upd_self (f : Nat → α) (k : Nat) (a : α) : upd f k a k = a := by
  simp [upd]

theorem upd_ne (f : Nat → α) (k : Nat) (a : α) (v : Nat) (h : v ≠ k) :
    upd f k a v = f v := by
  simp [upd, h]

theorem defBound_zero (g : Graph) : defBound g 0 = g.nIn := by
  simp [defBound]

theorem defBound_succ (g : Graph) (i : Nat) (h : i < g.nodes.length) :
    defBound g (i + 1) = defBound g i + outCount (g.nodes.getD i default) := by
  have hg : g.nodes.getD i default = g.nodes[i] := by
    rw [List.getD_eq_getElem?_getD, List.getElem?_eq_getElem h]
    rfl
  rw [hg, defBound, defBound, List.map_take, List.map_take, List.take_succ,
    List.getElem?_map, List.getElem?_eq_getElem h]
  simp [List.sum_append]
  omega

theorem defBound_mono (g : Graph) {i j : Nat} (h : i ≤ j) :
    defBound g i ≤ defBound g j := by
  rw [defBound, defBound]
  have heq : (g.nodes.take i).map outCount
      = ((g.nodes.take j).map outCount).take i := by
    rw [← List.map_take, List.take_take, Nat.min_eq_left h]
  rw [heq]
  have hle : (((g.nodes.take j).map outCount).take i).sum
      ≤ ((g.nodes.take j).map outCount).sum := by
    conv_rhs => rw [← List.take_append_drop i ((g.nodes.take j).map outCount)]
    rw [List.sum_append]
    omega
  omega

theorem nIn_le_defBound (g : Graph) (i : Nat) : g.nIn ≤ defBound g i :=
  defBound_zero g ▸ defBound_mono g (Nat.zero_le i)

theorem defBound_le_freshBound (g : Graph) (i : Nat) :
    defBound g i ≤ freshBound g := by
  rw [freshBound]
  by_cases h : i ≤ g.nodes.length
  · exact defBound_mono g h
  · rw [defBound, defBound, List.take_of_length_le (by omega),
      List.take_length]

/-- Alias groups after the first `i` nodes. -/
def rootsUpTo (g : Graph) (i : Nat) : Nat → Nat :=
  (g.nodes.take i).foldl rootStep (fun v => v)

theorem rootsUpTo_zero (g : Graph) : rootsUpTo g 0 = fun v => v := rfl

theorem rootsUpTo_succ (g : Graph) (i : Nat) (h : i < g.nodes.length) :
    rootsUpTo g (i + 1)
      = rootStep (rootsUpTo g i) (g.nodes.getD i default) := by
  rw [rootsUpTo, rootsUpTo, List.take_succ, List.getElem?_eq_getElem h]
  rw [List.foldl_append]
  simp [List.getD_eq_getElem?_getD, List.getElem?_eq_getElem h]

theorem rootsUpTo_length (g : Graph) :
    rootsUpTo g g.nodes.length = roots0 g := by
  rw [rootsUpTo, List.take_length, roots0]

theorem foldl_upd_untouched {A : Type} (key : A → Nat)
    (val : (Nat → Nat) → A → Nat) :
    ∀ (l : List A) (ρ : Nat → Nat) (v : Nat), (∀ a ∈ l, key a ≠ v) →
    (l.foldl (fun ρ2 a => upd ρ2 (key a) (val ρ2 a)) ρ) v = ρ v
  | [], _, _, _ => rfl
  | a :: l, ρ, v, h => by
    rw [List.foldl_cons]
    rw [foldl_upd_untouched key val l _ v
      (fun b hb => h b (List.mem_cons_of_mem a hb))]
    exact upd_ne _ _ _ _ (fun hc => h a (List.mem_cons_self a l) hc.symm)

theorem foldl_upd_self_eval :
    ∀ (l : List Nat) (ρ : Nat → Nat) (v : Nat),
    (l.foldl (fun ρ2 o => upd ρ2 o o) ρ) v = if v ∈ l then v else ρ v
  | [], _, _ => by simp
  | o :: l, ρ, v => by
    rw [List.foldl_cons, foldl_upd_self_eval l]
    by_cases hv : v ∈ l
    · simp [hv]
    · simp only [hv, if_false]
      by_cases hvo : v = o
      · subst hvo; rw [upd_self]; simp
      · rw [upd_ne _ _ _ _ hvo]
        simp [hvo, hv, List.mem_cons]

theorem foldl_upd_pairs_eval :
    ∀ (ps : List (Nat × Nat)) (ρ : Nat → Nat) (v : Nat),
    (ps.foldl (fun ρ2 q => upd ρ2 q.1 q.2) ρ) v =
      match (ps.reverse).find? (fun q => q.1 == v) with
      | some q => q.2
      | none => ρ v
  | [], _, _ => rfl
  | q :: ps, ρ, v => by
    rw [List.foldl_cons, foldl_upd_pairs_eval ps]
    rw [List.reverse_cons, List.find?_append]
    cases hf : ps.reverse.find? (fun q2 => q2.1 == v) with
    | some q2 => simp [hf]
    | none =>
      simp only [hf, Option.none_or]
      by_cases hv : q.1 = v
      · subst hv
        simp [upd_self]
      · rw [upd_ne _ _ _ _ (fun hc => hv hc.symm)]
        simp [hv]

end Reinplace

namespace Reinplace

theorem targetsOf_subset_flat (args : List Arg) (muts : List Nat) :
    ∀ t ∈ targetsOf args muts, t ∈ args.flatMap Arg.elems := by
  intro t ht
  rw [targetsOf, List.mem_flatMap] at ht
  obtain ⟨k, _, hk⟩ := ht
  by_cases hlen : k < args.length
  · rw [List.mem_flatMap]
    refine ⟨args.getD k default, ?_, hk⟩
    rw [List.getD_eq_getElem?_getD, List.getElem?_eq_getElem hlen]
    exact List.getElem_mem hlen
  · rw [List.getD_eq_getElem?_getD, List.getElem?_eq_none (by omega)] at hk
    simp [Arg.elems] at hk

theorem wf_node (g : Graph) (hwf : WF g = true) (i : Nat)
    (h : i < g.nodes.length) :
    nodeWF g i (g.nodes.getD i default) = true := by
  have hall := (Bool.and_eq_true_iff.mp hwf).1
  rw [List.all_eq_true] at hall
  have hg : g.nodes.getD i default = g.nodes[i] := by
    rw [List.getD_eq_getElem?_getD, List.getElem?_eq_getElem h]
    rfl
  rw [hg]
  exact hall (i, g.nodes[i])
    (by rw [List.mem_enum_iff_getElem?, List.getElem?_eq_getElem h])

theorem wf_node_parts (g : Graph) (hwf : WF g = true) (i : Nat)
    (h : i < g.nodes.length) :
    (∀ v ∈ (g.nodes.getD i default).args.flatMap Arg.elems,
      v < defBound g i) ∧
    (g.nodes.getD i default).outs
      = List.range' (defBound g i) (outCount (g.nodes.getD i default)) := by
  have := wf_node g hwf i h
  rw [nodeWF, Bool.and_eq_true_iff, Bool.and_eq_true_iff] at this
  obtain ⟨⟨h1, h2⟩, -⟩ := this
  constructor
  · rw [List.all_eq_true] at h1
    intro v hv
    have := h1 v hv
    exact of_decide_eq_true this
  · exact of_decide_eq_true h2

theorem wf_outputs (g : Graph) (hwf : WF g = true) :
    ∀ v ∈ g.outputs, v < freshBound g := by
  have hall := (Bool.and_eq_true_iff.mp hwf).2
  rw [List.all_eq_true] at hall
  intro v hv
  exact of_decide_eq_true (hall v hv)

theorem rootStep_untouched (ρ : Nat → Nat) (n : Node) (c : Nat)
    (houts : n.outs = List.range' c (outCount n)) (v : Nat)
    (hv : v < c ∨ c + outCount n ≤ v) : rootStep ρ n v = ρ v := by
  have hnotmem : v ∉ n.outs := by
    rw [houts, List.mem_range']
    omega
  obtain ⟨kind, args, outs⟩ := n
  cases kind with
  | view =>
    show upd ρ (outs.headD 0) (ρ (headVal args)) v = ρ v
    apply upd_ne
    intro hc
    apply hnotmem
    rw [hc]
    have h1 : outCount ⟨.view, args, outs⟩ = 1 := rfl
    rw [h1] at houts
    show outs.headD 0 ∈ outs
    rw [show outs = List.range' c 1 from houts]
    exact List.mem_singleton.mpr rfl
  | pure f =>
    show upd ρ (outs.headD 0) (outs.headD 0) v = ρ v
    apply upd_ne
    intro hc
    apply hnotmem
    rw [hc]
    have h1 : outCount ⟨.pure f, args, outs⟩ = 1 := rfl
    rw [h1] at houts
    show outs.headD 0 ∈ outs
    rw [show outs = List.range' c 1 from houts]
    exact List.mem_singleton.mpr rfl
  | inplaceable f =>
    show upd ρ (outs.headD 0) (outs.headD 0) v = ρ v
    apply upd_ne
    intro hc
    apply hnotmem
    rw [hc]
    have h1 : outCount ⟨.inplaceable f, args, outs⟩ = 1 := rfl
    rw [h1] at houts
    show outs.headD 0 ∈ outs
    rw [show outs = List.range' c 1 from houts]
    exact List.mem_singleton.mpr rfl
  | clone =>
    show upd ρ (outs.headD 0) (outs.headD 0) v = ρ v
    apply upd_ne
    intro hc
    apply hnotmem
    rw [hc]
    have h1 : outCount ⟨.clone, args, outs⟩ = 1 := rfl
    rw [h1] at houts
    show outs.headD 0 ∈ outs
    rw [show outs = List.range' c 1 from houts]
    exact List.mem_singleton.mpr rfl
  | autoFunc f muts =>
    show (outs.foldl (fun ρ2 o => upd ρ2 o o) ρ) v = ρ v
    exact foldl_upd_untouched (fun o => o) (fun _ o => o) outs ρ v
      (fun a ha hc => hnotmem (hc ▸ ha))
  | inplaceOp f muts =>
    show ((List.zip outs ((targetsOf args muts).map ρ)).foldl
      (fun ρ2 p => upd ρ2 p.1 p.2) ρ) v = ρ v
    apply foldl_upd_untouched Prod.fst (fun _ q => q.2)
    intro q hq hc
    exact hnotmem (hc ▸ (List.of_mem_zip hq).1)

theorem rootsUpTo_stable (g : Graph) (hwf : WF g = true) (i : Nat) :
    ∀ j, i ≤ j → j ≤ g.nodes.length →
    ∀ v, v < defBound g i → rootsUpTo g j v = rootsUpTo g i v := by
  intro j
  induction j with
  | zero =>
    intro hij _ v _
    have : i = 0 := by omega
    subst this; rfl
  | succ j ihj =>
    intro hij hlen v hv
    by_cases hcase : i = j + 1
    · subst hcase; rfl
    · have hij2 : i ≤ j := by omega
      have hjlen : j < g.nodes.length := by omega
      rw [rootsUpTo_succ g j hjlen]
      rw [rootStep_untouched _ _ (defBound g j)
        (wf_node_parts g hwf j hjlen).2 v
        (Or.inl (by
          have := defBound_mono g hij2
          omega))]
      exact ihj hij2 (by omega) v hv

theorem roots0_eq_upTo (g : Graph) (hwf : WF g = true) (i : Nat)
    (hlen : i ≤ g.nodes.length) (v : Nat) (hv : v < defBound g i) :
    roots0 g v = rootsUpTo g i v := by
  rw [← rootsUpTo_length g]
  exact rootsUpTo_stable g hwf i g.nodes.length hlen (le_refl _) v hv

theorem rootsUpTo_high (g : Graph) (hwf : WF g = true) :
    ∀ i, i ≤ g.nodes.length → ∀ v, defBound g i ≤ v → rootsUpTo g i v = v := by
  intro i
  induction i with
  | zero => intro _ v _; rfl
  | succ i ihi =>
    intro hlen v hv
    have hilen : i < g.nodes.length := by omega
    rw [rootsUpTo_succ g i hilen]
    rw [rootStep_untouched _ _ (defBound g i)
      (wf_node_parts g hwf i hilen).2 v
      (Or.inr (by
        rw [← defBound_succ g i hilen]
        omega))]
    exact ihi (by omega) v (le_trans (defBound_mono g (by omega)) hv)

theorem roots0_high (g : Graph) (hwf : WF g = true) (v : Nat)
    (hv : freshBound g ≤ v) : roots0 g v = v := by
  rw [← rootsUpTo_length g]
  exact rootsUpTo_high g hwf g.nodes.length (le_refl _) v hv

theorem roots0_input (g : Graph) (hwf : WF g = true) (v : Nat)
    (hv : v < g.nIn) : roots0 g v = v := by
  rw [roots0_eq_upTo g hwf 0 (Nat.zero_le _) v (by rw [defBound_zero]; omega)]
  rfl

end Reinplace

namespace Reinplace

theorem find?_key_unique :
    ∀ (ps : List (Nat × Nat)), ((ps.map Prod.fst).Nodup) →
    ∀ q : Nat × Nat, q ∈ ps → ps.find? (fun p => p.1 == q.1) = some q
  | [], _, q, hq => absurd hq (List.not_mem_nil q)
  | p :: ps, hnd, q, hq => by
    rw [List.map_cons, List.nodup_cons] at hnd
    rcases List.mem_cons.mp hq with rfl | hq2
    · exact List.find?_cons_of_pos _ (by simp)
    · have hne : p.1 ≠ q.1 := by
        intro hc
        exact hnd.1 (hc ▸ List.mem_map_of_mem Prod.fst hq2)
      rw [List.find?_cons_of_neg _ (by simpa using hne)]
      exact find?_key_unique ps hnd.2 q hq2

theorem mem_range1 (s n m : Nat) : m ∈ List.range' s n ↔ s ≤ m ∧ m < s + n := by
  rw [List.mem_range']
  constructor
  · rintro ⟨i, hi, rfl⟩
    omega
  · rintro ⟨h1, h2⟩
    exact ⟨m - s, by omega, by omega⟩

theorem rootStep_le (ρ : Nat → Nat) (n : Node) (c : Nat)
    (hρ : ∀ u, ρ u ≤ u)
    (hargs : ∀ e ∈ n.args.flatMap Arg.elems, e < c)
    (houts : n.outs = List.range' c (outCount n)) :
    ∀ v, rootStep ρ n v ≤ v := by
  intro v
  by_cases hmem : v ∈ n.outs
  swap
  · have huntouched : rootStep ρ n v = ρ v := by
      apply rootStep_untouched ρ n c houts
      rw [houts, mem_range1 _ _ _] at hmem
      omega
    rw [huntouched]
    exact hρ v
  obtain ⟨kind, args, outs⟩ := n
  have hheadval : ρ (headVal args) ≤ v := by
    by_cases hflat : args.flatMap Arg.elems = []
    · rw [headVal, hflat]
      show ρ 0 ≤ v
      have := hρ 0
      omega
    · have hmem2 : (args.flatMap Arg.elems).headD 0 ∈ args.flatMap Arg.elems := by
        cases hns : args.flatMap Arg.elems with
        | nil => exact absurd hns hflat
        | cons a l => simp
      have h1 : (args.flatMap Arg.elems).headD 0 < c := hargs _ hmem2
      have h2 := hρ ((args.flatMap Arg.elems).headD 0)
      have h3 : c ≤ v := by
        rw [houts, mem_range1 _ _ _] at hmem
        omega
      rw [headVal]
      exact le_trans h2 (le_trans (Nat.le_of_lt h1) h3)
  cases kind with
  | view =>
    show upd ρ (outs.headD 0) (ρ (headVal args)) v ≤ v
    by_cases hv : v = outs.headD 0
    · rw [hv, upd_self]
      rw [← hv]
      exact hheadval
    · rw [upd_ne _ _ _ _ hv]
      exact hρ v
  | pure f =>
    show upd ρ (outs.headD 0) (outs.headD 0) v ≤ v
    by_cases hv : v = outs.headD 0
    · rw [hv, upd_self]
    · rw [upd_ne _ _ _ _ hv]; exact hρ v
  | inplaceable f =>
    show upd ρ (outs.headD 0) (outs.headD 0) v ≤ v
    by_cases hv : v = outs.headD 0
    · rw [hv, upd_self]
    · rw [upd_ne _ _ _ _ hv]; exact hρ v
  | clone =>
    show upd ρ (outs.headD 0) (outs.headD 0) v ≤ v
    by_cases hv : v = outs.headD 0
    · rw [hv, upd_self]
    · rw [upd_ne _ _ _ _ hv]; exact hρ v
  | autoFunc f muts =>
    show (outs.foldl (fun ρ2 o => upd ρ2 o o) ρ) v ≤ v
    rw [foldl_upd_self_eval]
    by_cases hv : v ∈ outs
    · simp [hv]
    · simp [hv]; exact hρ v
  | inplaceOp f muts =>
    show ((List.zip outs ((targetsOf args muts).map ρ)).foldl
      (fun ρ2 p => upd ρ2 p.1 p.2) ρ) v ≤ v
    rw [foldl_upd_pairs_eval]
    cases hf : (List.zip outs ((targetsOf args muts).map ρ)).reverse.find?
        (fun q => q.1 == v) with
    | none => exact hρ v
    | some q =>
      have hq1 : q ∈ List.zip outs ((targetsOf args muts).map ρ) := by
        have := List.mem_of_find?_eq_some hf
        exact List.mem_reverse.mp this
      have hq2 : q.2 ∈ (targetsOf args muts).map ρ := (List.of_mem_zip hq1).2
      rw [List.mem_map] at hq2
      obtain ⟨t, ht, hq3⟩ := hq2
      have ht2 : t ∈ args.flatMap Arg.elems := targetsOf_subset_flat args muts t ht
      have h1 : t < c := hargs t ht2
      have h2 := hρ t
      have h3 : c ≤ v := by
        rw [houts, mem_range1 _ _ _] at hmem
        omega
      show q.2 ≤ v
      rw [← hq3]
      omega

theorem rootsUpTo_le (g : Graph) (hwf : WF g = true) :
    ∀ i, i ≤ g.nodes.length → ∀ v, rootsUpTo g i v ≤ v := by
  intro i
  induction i with
  | zero => intro _ v; exact le_refl v
  | succ i ihi =>
    intro hlen v
    have hilen : i < g.nodes.length := by omega
    rw [rootsUpTo_succ g i hilen]
    obtain ⟨hargs, houts⟩ := wf_node_parts g hwf i hilen
    exact rootStep_le (rootsUpTo g i) _ (defBound g i)
      (ihi (by omega)) hargs houts v

theorem roots0_le (g : Graph) (hwf : WF g = true) (v : Nat) :
    roots0 g v ≤ v := by
  rw [← rootsUpTo_length g]
  exact rootsUpTo_le g hwf g.nodes.length (le_refl _) v

theorem roots0_lt_defBound (g : Graph) (hwf : WF g = true) (i v : Nat)
    (hv : v < defBound g i) : roots0 g v < defBound g i :=
  lt_of_le_of_lt (roots0_le g hwf v) hv

end Reinplace

namespace Reinplace

theorem roots0_at (g : Graph) (hwf : WF g = true) (i : Nat)
    (h : i < g.nodes.length) (v : Nat) (hv2 : v < defBound g (i + 1)) :
    roots0 g v = rootStep (rootsUpTo g i) (g.nodes.getD i default) v := by
  rw [roots0_eq_upTo g hwf (i + 1) (by omega) v hv2]
  rw [rootsUpTo_succ g i h]

theorem liveFrom_mono (g : Graph) (ρ : Nat → Nat) (i : Nat) (r : Nat)
    (hl : liveFrom g ρ (i + 1) r = true) : liveFrom g ρ i r = true := by
  rw [liveFrom, Bool.or_eq_true] at hl ⊢
  rcases hl with hl | hl
  · left
    rw [List.any_eq_true] at hl ⊢
    obtain ⟨n, hn, hr⟩ := hl
    refine ⟨n, ?_, hr⟩
    have hdd : g.nodes.drop (i + 1) = (g.nodes.drop i).drop 1 := by
      rw [List.drop_drop]
    rw [hdd] at hn
    exact List.mem_of_mem_drop hn
  · right
    exact hl

theorem liveFrom_succ_eq (g : Graph) (ρ : Nat → Nat) (i : Nat) (r : Nat) :
    liveFrom g ρ (i + 1) r = (usedAfter g ρ i r || isOutRoot g ρ r) := rfl

theorem liveFrom_of_reads (g : Graph) (ρ : Nat → Nat) (i : Nat)
    (h : i < g.nodes.length) (v : ValueId)
    (hv : v ∈ (g.nodes.getD i default).args.flatMap Arg.elems) :
    liveFrom g ρ i (ρ v) = true := by
  rw [liveFrom, Bool.or_eq_true]
  left
  rw [List.any_eq_true]
  refine ⟨g.nodes.getD i default, ?_, ?_⟩
  · rw [List.getD_eq_getElem?_getD, List.getElem?_eq_getElem h]
    show g.nodes[i] ∈ g.nodes.drop i
    rw [List.drop_eq_getElem_cons h]
    exact List.mem_cons_self _ _
  · rw [readsRoot, List.any_eq_true]
    exact ⟨v, hv, by simp⟩

theorem liveFrom_fresh_false (g : Graph) (hwf : WF g = true) (i : Nat)
    (r : Nat) (hr : freshBound g ≤ r) :
    liveFrom g (roots0 g) i r = false := by
  rw [liveFrom, Bool.or_eq_false_iff]
  constructor
  · rw [List.any_eq_false]
    intro n hn
    rw [Bool.not_eq_true, readsRoot, List.any_eq_false]
    intro v hv
    rw [Bool.not_eq_true, beq_eq_false_iff_ne]
    have hmemn : n ∈ g.nodes := List.mem_of_mem_drop hn
    obtain ⟨j, hj, hget⟩ := List.mem_iff_getElem.mp hmemn
    have hgetD : g.nodes.getD j default = n := by
      rw [List.getD_eq_getElem?_getD, List.getElem?_eq_getElem hj, hget]
      rfl
    have hlt : v < defBound g j := by
      apply (wf_node_parts g hwf j hj).1
      rw [hgetD]
      exact hv
    have h1 : roots0 g v ≤ v := roots0_le g hwf v
    have h2 : defBound g j ≤ freshBound g := defBound_le_freshBound g j
    exact Nat.ne_of_lt
      (lt_of_le_of_lt h1 (lt_of_lt_of_le hlt (le_trans h2 hr)))
  · rw [isOutRoot, List.any_eq_false]
    intro v hv
    rw [Bool.not_eq_true, beq_eq_false_iff_ne]
    have h1 : v < freshBound g := wf_outputs g hwf v hv
    have h2 : roots0 g v ≤ v := roots0_le g hwf v
    exact Nat.ne_of_lt
      (lt_of_le_of_lt h2 (lt_of_lt_of_le h1 hr))

theorem checkVal_none_iff (g : Graph) (ρ : Nat → Nat) (i : Nat)
    (t : ValueId) :
    checkVal g ρ i t = none ↔
      (g.nIn ≤ ρ t ∧ usedAfter g ρ i (ρ t) = false ∧
        isOutRoot g ρ (ρ t) = false) := by
  rw [checkVal]
  by_cases h1 : ρ t < g.nIn
  · rw [if_pos h1]
    constructor
    · intro hc
      exact absurd hc (by simp)
    · rintro ⟨ha, -, -⟩
      exact absurd h1 (by omega)
  · rw [if_neg h1]
    by_cases h2 : (usedAfter g ρ i (ρ t) || isOutRoot g ρ (ρ t)) = true
    · rw [if_pos h2]
      constructor
      · intro hc
        exact absurd hc (by simp)
      · rintro ⟨-, hu, ho⟩
        rw [Bool.or_eq_true] at h2
        rcases h2 with h2 | h2
        · rw [h2] at hu
          exact absurd hu (by simp)
        · rw [h2] at ho
          exact absurd ho (by simp)
    · rw [if_neg h2]
      rw [Bool.or_eq_true] at h2
      push_neg at h2
      constructor
      · intro _
        exact ⟨by omega, Bool.eq_false_iff.mpr h2.1, Bool.eq_false_iff.mpr h2.2⟩
      · intro _
        rfl

theorem checkVal_none_not_live (g : Graph) (i : Nat) (t : ValueId)
    (hc : checkVal g (roots0 g) i t = none) :
    liveFrom g (roots0 g) (i + 1) (roots0 g t) = false := by
  rw [checkVal_none_iff] at hc
  rw [liveFrom_succ_eq, hc.2.1, hc.2.2]
  rfl

end Reinplace

namespace Reinplace

/-- The defensive copy nodes for the elements `es`, numbered from `fr`. -/
def cloneNodes (fr : Nat) : List ValueId → List Node
  | [] => []
  | e :: es => ⟨.clone, [.val e], [fr]⟩ :: cloneNodes (fr + 1) es

theorem cloneElems_nodes : ∀ (es : List ValueId) (st : PassState),
    (cloneElems st es).1.revNodes = st.revNodes ++ cloneNodes st.fresh es
  | [], st => by simp [cloneElems, cloneNodes]
  | e :: es, st => by
    show (cloneElems
      { st with
          revNodes := st.revNodes ++ [⟨.clone, [.val e], [st.fresh]⟩],
          fresh := st.fresh + 1 } es).1.revNodes
      = st.revNodes ++ cloneNodes st.fresh (e :: es)
    rw [cloneElems_nodes es]
    show (st.revNodes ++ [⟨.clone, [.val e], [st.fresh]⟩])
        ++ cloneNodes (st.fresh + 1) es
      = st.revNodes ++ (⟨.clone, [.val e], [st.fresh]⟩ :: cloneNodes (st.fresh + 1) es)
    rw [List.append_assoc]
    rfl

theorem cloneNodes_length (es : List ValueId) :
    ∀ fr, (cloneNodes fr es).length = es.length := by
  induction es with
  | nil => intro fr; rfl
  | cons e es ih =>
    intro fr
    show (cloneNodes (fr + 1) es).length + 1 = es.length + 1
    rw [ih (fr + 1)]

theorem cloneArg_nodes (st : PassState) (a : Arg) :
    (cloneArg st a).1.revNodes = st.revNodes ++ cloneNodes st.fresh a.elems := by
  cases a with
  | val e => exact cloneElems_nodes [e] st
  | vlist es => exact cloneElems_nodes es st

theorem cloneArg_fresh (st : PassState) (a : Arg) :
    (cloneArg st a).1.fresh = st.fresh + a.elems.length := by
  cases a with
  | val e => exact cloneElems_fresh [e] st
  | vlist es => exact cloneElems_fresh es st

theorem cloneArg_arg (st : PassState) (a : Arg) :
    (cloneArg st a).2 = (match a with
      | .val _ => Arg.val st.fresh
      | .vlist es => Arg.vlist (List.range' st.fresh es.length)) := by
  cases a with
  | val e =>
    show Arg.val ((cloneElems st [e]).2.headD 0) = _
    rw [cloneElems_ids]
    rfl
  | vlist es =>
    show Arg.vlist (cloneElems st es).2 = _
    rw [cloneElems_ids]

theorem processMuts_canon (g : Graph) (ρ : Nat → Nat) (i : Nat) :
    ∀ (muts : List Nat) (st : PassState) (args : List Arg),
    (processMuts g ρ i muts st args).1.revNodes
      = st.revNodes
        ++ (processMuts g ρ i muts ⟨[], [], st.fresh⟩ args).1.revNodes ∧
    (processMuts g ρ i muts st args).1.fresh
      = (processMuts g ρ i muts ⟨[], [], st.fresh⟩ args).1.fresh ∧
    (processMuts g ρ i muts st args).2
      = (processMuts g ρ i muts ⟨[], [], st.fresh⟩ args).2 := by
  intro muts
  induction muts with
  | nil =>
    intro st args
    exact ⟨by simp [processMuts], rfl, rfl⟩
  | cons k rest ih =>
    intro st args
    cases hc : checkArg g ρ i (args.getD k default) with
    | none =>
      have hstep : ∀ (st2 : PassState),
          processMuts g ρ i (k :: rest) st2 args
            = processMuts g ρ i rest st2 args := by
        intro st2
        simp only [processMuts, hc]
      rw [hstep st, hstep ⟨[], [], st.fresh⟩]
      exact ih st args
    | some reason =>
      have hstep : ∀ (st2 : PassState),
          processMuts g ρ i (k :: rest) st2 args
            = processMuts g ρ i rest
                (cloneArg { st2 with counters := st2.counters ++ [reason] }
                  (args.getD k default)).1
                (args.set k
                  (cloneArg { st2 with counters := st2.counters ++ [reason] }
                    (args.getD k default)).2) := by
        intro st2
        simp only [processMuts, hc]
      rw [hstep st, hstep ⟨[], [], st.fresh⟩]
      simp only [List.nil_append]
      set a := args.getD k default with ha
      set stL := (cloneArg { st with counters := st.counters ++ [reason] } a).1
        with hstL
      have hargeq :
          (cloneArg { st with counters := st.counters ++ [reason] } a).2
            = (cloneArg (⟨[], [reason], st.fresh⟩ : PassState) a).2 := by
        rw [cloneArg_arg, cloneArg_arg]
      set stR := (cloneArg (⟨[], [reason], st.fresh⟩ : PassState) a).1
        with hstR
      have hfreq : stL.fresh = stR.fresh := by
        rw [hstL, hstR, cloneArg_fresh, cloneArg_fresh]
      have hnodesL : stL.revNodes
          = st.revNodes ++ cloneNodes st.fresh a.elems := by
        rw [hstL, cloneArg_nodes]
      have hnodesR : stR.revNodes = cloneNodes st.fresh a.elems := by
        rw [hstR, cloneArg_nodes]
        rfl
      rw [hargeq]
      set args2 := args.set k (cloneArg (⟨[], [reason], st.fresh⟩ : PassState) a).2
      obtain ⟨ihL1, ihL2, ihL3⟩ := ih stL args2
      obtain ⟨ihR1, ihR2, ihR3⟩ := ih stR args2
      have hcanonEq : (⟨[], [], stL.fresh⟩ : PassState)
          = (⟨[], [], stR.fresh⟩ : PassState) := by
        rw [hfreq]
      refine ⟨?_, ?_, ?_⟩
      · rw [ihL1, ihR1, hcanonEq, hnodesL, hnodesR, List.append_assoc]
      · rw [ihL2, ihR2, hcanonEq]
      · rw [ihL3, ihR3, hcanonEq]

end Reinplace

namespace Reinplace

/-- The nodes the rewriter emits for one input node, given the next fresh
defensive-copy id. -/
def emit (g : Graph) (ρ : Nat → Nat) (i : Nat) (fr : Nat) (n : Node) :
    List Node :=
  match n.kind with
  | .inplaceable f =>
      match n.args with
      | .val t :: _ =>
          if can_reinplace g ρ i (.val t) then
            [⟨.inplaceOp f [0], n.args, n.outs⟩]
          else [n]
      | _ => [n]
  | .autoFunc f muts =>
      (processMuts g ρ i muts ⟨[], [], fr⟩ n.args).1.revNodes
        ++ [⟨.inplaceOp f muts,
            (processMuts g ρ i muts ⟨[], [], fr⟩ n.args).2, n.outs⟩]
  | _ => [n]

/-- The fresh id remaining after emitting one node. -/
def emitFresh (g : Graph) (ρ : Nat → Nat) (i : Nat) (fr : Nat) (n : Node) :
    Nat :=
  match n.kind with
  | .autoFunc _ muts => (processMuts g ρ i muts ⟨[], [], fr⟩ n.args).1.fresh
  | _ => fr

theorem processNode_emit (g : Graph) (ρ : Nat → Nat) (i : Nat)
    (st : PassState) (n : Node) :
    (processNode g ρ i st n).revNodes
      = st.revNodes ++ emit g ρ i st.fresh n ∧
    (processNode g ρ i st n).fresh = emitFresh g ρ i st.fresh n := by
  obtain ⟨kind, args, outs⟩ := n
  cases kind with
  | autoFunc f muts =>
    obtain ⟨h1, h2, h3⟩ := processMuts_canon g ρ i muts st args
    constructor
    · show (processMuts g ρ i muts st args).1.revNodes
          ++ [⟨.inplaceOp f muts, (processMuts g ρ i muts st args).2, outs⟩]
        = st.revNodes ++ ((processMuts g ρ i muts ⟨[], [], st.fresh⟩ args).1.revNodes
          ++ [⟨.inplaceOp f muts,
              (processMuts g ρ i muts ⟨[], [], st.fresh⟩ args).2, outs⟩])
      rw [h1, h3, List.append_assoc]
    · show (processMuts g ρ i muts st args).1.fresh = _
      exact h2
  | inplaceable f =>
    cases args with
    | nil => exact ⟨rfl, rfl⟩
    | cons a rest =>
      cases a with
      | vlist vs => exact ⟨rfl, rfl⟩
      | val t =>
        by_cases hcan : can_reinplace g ρ i (.val t) = true
        · constructor
          · show (processNode g ρ i st ⟨.inplaceable f, .val t :: rest, outs⟩).revNodes
              = st.revNodes ++ emit g ρ i st.fresh ⟨.inplaceable f, .val t :: rest, outs⟩
            rw [processNode]
            rw [emit]
            simp only [hcan, if_true]
          · simp only [processNode, emitFresh, hcan, if_true]
        · have hcan2 : can_reinplace g ρ i (.val t) = false :=
            Bool.eq_false_iff.mpr hcan
          constructor
          · show (processNode g ρ i st ⟨.inplaceable f, .val t :: rest, outs⟩).revNodes
              = st.revNodes ++ emit g ρ i st.fresh ⟨.inplaceable f, .val t :: rest, outs⟩
            rw [processNode]
            rw [emit]
            simp only [hcan2, Bool.false_eq_true, if_false]
          · simp only [processNode, emitFresh, hcan2, Bool.false_eq_true,
              if_false]
  | pure f => exact ⟨rfl, rfl⟩
  | view => exact ⟨rfl, rfl⟩
  | clone => exact ⟨rfl, rfl⟩
  | inplaceOp f muts => exact ⟨rfl, rfl⟩

/-- The full rewritten node list, from node `i` on with next fresh id
`fr`. -/
def rwNodes (g : Graph) (ρ : Nat → Nat) : Nat → Nat → List Node → List Node
  | _, _, [] => []
  | i, fr, n :: rest =>
      emit g ρ i fr n ++ rwNodes g ρ (i + 1) (emitFresh g ρ i fr n) rest

theorem passGo_nodes (g : Graph) (ρ : Nat → Nat) :
    ∀ (ns : List Node) (i : Nat) (st : PassState),
    (passGo g ρ i st ns).revNodes
      = st.revNodes ++ rwNodes g ρ i st.fresh ns := by
  intro ns
  induction ns with
  | nil => intro i st; simp [passGo, rwNodes]
  | cons n rest ih =>
    intro i st
    show (passGo g ρ (i + 1) (processNode g ρ i st n) rest).revNodes = _
    rw [ih (i + 1) (processNode g ρ i st n)]
    obtain ⟨h1, h2⟩ := processNode_emit g ρ i st n
    rw [h1, h2, rwNodes, List.append_assoc]

theorem run_pass_nodes (g : Graph) :
    (run_pass g).1.nodes
      = rwNodes g (roots0 g) 0 (freshBound g) g.nodes := by
  rw [run_pass]
  exact passGo_nodes g (roots0 g) g.nodes 0 ⟨[], [], freshBound g⟩

end Reinplace

namespace Reinplace

theorem foldl_upd_eval {A γ : Type} (key : A → Nat) (val : A → γ) :
    ∀ (qs : List A) (m : Nat → γ) (v : Nat),
    (qs.foldl (fun m2 q => upd m2 (key q) (val q)) m) v
      = match qs.reverse.find? (fun q => key q == v) with
        | some q => val q
        | none => m v
  | [], m, v => rfl
  | q :: qs, m, v => by
    rw [List.foldl_cons, foldl_upd_eval key val qs]
    rw [List.reverse_cons, List.find?_append]
    cases hf : qs.reverse.find? (fun q2 => key q2 == v) with
    | some q2 => simp [hf]
    | none =>
      simp only [hf, Option.none_or]
      by_cases hv : key q = v
      · subst hv
        simp [upd_self]
      · rw [upd_ne _ _ _ _ (fun hc => hv hc.symm)]
        simp [hv]

theorem writeList_root : ∀ (ps : List (ValueId × V)) (σ : St V),
    ((ps.foldl (fun σ2 p => writeGroup σ2 p.1 p.2) σ)).root = σ.root
  | [], _ => rfl
  | p :: ps, σ => by
    rw [List.foldl_cons, writeList_root ps]
    rfl

theorem writeList_env : ∀ (ps : List (ValueId × V)) (σ : St V) (v : ValueId),
    ((ps.foldl (fun σ2 p => writeGroup σ2 p.1 p.2) σ)).env v
      = match ps.reverse.find? (fun p => σ.root p.1 == σ.root v) with
        | some p => p.2
        | none => σ.env v
  | [], _, _ => rfl
  | p :: ps, σ, v => by
    rw [List.foldl_cons, writeList_env ps (writeGroup σ p.1 p.2) v]
    rw [List.reverse_cons, List.find?_append]
    have hroot : (writeGroup σ p.1 p.2).root = σ.root := rfl
    rw [hroot]
    cases hf : ps.reverse.find? (fun q => σ.root q.1 == σ.root v) with
    | some q => simp [hf]
    | none =>
      simp only [hf, Option.none_or]
      by_cases hv : σ.root v = σ.root p.1
      · have hb : (σ.root p.1 == σ.root v) = true := by
          rw [hv]
          exact beq_self_eq_true _
        have hfind : List.find? (fun q => σ.root q.1 == σ.root v) [p] = some p := by
          simp [List.find?_cons, hb]
        rw [hfind]
        show (writeGroup σ p.1 p.2).env v = p.2
        rw [writeGroup]
        simp [hv]
      · have hb : (σ.root p.1 == σ.root v) = false := by
          rw [beq_eq_false_iff_ne]
          exact fun hc => hv hc.symm
        have hfind : List.find? (fun q => σ.root q.1 == σ.root v) [p] = none := by
          simp [List.find?_cons, hb]
        rw [hfind]
        show (writeGroup σ p.1 p.2).env v = σ.env v
        rw [writeGroup]
        simp [hv]

theorem defineFreshList_env (w : ValueId × Nat → V) :
    ∀ (ps : List (ValueId × Nat)) (σ : St V),
    ((ps.foldl (fun σ2 p => defineFresh σ2 p.1 (w p)) σ)).env
      = ps.foldl (fun e p => upd e p.1 (w p)) σ.env
  | [], _ => rfl
  | p :: ps, σ => by
    rw [List.foldl_cons, List.foldl_cons,
      defineFreshList_env w ps (defineFresh σ p.1 (w p))]
    rfl

theorem defineFreshList_root (w : ValueId × Nat → V) :
    ∀ (ps : List (ValueId × Nat)) (σ : St V),
    ((ps.foldl (fun σ2 p => defineFresh σ2 p.1 (w p)) σ)).root
      = ps.foldl (fun r p => upd r p.1 p.1) σ.root
  | [], _ => rfl
  | p :: ps, σ => by
    rw [List.foldl_cons, List.foldl_cons,
      defineFreshList_root w ps (defineFresh σ p.1 (w p))]
    rfl

theorem defineRootedList_env :
    ∀ (qs : List (ValueId × (ValueId × V))) (σ : St V),
    ((qs.foldl (fun σ2 q => defineRooted σ2 q.1 q.2.1 q.2.2) σ)).env
      = qs.foldl (fun e q => upd e q.1 q.2.2) σ.env
  | [], _ => rfl
  | q :: qs, σ => by
    rw [List.foldl_cons, List.foldl_cons,
      defineRootedList_env qs (defineRooted σ q.1 q.2.1 q.2.2)]
    rfl

theorem defineRootedList_root :
    ∀ (qs : List (ValueId × (ValueId × V))) (σ : St V),
    ((qs.foldl (fun σ2 q => defineRooted σ2 q.1 q.2.1 q.2.2) σ)).root
      = qs.foldl (fun r q => upd r q.1 q.2.1) σ.root
  | [], _ => rfl
  | q :: qs, σ => by
    rw [List.foldl_cons, List.foldl_cons,
      defineRootedList_root qs (defineRooted σ q.1 q.2.1 q.2.2)]
    rfl

theorem cloneNodes_exec (interp : String → Nat → List V → V) :
    ∀ (es : List ValueId) (σ : St V) (fr : Nat), (∀ e ∈ es, e < fr) →
    (∀ v, ¬ (fr ≤ v ∧ v < fr + es.length) →
      (execNodes interp σ (cloneNodes fr es)).env v = σ.env v ∧
      (execNodes interp σ (cloneNodes fr es)).root v = σ.root v) ∧
    (∀ m, m < es.length →
      (execNodes interp σ (cloneNodes fr es)).env (fr + m)
        = σ.env (es.getD m 0) ∧
      (execNodes interp σ (cloneNodes fr es)).root (fr + m) = fr + m)
  | [], σ, fr, _ => by
    constructor
    · intro v _
      exact ⟨rfl, rfl⟩
    · intro m hm
      exact absurd hm (by simp)
  | e :: es, σ, fr, hlt => by
    have hexec1 : execNodes interp σ (cloneNodes fr (e :: es))
        = execNodes interp (defineFresh σ fr (σ.env e))
            (cloneNodes (fr + 1) es) := rfl
    have hlt2 : ∀ e2 ∈ es, e2 < fr + 1 := by
      intro e2 he2
      exact Nat.lt_succ_of_lt (hlt e2 (List.mem_cons_of_mem e he2))
    obtain ⟨hout, hin⟩ := cloneNodes_exec interp es
      (defineFresh σ fr (σ.env e)) (fr + 1) hlt2
    constructor
    · intro v hv
      rw [hexec1]
      have hv2 : ¬ (fr + 1 ≤ v ∧ v < fr + 1 + es.length) := by
        show ¬ _
        intro hc
        apply hv
        constructor
        · omega
        · show v < fr + (es.length + 1)
          omega
      obtain ⟨he, hr⟩ := hout v hv2
      have hvne : v ≠ fr := by
        intro hc
        apply hv
        constructor
        · omega
        · show v < fr + (es.length + 1)
          omega
      rw [he, hr]
      exact ⟨upd_ne _ _ _ _ hvne, upd_ne _ _ _ _ hvne⟩
    · intro m hm
      rw [hexec1]
      cases m with
      | zero =>
        have hv2 : ¬ (fr + 1 ≤ fr + 0 ∧ fr + 0 < fr + 1 + es.length) := by
          omega
        obtain ⟨he, hr⟩ := hout (fr + 0) hv2
        rw [he, hr]
        constructor
        · show upd σ.env fr (σ.env e) (fr + 0) = σ.env e
          rw [show fr + 0 = fr from rfl, upd_self]
        · show upd σ.root fr fr (fr + 0) = fr + 0
          rw [show fr + 0 = fr from rfl, upd_self]
      | succ m2 =>
        have hm2 : m2 < es.length := by
          have : m2 + 1 < es.length + 1 := hm
          omega
        obtain ⟨he, hr⟩ := hin m2 hm2
        have harith : fr + (m2 + 1) = fr + 1 + m2 := by omega
        rw [harith, he, hr]
        constructor
        · have hel : es.getD m2 0 < fr := by
            rw [List.getD_eq_getElem es 0 hm2]
            exact hlt _ (List.mem_cons_of_mem e (es.getElem_mem hm2))
          show upd σ.env fr (σ.env e) (es.getD m2 0) = σ.env (es.getD m2 0)
          exact upd_ne _ _ _ _ (Nat.ne_of_lt hel)
        · rfl

end Reinplace

namespace Reinplace

theorem execNodes_append (interp : String → Nat → List V → V) (σ : St V)
    (l l' : List Node) :
    execNodes interp σ (l ++ l')
      = execNodes interp (execNodes interp σ l) l' := by
  rw [execNodes, execNodes, execNodes, List.foldl_append]

theorem argVals_agree (σ1 σ2 : St V) (args : List Arg)
    (h : ∀ e ∈ args.flatMap Arg.elems, σ1.env e = σ2.env e) :
    argVals σ1 args = argVals σ2 args := by
  rw [argVals, argVals]
  exact List.map_congr_left h

theorem find?_fst_unique {γ : Type} :
    ∀ (ps : List (Nat × γ)), ((ps.map Prod.fst).Nodup) →
    ∀ q : Nat × γ, q ∈ ps → ps.find? (fun p => p.1 == q.1) = some q
  | [], _, q, hq => absurd hq (List.not_mem_nil q)
  | p :: ps, hnd, q, hq => by
    rw [List.map_cons, List.nodup_cons] at hnd
    rcases List.mem_cons.mp hq with rfl | hq2
    · exact List.find?_cons_of_pos _ (by simp)
    · have hne : p.1 ≠ q.1 := by
        intro hc
        exact hnd.1 (hc ▸ List.mem_map_of_mem Prod.fst hq2)
      rw [List.find?_cons_of_neg _ (by simpa using hne)]
      exact find?_fst_unique ps hnd.2 q hq2

theorem find?_fst_none {γ : Type} (r : Nat) :
    ∀ (ps : List (Nat × γ)), (∀ p ∈ ps, p.1 ≠ r) →
    ps.find? (fun p => p.1 == r) = none
  | [], _ => rfl
  | p :: ps, h => by
    rw [List.find?_cons_of_neg _ (by simpa using h p (List.mem_cons_self p ps))]
    exact find?_fst_none r ps (fun q hq => h q (List.mem_cons_of_mem p hq))

theorem find?_rootkey {γ : Type} (rt : Nat → Nat) :
    ∀ (ps : List (ValueId × γ)), ((ps.map (fun p => rt p.1)).Nodup) →
    ∀ q : ValueId × γ, q ∈ ps →
    ps.find? (fun p => rt p.1 == rt q.1) = some q
  | [], _, q, hq => absurd hq (List.not_mem_nil q)
  | p :: ps, hnd, q, hq => by
    rw [List.map_cons, List.nodup_cons] at hnd
    rcases List.mem_cons.mp hq with rfl | hq2
    · exact List.find?_cons_of_pos _ (by simp)
    · have hne : rt p.1 ≠ rt q.1 := by
        intro hc
        exact hnd.1
          (hc ▸ List.mem_map_of_mem (fun p2 => rt p2.1) hq2)
      rw [List.find?_cons_of_neg _ (by simpa using hne)]
      exact find?_rootkey rt ps hnd.2 q hq2

theorem find?_rootkey_none {γ : Type} (rt : Nat → Nat) (r : Nat) :
    ∀ (ps : List (ValueId × γ)), (∀ p ∈ ps, rt p.1 ≠ r) →
    ps.find? (fun p => rt p.1 == r) = none
  | [], _ => rfl
  | p :: ps, h => by
    rw [List.find?_cons_of_neg _ (by simpa using h p (List.mem_cons_self p ps))]
    exact find?_rootkey_none rt r ps
      (fun q hq => h q (List.mem_cons_of_mem p hq))

theorem foldl_upd_rr_env {V : Type} :
    ∀ (qs : List (Nat × (Nat × V))) (m : Nat → V) (v : Nat),
    (qs.foldl (fun e q => upd e q.1 q.2.2) m) v
      = match qs.reverse.find? (fun q => q.1 == v) with
        | some q => q.2.2
        | none => m v
  | [], _, _ => rfl
  | q :: qs, m, v => by
    rw [List.foldl_cons, foldl_upd_rr_env qs]
    rw [List.reverse_cons, List.find?_append]
    cases hf : qs.reverse.find? (fun q2 => q2.1 == v) with
    | some q2 => simp [hf]
    | none =>
      simp only [hf, Option.none_or]
      by_cases hv : q.1 = v
      · subst hv
        simp [upd_self]
      · rw [upd_ne _ _ _ _ (fun hc => hv hc.symm)]
        simp [hv]

theorem foldl_upd_rr_root {V : Type} :
    ∀ (qs : List (Nat × (Nat × V))) (m : Nat → Nat) (v : Nat),
    (qs.foldl (fun r q => upd r q.1 q.2.1) m) v
      = match qs.reverse.find? (fun q => q.1 == v) with
        | some q => q.2.1
        | none => m v
  | [], _, _ => rfl
  | q :: qs, m, v => by
    rw [List.foldl_cons, foldl_upd_rr_root qs]
    rw [List.reverse_cons, List.find?_append]
    cases hf : qs.reverse.find? (fun q2 => q2.1 == v) with
    | some q2 => simp [hf]
    | none =>
      simp only [hf, Option.none_or]
      by_cases hv : q.1 = v
      · subst hv
        simp [upd_self]
      · rw [upd_ne _ _ _ _ (fun hc => hv hc.symm)]
        simp [hv]

theorem foldl_upd_ff_env {γ : Type} (w : Nat × Nat → γ) :
    ∀ (ps : List (Nat × Nat)) (m : Nat → γ) (v : Nat),
    (ps.foldl (fun e p => upd e p.1 (w p)) m) v
      = match ps.reverse.find? (fun p => p.1 == v) with
        | some p => w p
        | none => m v
  | [], _, _ => rfl
  | p :: ps, m, v => by
    rw [List.foldl_cons, foldl_upd_ff_env w ps]
    rw [List.reverse_cons, List.find?_append]
    cases hf : ps.reverse.find? (fun q2 => q2.1 == v) with
    | some q2 => simp [hf]
    | none =>
      simp only [hf, Option.none_or]
      by_cases hv : p.1 = v
      · subst hv
        simp [upd_self]
      · rw [upd_ne _ _ _ _ (fun hc => hv hc.symm)]
        simp [hv]

theorem foldl_upd_ff_root :
    ∀ (ps : List (Nat × Nat)) (m : Nat → Nat) (v : Nat),
    (ps.foldl (fun r p => upd r p.1 p.1) m) v
      = match ps.reverse.find? (fun p => p.1 == v) with
        | some p => p.1
        | none => m v
  | [], _, _ => rfl
  | p :: ps, m, v => by
    rw [List.foldl_cons, foldl_upd_ff_root ps]
    rw [List.reverse_cons, List.find?_append]
    cases hf : ps.reverse.find? (fun q2 => q2.1 == v) with
    | some q2 => simp [hf]
    | none =>
      simp only [hf, Option.none_or]
      by_cases hv : p.1 = v
      · subst hv
        simp [upd_self]
      · rw [upd_ne _ _ _ _ (fun hc => hv hc.symm)]
        simp [hv]

theorem flatMap_set {A B : Type} (f : A → List B) :
    ∀ (l : List A) (k : Nat) (x : A), k < l.length →
    (l.set k x).flatMap f
      = (l.take k).flatMap f ++ f x ++ (l.drop (k + 1)).flatMap f
  | [], k, x, hk => absurd hk (by simp)
  | a :: l, 0, x, _ => by simp
  | a :: l, k + 1, x, hk => by
    have hk2 : k < l.length := by
      have : k + 1 < l.length + 1 := hk
      omega
    show f a ++ (l.set k x).flatMap f = _
    rw [flatMap_set f l k x hk2]
    show f a ++ ((l.take k).flatMap f ++ f x ++ (l.drop (k + 1)).flatMap f)
      = (f a ++ (l.take k).flatMap f) ++ f x ++ (l.drop (k + 1)).flatMap f
    simp [List.append_assoc]

theorem flatMap_decomp {A B : Type} (f : A → List B) (d : A) :
    ∀ (l : List A) (k : Nat), k < l.length →
    l.flatMap f
      = (l.take k).flatMap f ++ f (l.getD k d) ++ (l.drop (k + 1)).flatMap f
  | [], k, hk => absurd hk (by simp)
  | a :: l, 0, _ => by simp
  | a :: l, k + 1, hk => by
    have hk2 : k < l.length := by
      have : k + 1 < l.length + 1 := hk
      omega
    show f a ++ l.flatMap f = _
    rw [flatMap_decomp f d l k hk2]
    show f a ++ ((l.take k).flatMap f ++ f (l.getD k d) ++ (l.drop (k + 1)).flatMap f)
      = (f a ++ (l.take k).flatMap f) ++ f ((a :: l).getD (k + 1) d)
        ++ (l.drop (k + 1)).flatMap f
    simp [List.append_assoc]

theorem targetsOf_congr (args1 args2 : List Arg) :
    ∀ (muts : List Nat),
    (∀ k ∈ muts, args1.getD k default = args2.getD k default) →
    targetsOf args1 muts = targetsOf args2 muts
  | [], _ => rfl
  | k :: rest, h => by
    show (args1.getD k default).elems ++ targetsOf args1 rest
      = (args2.getD k default).elems ++ targetsOf args2 rest
    rw [h k (List.mem_cons_self k rest),
      targetsOf_congr args1 args2 rest
        (fun k2 hk2 => h k2 (List.mem_cons_of_mem k hk2))]

theorem forall2_append {A B : Type} {R : A → B → Prop}
    {a b : List A} {c d : List B} (h1 : List.Forall₂ R a c)
    (h2 : List.Forall₂ R b d) : List.Forall₂ R (a ++ b) (c ++ d) := by
  induction h1 with
  | nil => exact h2
  | cons hr _ ih => exact List.Forall₂.cons hr ih

theorem forall2_length {A B : Type} {R : A → B → Prop}
    {a : List A} {c : List B} (h : List.Forall₂ R a c) :
    a.length = c.length := by
  induction h with
  | nil => rfl
  | cons _ _ ih => simp [ih]

theorem forall2_mem_right {A B : Type} {R : A → B → Prop} :
    ∀ {a : List A} {c : List B}, List.Forall₂ R a c →
    ∀ y ∈ c, ∃ x ∈ a, R x y := by
  intro a c h
  induction h with
  | nil => intro y hy; exact absurd hy (List.not_mem_nil y)
  | cons hr _ ih =>
    intro y hy
    rcases List.mem_cons.mp hy with rfl | hy2
    · exact ⟨_, List.mem_cons_self _ _, hr⟩
    · obtain ⟨x, hx, hxy⟩ := ih y hy2
      exact ⟨x, List.mem_cons_of_mem _ hx, hxy⟩

theorem forall2_getD {A B : Type} {R : A → B → Prop} (da : A) (db : B)
    {a : List A} {c : List B} (h : List.Forall₂ R a c) :
    ∀ j, j < a.length → R (a.getD j da) (c.getD j db) := by
  intro j hj
  obtain ⟨hlen, hget⟩ := List.forall₂_iff_get.mp h
  have hj2 : j < c.length := by omega
  rw [List.getD_eq_getElem a da hj, List.getD_eq_getElem c db hj2]
  exact hget j hj hj2

theorem forall2_same_of_mem {A : Type} {R : A → A → Prop} :
    ∀ (l : List A), (∀ x ∈ l, R x x) → List.Forall₂ R l l
  | [], _ => List.Forall₂.nil
  | x :: l, h => List.Forall₂.cons (h x (List.mem_cons_self x l))
      (forall2_same_of_mem l (fun y hy => h y (List.mem_cons_of_mem x hy)))

end Reinplace

namespace Reinplace

/-- Value ids defined after the first `i` nodes of the rewritten execution:
the ids the original graph has defined so far, plus the defensive copies
inserted so far (numbered from `freshBound` up to `fr`). -/
def DefB (g : Graph) (i fr : Nat) (v : Nat) : Prop :=
  v < defBound g i ∨ (freshBound g ≤ v ∧ v < fr)

theorem DefB_mono (g : Graph) {i i' fr fr' : Nat} (hi : i ≤ i')
    (hfr : fr ≤ fr') {v : Nat} (h : DefB g i fr v) : DefB g i' fr' v := by
  rcases h with h | h
  · exact Or.inl (lt_of_lt_of_le h (defBound_mono g hi))
  · exact Or.inr ⟨h.1, by omega⟩

theorem not_DefB (g : Graph) (i fr : Nat) (v : Nat)
    (hfr : freshBound g ≤ fr) :
    ¬ DefB g i fr v ↔ ((defBound g i ≤ v ∧ v < freshBound g) ∨ fr ≤ v) := by
  rw [DefB]
  have := defBound_le_freshBound g i
  constructor
  · intro h
    push_neg at h
    by_cases hv : v < freshBound g
    · exact Or.inl ⟨h.1, hv⟩
    · exact Or.inr (h.2 (by omega))
  · intro h
    push_neg
    rcases h with ⟨h1, h2⟩ | h1
    · exact ⟨h1, fun hc => by omega⟩
    · exact ⟨by omega, fun _ => by omega⟩

/-- Whether the original program explicitly mutates the storage of Value
`v` through a user-written in-place op. -/
def userMutates (g : Graph) (v : ValueId) : Bool :=
  g.nodes.any (fun n =>
    match n.kind with
    | .inplaceOp _ muts =>
        (targetsOf n.args muts).any
          (fun t => roots0 g t == roots0 g v)
    | _ => false)

theorem nIn_le_freshBound (g : Graph) : g.nIn ≤ freshBound g := by
  rw [freshBound]
  exact nIn_le_defBound g g.nodes.length

theorem nodes_getD_mem (g : Graph) (i : Nat) (h : i < g.nodes.length) :
    g.nodes.getD i default ∈ g.nodes := by
  rw [List.getD_eq_getElem?_getD, List.getElem?_eq_getElem h]
  exact List.getElem_mem h

theorem roots0_out (g : Graph) (hwf : WF g = true) (i : Nat)
    (hi : i < g.nodes.length) (j : Nat)
    (hj : j < outCount (g.nodes.getD i default)) :
    roots0 g (defBound g i + j)
      = rootStep (rootsUpTo g i) (g.nodes.getD i default)
          (defBound g i + j) := by
  apply roots0_at g hwf i hi
  rw [defBound_succ g i hi]
  omega

theorem node_arg_live (g : Graph) (i : Nat) (hi : i < g.nodes.length)
    (e : ValueId)
    (he : e ∈ (g.nodes.getD i default).args.flatMap Arg.elems) :
    liveFrom g (roots0 g) i (roots0 g e) = true :=
  liveFrom_of_reads g (roots0 g) i hi e he

theorem target_in_flat (g : Graph) (i : Nat)
    {args : List Arg} {muts : List Nat}
    (hargs : (g.nodes.getD i default).args = args) (t : ValueId)
    (ht : t ∈ targetsOf args muts) :
    t ∈ (g.nodes.getD i default).args.flatMap Arg.elems := by
  rw [hargs]
  exact targetsOf_subset_flat args muts t ht

end Reinplace

namespace Reinplace

theorem autoFold_env (interp : String → Nat → List V → V) (f : String)
    (fin : List V) :
    ∀ (ps : List (ValueId × Nat)) (σ : St V) (v : Nat),
    ((ps.foldl (fun σ2 p => defineFresh σ2 p.1 (interp f p.2 fin)) σ)).env v
      = match ps.reverse.find? (fun p => p.1 == v) with
        | some p => interp f p.2 fin
        | none => σ.env v
  | [], _, _ => rfl
  | p :: ps, σ, v => by
    rw [List.foldl_cons, autoFold_env interp f fin ps]
    rw [List.reverse_cons, List.find?_append]
    cases hf : ps.reverse.find? (fun q2 => q2.1 == v) with
    | some q2 => simp [hf]
    | none =>
      simp only [hf, Option.none_or]
      by_cases hv : p.1 = v
      · subst hv
        show _ = _
        simp [List.find?_cons, defineFresh, upd_self]
      · rw [List.find?_cons_of_neg _ (by simpa using fun hc => hv hc)]
        show (defineFresh σ p.1 (interp f p.2 fin)).env v = σ.env v
        exact upd_ne _ _ _ _ (fun hc => hv hc.symm)

theorem autoFold_root (interp : String → Nat → List V → V) (f : String)
    (fin : List V) :
    ∀ (ps : List (ValueId × Nat)) (σ : St V) (v : Nat),
    ((ps.foldl (fun σ2 p => defineFresh σ2 p.1 (interp f p.2 fin)) σ)).root v
      = match ps.reverse.find? (fun p => p.1 == v) with
        | some p => p.1
        | none => σ.root v
  | [], _, _ => rfl
  | p :: ps, σ, v => by
    rw [List.foldl_cons, autoFold_root interp f fin ps]
    rw [List.reverse_cons, List.find?_append]
    cases hf : ps.reverse.find? (fun q2 => q2.1 == v) with
    | some q2 => simp [hf]
    | none =>
      simp only [hf, Option.none_or]
      by_cases hv : p.1 = v
      · subst hv
        show _ = _
        simp [List.find?_cons, defineFresh, upd_self]
      · rw [List.find?_cons_of_neg _ (by simpa using fun hc => hv hc)]
        show (defineFresh σ p.1 (interp f p.2 fin)).root v = σ.root v
        exact upd_ne _ _ _ _ (fun hc => hv hc.symm)

theorem rootedFold_env {V : Type} :
    ∀ (qs : List (Nat × (Nat × V))) (σ : St V) (v : Nat),
    ((qs.foldl (fun σ2 q => defineRooted σ2 q.1 q.2.1 q.2.2) σ)).env v
      = match qs.reverse.find? (fun q => q.1 == v) with
        | some q => q.2.2
        | none => σ.env v
  | [], _, _ => rfl
  | q :: qs, σ, v => by
    rw [List.foldl_cons, rootedFold_env qs]
    rw [List.reverse_cons, List.find?_append]
    cases hf : qs.reverse.find? (fun q2 => q2.1 == v) with
    | some q2 => simp [hf]
    | none =>
      simp only [hf, Option.none_or]
      by_cases hv : q.1 = v
      · subst hv
        show _ = _
        simp [List.find?_cons, defineRooted, upd_self]
      · rw [List.find?_cons_of_neg _ (by simpa using fun hc => hv hc)]
        show (defineRooted σ q.1 q.2.1 q.2.2).env v = σ.env v
        exact upd_ne _ _ _ _ (fun hc => hv hc.symm)

theorem rootedFold_root {V : Type} :
    ∀ (qs : List (Nat × (Nat × V))) (σ : St V) (v : Nat),
    ((qs.foldl (fun σ2 q => defineRooted σ2 q.1 q.2.1 q.2.2) σ)).root v
      = match qs.reverse.find? (fun q => q.1 == v) with
        | some q => q.2.1
        | none => σ.root v
  | [], _, _ => rfl
  | q :: qs, σ, v => by
    rw [List.foldl_cons, rootedFold_root qs]
    rw [List.reverse_cons, List.find?_append]
    cases hf : qs.reverse.find? (fun q2 => q2.1 == v) with
    | some q2 => simp [hf]
    | none =>
      simp only [hf, Option.none_or]
      by_cases hv : q.1 = v
      · subst hv
        show _ = _
        simp [List.find?_cons, defineRooted, upd_self]
      · rw [List.find?_cons_of_neg _ (by simpa using fun hc => hv hc)]
        show (defineRooted σ q.1 q.2.1 q.2.2).root v = σ.root v
        exact upd_ne _ _ _ _ (fun hc => hv hc.symm)

end Reinplace

namespace Reinplace

theorem zip_range_pair (c M j : Nat) (hj : j < M) :
    (c + j, j) ∈ List.zip (List.range' c M) (List.range M) := by
  have hlen : (List.zip (List.range' c M) (List.range M)).length = M := by
    rw [List.length_zip, List.length_range', List.length_range]
    omega
  have hjz : j < (List.zip (List.range' c M) (List.range M)).length := by
    omega
  have hget : (List.zip (List.range' c M) (List.range M))[j] = (c + j, j) := by
    rw [List.getElem_zip]
    rw [List.getElem_range', List.getElem_range]
    simp
  exact hget ▸ List.getElem_mem hjz

theorem zip_range_fst (c M : Nat) :
    (List.zip (List.range' c M) (List.range M)).map Prod.fst
      = List.range' c M := by
  apply List.map_fst_zip
  rw [List.length_range', List.length_range]

theorem exec_autoFunc_eval (interp : String → Nat → List V → V)
    (σ : St V) (f : String) (muts : List Nat) (args : List Arg)
    (c M : Nat) (outs : List ValueId)
    (hM : (targetsOf args muts).length = M)
    (houts : outs = List.range' c M) :
    (∀ v, ¬ (c ≤ v ∧ v < c + M) →
      (execNode interp σ ⟨.autoFunc f muts, args, outs⟩).env v = σ.env v ∧
      (execNode interp σ ⟨.autoFunc f muts, args, outs⟩).root v = σ.root v) ∧
    (∀ j, j < M →
      (execNode interp σ ⟨.autoFunc f muts, args, outs⟩).env (c + j)
        = interp f j (argVals σ args) ∧
      (execNode interp σ ⟨.autoFunc f muts, args, outs⟩).root (c + j)
        = c + j) := by
  subst houts
  have hexec : execNode interp σ ⟨.autoFunc f muts, args, List.range' c M⟩
      = (List.zip (List.range' c M)
            (List.range (targetsOf args muts).length)).foldl
          (fun σ2 p => defineFresh σ2 p.1 (interp f p.2 (argVals σ args)))
          σ := rfl
  rw [hM] at hexec
  have hndrev : (((List.zip (List.range' c M) (List.range M)).reverse).map
      Prod.fst).Nodup := by
    rw [List.map_reverse, zip_range_fst, List.nodup_reverse]
    exact List.nodup_range' c M
  constructor
  · intro v hv
    have hnone : ((List.zip (List.range' c M) (List.range M)).reverse).find?
        (fun p => p.1 == v) = none := by
      apply find?_fst_none
      intro p hp
      have hp2 : p ∈ List.zip (List.range' c M) (List.range M) :=
        List.mem_reverse.mp hp
      have := (List.of_mem_zip hp2).1
      rw [mem_range1] at this
      omega
    constructor
    · rw [hexec, autoFold_env, hnone]
    · rw [hexec, autoFold_root, hnone]
  · intro j hj
    have hmem : ((c + j, j) : ValueId × Nat)
        ∈ (List.zip (List.range' c M) (List.range M)).reverse :=
      List.mem_reverse.mpr (zip_range_pair c M j hj)
    have hfind : ((List.zip (List.range' c M) (List.range M)).reverse).find?
        (fun p => p.1 == c + j) = some (c + j, j) :=
      find?_fst_unique _ hndrev (c + j, j) hmem
    constructor
    · rw [hexec, autoFold_env, hfind]
    · rw [hexec, autoFold_root, hfind]

end Reinplace

namespace Reinplace

theorem exec_inplaceOp_eval (interp : String → Nat → List V → V)
    (σ : St V) (f : String) (muts : List Nat) (args : List Arg)
    (c M : Nat) (outs : List ValueId)
    (hM : (targetsOf args muts).length = M)
    (houts : outs = List.range' c M)
    (hnd : ((targetsOf args muts).map σ.root).Nodup) :
    (∀ v, ¬ (c ≤ v ∧ v < c + M) →
      (execNode interp σ ⟨.inplaceOp f muts, args, outs⟩).root v
        = σ.root v) ∧
    (∀ j, j < M →
      (execNode interp σ ⟨.inplaceOp f muts, args, outs⟩).root (c + j)
        = σ.root ((targetsOf args muts).getD j 0)) ∧
    (∀ j, j < M →
      (execNode interp σ ⟨.inplaceOp f muts, args, outs⟩).env (c + j)
        = interp f j (argVals σ args)) ∧
    (∀ v, ¬ (c ≤ v ∧ v < c + M) →
      (∀ j, j < M →
        σ.root ((targetsOf args muts).getD j 0) ≠ σ.root v) →
      (execNode interp σ ⟨.inplaceOp f muts, args, outs⟩).env v
        = σ.env v) ∧
    (∀ v, ¬ (c ≤ v ∧ v < c + M) → ∀ j, j < M →
      σ.root ((targetsOf args muts).getD j 0) = σ.root v →
      (execNode interp σ ⟨.inplaceOp f muts, args, outs⟩).env v
        = interp f j (argVals σ args)) := by
  subst houts
  have hexec : execNode interp σ ⟨.inplaceOp f muts, args, List.range' c M⟩
      = (List.zip (List.range' c M)
            (List.zip ((targetsOf args muts).map σ.root)
              ((List.range (targetsOf args muts).length).map
                (fun j => interp f j (argVals σ args))))).foldl
          (fun σ2 q => defineRooted σ2 q.1 q.2.1 q.2.2)
          ((List.zip (targetsOf args muts)
              ((List.range (targetsOf args muts).length).map
                (fun j => interp f j (argVals σ args)))).foldl
            (fun σ2 p => writeGroup σ2 p.1 p.2) σ) := rfl
  rw [hM] at hexec
  have hwsl : ((List.range M).map
      (fun j => interp f j (argVals σ args))).length = M := by
    rw [List.length_map, List.length_range]
  have hzin : (List.zip ((targetsOf args muts).map σ.root)
      ((List.range M).map (fun j => interp f j (argVals σ args)))).length
        = M := by
    rw [List.length_zip, List.length_map, hM, hwsl]
    omega
  have hkeys : (List.zip (List.range' c M)
      (List.zip ((targetsOf args muts).map σ.root)
        ((List.range M).map (fun j => interp f j (argVals σ args))))).map
          Prod.fst = List.range' c M := by
    apply List.map_fst_zip
    rw [List.length_range', hzin]
  have hndout : ((List.zip (List.range' c M)
      (List.zip ((targetsOf args muts).map σ.root)
        ((List.range M).map
          (fun j => interp f j (argVals σ args))))).reverse.map
            Prod.fst).Nodup := by
    rw [List.map_reverse, hkeys, List.nodup_reverse]
    exact List.nodup_range' c M
  have hfindout : ∀ v, ¬ (c ≤ v ∧ v < c + M) →
      (List.zip (List.range' c M)
        (List.zip ((targetsOf args muts).map σ.root)
          ((List.range M).map
            (fun j => interp f j (argVals σ args))))).reverse.find?
              (fun q => q.1 == v) = none := by
    intro v hv
    apply find?_fst_none
    intro p hp
    have hp2 := (List.of_mem_zip (List.mem_reverse.mp hp)).1
    rw [mem_range1] at hp2
    omega
  have hwroot : ((List.zip (targetsOf args muts)
      ((List.range M).map (fun j => interp f j (argVals σ args)))).foldl
        (fun σ2 p => writeGroup σ2 p.1 p.2) σ).root = σ.root :=
    writeList_root _ σ
  have hpairmem : ∀ j, j < M →
      ((c + j, (σ.root ((targetsOf args muts).getD j 0),
          interp f j (argVals σ args))) : Nat × (Nat × V))
        ∈ List.zip (List.range' c M)
            (List.zip ((targetsOf args muts).map σ.root)
              ((List.range M).map
                (fun j => interp f j (argVals σ args)))) := by
    intro j hj
    have hjl : j < (List.zip (List.range' c M)
        (List.zip ((targetsOf args muts).map σ.root)
          ((List.range M).map
            (fun j => interp f j (argVals σ args))))).length := by
      rw [List.length_zip, List.length_range', hzin]
      omega
    have hjt : j < (targetsOf args muts).length := by omega
    have hjr : j < ((targetsOf args muts).map σ.root).length := by
      rw [List.length_map]; omega
    have hjw : j < ((List.range M).map
        (fun j => interp f j (argVals σ args))).length := by omega
    have hget : (List.zip (List.range' c M)
        (List.zip ((targetsOf args muts).map σ.root)
          ((List.range M).map
            (fun j => interp f j (argVals σ args)))))[j]
        = (c + j, (σ.root ((targetsOf args muts).getD j 0),
            interp f j (argVals σ args))) := by
      rw [List.getElem_zip, List.getElem_zip]
      rw [List.getElem_range', List.getElem_map, List.getElem_map,
        List.getElem_range]
      rw [List.getD_eq_getElem (targetsOf args muts) 0 hjt]
      simp
    exact hget ▸ List.getElem_mem hjl
  have hfindpair : ∀ j, j < M →
      (List.zip (List.range' c M)
        (List.zip ((targetsOf args muts).map σ.root)
          ((List.range M).map
            (fun j => interp f j (argVals σ args))))).reverse.find?
              (fun q => q.1 == c + j)
        = some (c + j, (σ.root ((targetsOf args muts).getD j 0),
            interp f j (argVals σ args))) := by
    intro j hj
    exact find?_fst_unique _ hndout _ (List.mem_reverse.mpr (hpairmem j hj))
  refine ⟨?_, ?_, ?_, ?_, ?_⟩
  · intro v hv
    rw [hexec, rootedFold_root, hfindout v hv, hwroot]
  · intro j hj
    rw [hexec, rootedFold_root, hfindpair j hj]
  · intro j hj
    rw [hexec, rootedFold_env, hfindpair j hj]
  · intro v hv hroots
    rw [hexec, rootedFold_env, hfindout v hv, writeList_env]
    have hnonew : (List.zip (targetsOf args muts)
        ((List.range M).map (fun j => interp f j (argVals σ args)))).reverse.find?
          (fun p => σ.root p.1 == σ.root v) = none := by
      apply find?_rootkey_none
      intro p hp
      have hp2 : p.1 ∈ targetsOf args muts :=
        (List.of_mem_zip (List.mem_reverse.mp hp)).1
      obtain ⟨jp, hjp, hgetp⟩ := List.mem_iff_getElem.mp hp2
      have hjpM : jp < M := by omega
      have := hroots jp hjpM
      rw [List.getD_eq_getElem (targetsOf args muts) 0 hjp, hgetp] at this
      exact this
    rw [hnonew]
  · intro v hv j hj hjv
    rw [hexec, rootedFold_env, hfindout v hv, writeList_env]
    have hjt : j < (targetsOf args muts).length := by omega
    have hndw : ((List.zip (targetsOf args muts)
        ((List.range M).map (fun j => interp f j (argVals σ args)))).reverse.map
          (fun p => σ.root p.1)).Nodup := by
      rw [List.map_reverse, List.nodup_reverse]
      rw [show (fun p : ValueId × V => σ.root p.1)
          = (σ.root ∘ Prod.fst) from rfl, ← List.map_map]
      rw [List.map_fst_zip _ _ (by rw [hM, hwsl])]
      exact hnd
    have hmemw : (((targetsOf args muts).getD j 0,
        interp f j (argVals σ args)) : ValueId × V)
        ∈ (List.zip (targetsOf args muts)
            ((List.range M).map
              (fun j => interp f j (argVals σ args)))).reverse := by
      apply List.mem_reverse.mpr
      have hjl : j < (List.zip (targetsOf args muts)
          ((List.range M).map
            (fun j => interp f j (argVals σ args)))).length := by
        rw [List.length_zip, hM, hwsl]
        omega
      have hget : (List.zip (targetsOf args muts)
          ((List.range M).map
            (fun j => interp f j (argVals σ args))))[j]
          = ((targetsOf args muts).getD j 0,
              interp f j (argVals σ args)) := by
        rw [List.getElem_zip, List.getElem_map, List.getElem_range]
        rw [List.getD_eq_getElem (targetsOf args muts) 0 hjt]
      exact hget ▸ List.getElem_mem hjl
    have hfindw : (List.zip (targetsOf args muts)
        ((List.range M).map
          (fun j => interp f j (argVals σ args)))).reverse.find?
            (fun p => σ.root p.1
              == σ.root ((targetsOf args muts).getD j 0))
        = some ((targetsOf args muts).getD j 0,
            interp f j (argVals σ args)) :=
      find?_rootkey σ.root _ hndw _ hmemw
    rw [hjv] at hfindw
    rw [hfindw]

end Reinplace

namespace Reinplace

/-- The flattened mutated targets of a node, each tagged with whether its
whole argument passes the oracle. -/
def ktag (g : Graph) (ρ : Nat → Nat) (i : Nat) (args : List Arg)
    (muts : List Nat) : List (ValueId × Bool) :=
  muts.flatMap (fun k =>
    (args.getD k default).elems.map
      (fun e => (e, (checkArg g ρ i (args.getD k default)).isNone)))

theorem ktag_fst (g : Graph) (ρ : Nat → Nat) (i : Nat) (args : List Arg) :
    ∀ (muts : List Nat),
    (ktag g ρ i args muts).map Prod.fst = targetsOf args muts
  | [] => rfl
  | k :: rest => by
    show ((args.getD k default).elems.map
        (fun e => (e, (checkArg g ρ i (args.getD k default)).isNone))
          ++ ktag g ρ i args rest).map Prod.fst
      = (args.getD k default).elems ++ targetsOf args rest
    rw [List.map_append, ktag_fst g ρ i args rest, List.map_map]
    congr 1
    exact List.map_id ((args.getD k default).elems)

theorem ktag_kept (g : Graph) (ρ : Nat → Nat) (i : Nat) (args : List Arg) :
    ∀ (muts : List Nat),
    ((ktag g ρ i args muts).filter Prod.snd).map Prod.fst
      = keptTargets g ρ i args muts
  | [] => rfl
  | k :: rest => by
    show (((args.getD k default).elems.map
        (fun e => (e, (checkArg g ρ i (args.getD k default)).isNone))
          ++ ktag g ρ i args rest).filter Prod.snd).map Prod.fst
      = (if (checkArg g ρ i (args.getD k default)).isNone
          then (args.getD k default).elems else [])
        ++ keptTargets g ρ i args rest
    rw [List.filter_append, List.map_append, ktag_kept g ρ i args rest]
    congr 1
    cases hc : (checkArg g ρ i (args.getD k default)).isNone with
    | true =>
      rw [if_pos rfl]
      rw [List.filter_map, List.map_map]
      have hp : (Prod.snd ∘ fun e : ValueId => (e, true))
          = (fun _ => true) := rfl
      rw [hp, List.filter_true]
      have hid : (Prod.fst ∘ fun e : ValueId => (e, true))
          = (fun e => e) := rfl
      rw [hid]
      exact List.map_id _
    | false =>
      rw [if_neg (by simp)]
      rw [List.filter_map]
      have hp : (Prod.snd ∘ fun e : ValueId => (e, false))
          = (fun _ => false) := rfl
      rw [hp]
      simp

theorem ktag_congr (g : Graph) (ρ : Nat → Nat) (i : Nat)
    (args1 args2 : List Arg) :
    ∀ (muts : List Nat),
    (∀ k ∈ muts, args1.getD k default = args2.getD k default) →
    ktag g ρ i args1 muts = ktag g ρ i args2 muts
  | [], _ => rfl
  | k :: rest, h => by
    show (args1.getD k default).elems.map
        (fun e => (e, (checkArg g ρ i (args1.getD k default)).isNone))
          ++ ktag g ρ i args1 rest = _
    rw [h k (List.mem_cons_self k rest),
      ktag_congr g ρ i args1 args2 rest
        (fun k2 hk2 => h k2 (List.mem_cons_of_mem k hk2))]
    rfl

theorem tag_pairwise (ρ : Nat → Nat) :
    ∀ (zs : List (ValueId × Bool)),
    (((zs.filter Prod.snd).map Prod.fst).map ρ).Nodup →
    List.Pairwise
      (fun z z2 => z.2 = true → z2.2 = true → ρ z.1 ≠ ρ z2.1) zs
  | [], _ => List.Pairwise.nil
  | z :: zs, hnd => by
    cases hz : z.2 with
    | true =>
      have hfil : (z :: zs).filter Prod.snd = z :: zs.filter Prod.snd :=
        List.filter_cons_of_pos hz
      rw [hfil, List.map_cons, List.map_cons, List.nodup_cons] at hnd
      refine List.Pairwise.cons ?_ (tag_pairwise ρ zs hnd.2)
      intro z2 hz2 _ hz2t
      intro hc
      apply hnd.1
      rw [hc]
      have hz2f : z2 ∈ zs.filter Prod.snd :=
        List.mem_filter.mpr ⟨hz2, hz2t⟩
      exact List.mem_map_of_mem ρ (List.mem_map_of_mem Prod.fst hz2f)
    | false =>
      have hfil : (z :: zs).filter Prod.snd = zs.filter Prod.snd :=
        List.filter_cons_of_neg (by simp [hz])
      rw [hfil] at hnd
      refine List.Pairwise.cons ?_ (tag_pairwise ρ zs hnd)
      intro z2 _ hzt _
      exact absurd (hz ▸ hzt) (by simp)

theorem ktag_length (g : Graph) (ρ : Nat → Nat) (i : Nat)
    (args : List Arg) (muts : List Nat) :
    (ktag g ρ i args muts).length = (targetsOf args muts).length := by
  rw [← ktag_fst g ρ i args muts, List.length_map]

theorem ktag_getD_fst (g : Graph) (ρ : Nat → Nat) (i : Nat)
    (args : List Arg) (muts : List Nat) (m : Nat)
    (hm : m < (targetsOf args muts).length) :
    ((ktag g ρ i args muts).getD m (0, false)).1
      = (targetsOf args muts).getD m 0 := by
  have hm2 : m < (ktag g ρ i args muts).length := by
    rw [ktag_length]; omega
  have h := congrArg (fun l : List ValueId => l.getD m 0)
    (ktag_fst g ρ i args muts)
  simp only [] at h
  rw [List.getD_eq_getElem _ _ hm2, ← h,
    List.getD_eq_getElem _ _
      (show m < ((ktag g ρ i args muts).map Prod.fst).length by
        rw [List.length_map]; omega),
    List.getElem_map]

end Reinplace

namespace Reinplace

theorem getD_set_self {A : Type} (d : A) :
    ∀ (l : List A) (k : Nat) (x : A), k < l.length →
    (l.set k x).getD k d = x
  | [], k, x, hk => absurd hk (by simp)
  | a :: l, 0, x, _ => rfl
  | a :: l, k + 1, x, hk => by
    show (l.set k x).getD k d = x
    exact getD_set_self d l k x (by
      have : k + 1 < l.length + 1 := hk
      omega)

theorem getD_set_ne {A : Type} (d : A) (l : List A) (k : Nat) (x : A)
    (j : Nat) (h : k ≠ j) : (l.set k x).getD j d = l.getD j d := by
  rw [List.getD_eq_getElem?_getD, List.getElem?_set_ne h,
    ← List.getD_eq_getElem?_getD]

theorem elem_getD_mem_flat (args : List Arg) (k : Nat) :
    ∀ e ∈ (args.getD k default).elems, e ∈ args.flatMap Arg.elems := by
  intro e he
  by_cases hk : k < args.length
  · rw [List.mem_flatMap]
    refine ⟨args.getD k default, ?_, he⟩
    rw [List.getD_eq_getElem _ _ hk]
    exact List.getElem_mem hk
  · rw [List.getD_eq_getElem?_getD, List.getElem?_eq_none (by omega)] at he
    simp [Arg.elems] at he

theorem pairwise_vac {A : Type} {Q : A → A → Prop} :
    ∀ (l : List A), (∀ x ∈ l, ∀ y, Q x y) → List.Pairwise Q l
  | [], _ => List.Pairwise.nil
  | x :: l, h =>
    List.Pairwise.cons (fun y _ => h x (List.mem_cons_self x l) y)
      (pairwise_vac l (fun z hz => h z (List.mem_cons_of_mem x hz)))

theorem checkArg_default (g : Graph) (ρ : Nat → Nat) (i : Nat) :
    checkArg g ρ i default = none := rfl

theorem arg_default_elems : (default : Arg).elems = [] := rfl

end Reinplace

namespace Reinplace

theorem cloneArg_arg_elems (st : PassState) (a : Arg) :
    (cloneArg st a).2.elems = List.range' st.fresh a.elems.length := by
  rw [cloneArg_arg]
  cases a with
  | val e => rfl
  | vlist es => rfl

theorem checkArg_none_vals (g : Graph) (ρ : Nat → Nat) (i : Nat) (a : Arg)
    (hc : checkArg g ρ i a = none) :
    ∀ e ∈ a.elems, checkVal g ρ i e = none := by
  cases a with
  | val t =>
    intro e he
    have : e = t := by simpa [Arg.elems] using he
    subst this
    exact hc
  | vlist ts =>
    intro e he
    rw [checkArg] at hc
    by_cases hall : ts.all (fun t => (checkVal g ρ i t).isNone) = true
    · have := List.all_eq_true.mp hall e (by simpa [Arg.elems] using he)
      cases hcv : checkVal g ρ i e with
      | none => rfl
      | some r => rw [hcv] at this; exact absurd this (by simp)
    · rw [if_neg hall] at hc
      exact absurd hc (by simp)

theorem forall2_kept_group {R : (ValueId × Bool) → ValueId → Prop} :
    ∀ (es : List ValueId), (∀ e ∈ es, R (e, true) e) →
    List.Forall₂ R (es.map (fun e => (e, true))) es
  | [], _ => List.Forall₂.nil
  | e :: es, h =>
    List.Forall₂.cons (h e (List.mem_cons_self e es))
      (forall2_kept_group es (fun x hx => h x (List.mem_cons_of_mem e hx)))

theorem forall2_range_group {R : (ValueId × Bool) → ValueId → Prop} :
    ∀ (es : List ValueId) (c : Nat),
    (∀ m, m < es.length → R (es.getD m 0, false) (c + m)) →
    List.Forall₂ R (es.map (fun e => (e, false))) (List.range' c es.length)
  | [], _, _ => List.Forall₂.nil
  | e :: es, c, h => by
    rw [List.map_cons, show (e :: es).length = es.length + 1 from rfl,
      List.range'_succ]
    refine List.Forall₂.cons ?_ ?_
    · exact h 0 (by rw [show (e :: es).length = es.length + 1 from rfl]; omega)
    · apply forall2_range_group es (c + 1)
      intro m hm
      have h2 := h (m + 1)
        (by rw [show (e :: es).length = es.length + 1 from rfl]; omega)
      rw [show c + (m + 1) = (c + 1) + m by omega] at h2
      exact h2

end Reinplace


namespace Reinplace

theorem processMuts_run (g : Graph) (ρ : Nat → Nat) (i : Nat)
    (interp : String → Nat → List V → V) :
    ∀ (muts : List Nat) (args : List Arg) (fr : Nat) (σ : St V)
      (st2 : PassState) (args2 : List Arg) (σ1 : St V),
    muts.Nodup →
    (∀ e ∈ args.flatMap Arg.elems, e < fr) →
    processMuts g ρ i muts ⟨[], [], fr⟩ args = (st2, args2) →
    σ1 = execNodes interp σ st2.revNodes →
    fr ≤ st2.fresh ∧
    (∀ e ∈ args2.flatMap Arg.elems, e < st2.fresh) ∧
    (∀ v, ¬ (fr ≤ v ∧ v < st2.fresh) →
      σ1.env v = σ.env v ∧ σ1.root v = σ.root v) ∧
    argVals σ1 args2 = argVals σ args ∧
    List.Forall₂ (fun z t2 =>
        (z.2 = true ∧ t2 = z.1 ∧ checkVal g ρ i z.1 = none) ∨
        (z.2 = false ∧ fr ≤ t2 ∧ t2 < st2.fresh ∧ σ1.root t2 = t2))
      (ktag g ρ i args muts) (targetsOf args2 muts) ∧
    List.Pairwise (fun t1 t2 => fr ≤ t1 → fr ≤ t2 → t1 < t2)
      (targetsOf args2 muts) ∧
    (∀ v, fr ≤ v → v < st2.fresh → σ1.root v = v) := by
  intro muts
  induction muts with
  | nil =>
    intro args fr σ st2 args2 σ1 _ hbound heq hσ1
    rw [show processMuts g ρ i [] ⟨[], [], fr⟩ args
        = ((⟨[], [], fr⟩ : PassState), args) from rfl] at heq
    injection heq with h1 h2
    subst h1
    subst h2
    subst hσ1
    exact ⟨le_refl fr, hbound, fun v _ => ⟨rfl, rfl⟩, rfl,
      List.Forall₂.nil, List.Pairwise.nil,
      fun v h1 h2 => absurd (lt_of_le_of_lt h1 h2) (Nat.lt_irrefl fr)⟩
  | cons k rest ih =>
    intro args fr σ st2 args2 σ1 hnd hbound heq hσ1
    have hndr := List.nodup_cons.mp hnd
    cases hc : checkArg g ρ i (args.getD k default) with
    | none =>
      have hstep : processMuts g ρ i (k :: rest) ⟨[], [], fr⟩ args
          = processMuts g ρ i rest ⟨[], [], fr⟩ args := by
        simp only [processMuts, hc]
      rw [hstep] at heq
      obtain ⟨ih1, ih2, ih3, ih4, ih5, ih6, ih7⟩ :=
        ih args fr σ st2 args2 σ1 hndr.2 hbound heq hσ1
      have hgk : args2.getD k default = args.getD k default := by
        obtain ⟨-, hsp2, -⟩ := processMuts_spec g ρ i rest
          (⟨[], [], fr⟩ : PassState) args args (fun _ _ => rfl) hndr.2
        have h2 := hsp2 k hndr.1
        rw [heq] at h2
        exact h2
      have hktagc : ktag g ρ i args (k :: rest)
          = (args.getD k default).elems.map
              (fun e => (e, (checkArg g ρ i (args.getD k default)).isNone))
            ++ ktag g ρ i args rest := rfl
      have htgc : targetsOf args2 (k :: rest)
          = (args2.getD k default).elems ++ targetsOf args2 rest := rfl
      have hcheckTrue : (checkArg g ρ i (args.getD k default)).isNone
          = true := by rw [hc]; rfl
      refine ⟨ih1, ih2, ih3, ih4, ?_, ?_, ih7⟩
      · rw [hktagc, htgc, hgk, hcheckTrue]
        apply forall2_append ?_ ih5
        apply forall2_kept_group
        intro e he
        exact Or.inl ⟨rfl, rfl, checkArg_none_vals g ρ i _ hc e he⟩
      · rw [htgc, hgk]
        apply List.pairwise_append.mpr
        refine ⟨?_, ih6, ?_⟩
        · apply pairwise_vac
          intro x hx y hfx _
          have : x < fr := hbound x (elem_getD_mem_flat args k x hx)
          omega
        · intro x hx y _ hfx _
          have : x < fr := hbound x (elem_getD_mem_flat args k x hx)
          omega
    | some reason =>
      have hklen : k < args.length := by
        by_contra hk
        have hdef : args.getD k default = default := by
          rw [List.getD_eq_getElem?_getD, List.getElem?_eq_none (by omega)]
          rfl
        rw [hdef, checkArg_default] at hc
        exact absurd hc (by simp)
      have hstep : processMuts g ρ i (k :: rest) ⟨[], [], fr⟩ args
          = processMuts g ρ i rest
              (cloneArg { (⟨[], [], fr⟩ : PassState) with
                  counters
                    := (⟨[], [], fr⟩ : PassState).counters ++ [reason] }
                (args.getD k default)).1
              (args.set k
                (cloneArg { (⟨[], [], fr⟩ : PassState) with
                    counters
                      := (⟨[], [], fr⟩ : PassState).counters ++ [reason] }
                  (args.getD k default)).2) := by
        simp only [processMuts, hc]
      have hstK : ({ (⟨[], [], fr⟩ : PassState) with
          counters := (⟨[], [], fr⟩ : PassState).counters ++ [reason] }
            : PassState)
          = (⟨[], [reason], fr⟩ : PassState) := rfl
      rw [hstK] at hstep
      rw [hstep] at heq
      obtain ⟨a, ha⟩ : ∃ x, x = args.getD k default := ⟨_, rfl⟩
      obtain ⟨a2, ha2⟩
        : ∃ x, x = (cloneArg (⟨[], [reason], fr⟩ : PassState) a).2
        := ⟨_, rfl⟩
      obtain ⟨stK, hstKdef⟩
        : ∃ x, x = (cloneArg (⟨[], [reason], fr⟩ : PassState) a).1
        := ⟨_, rfl⟩
      obtain ⟨frK, hfrK⟩ : ∃ x, x = fr + a.elems.length := ⟨_, rfl⟩
      rw [← ha, ← hstKdef, ← ha2] at heq
      rw [← ha] at hc
      have hstKn : stK.revNodes = cloneNodes fr a.elems := by
        rw [hstKdef, cloneArg_nodes]
        rfl
      have hstKf : stK.fresh = frK := by
        rw [hstKdef, cloneArg_fresh, hfrK]
      have ha2e : a2.elems = List.range' fr a.elems.length := by
        rw [ha2, cloneArg_arg_elems]
      obtain ⟨pr, hpr⟩
        : ∃ x, x = processMuts g ρ i rest (⟨[], [], frK⟩ : PassState)
            (args.set k a2)
        := ⟨_, rfl⟩
      obtain ⟨hcanN, hcanF, hcanA⟩ :=
        processMuts_canon g ρ i rest stK (args.set k a2)
      rw [hstKf] at hcanN hcanF hcanA
      rw [← hpr] at hcanN hcanF hcanA
      have hst2 : st2 = (processMuts g ρ i rest stK (args.set k a2)).1 := by
        rw [heq]
      have hargs2 : args2
          = (processMuts g ρ i rest stK (args.set k a2)).2 := by
        rw [heq]
      have hst2n : st2.revNodes
          = cloneNodes fr a.elems ++ pr.1.revNodes := by
        rw [hst2, hcanN, hstKn]
      have hst2f : st2.fresh = pr.1.fresh := by
        rw [hst2, hcanF]
      have hargs2R : args2 = pr.2 := by
        rw [hargs2, hcanA]
      have helembound : ∀ e ∈ a.elems, e < fr := by
        intro e he
        rw [ha] at he
        exact hbound e (elem_getD_mem_flat args k e he)
      obtain ⟨hcu, hcv⟩ :=
        cloneNodes_exec interp a.elems σ fr helembound
      have hfrle : fr ≤ frK := by
        rw [hfrK]
        omega
      have hbound2 : ∀ e ∈ (args.set k a2).flatMap Arg.elems, e < frK := by
        intro e he
        rw [flatMap_set Arg.elems args k a2 hklen] at he
        rcases List.mem_append.mp he with he12 | he3
        · rcases List.mem_append.mp he12 with he1 | he2
          · rw [List.mem_flatMap] at he1
            obtain ⟨b, hb, heb⟩ := he1
            have helt : e < fr := hbound e
              (List.mem_flatMap.mpr ⟨b, List.mem_of_mem_take hb, heb⟩)
            exact lt_of_lt_of_le helt hfrle
          · have he2r : e ∈ List.range' fr a.elems.length := by
              rw [← ha2e]; exact he2
            rw [mem_range1] at he2r
            rw [hfrK]
            exact he2r.2
        · rw [List.mem_flatMap] at he3
          obtain ⟨b, hb, heb⟩ := he3
          have helt : e < fr := hbound e
            (List.mem_flatMap.mpr ⟨b, List.mem_of_mem_drop hb, heb⟩)
          exact lt_of_lt_of_le helt hfrle
      obtain ⟨ih1, ih2, ih3, ih4, ih5, ih6, ih7⟩ :=
        ih (args.set k a2) frK (execNodes interp σ (cloneNodes fr a.elems))
          pr.1 pr.2
          (execNodes interp (execNodes interp σ (cloneNodes fr a.elems))
            pr.1.revNodes)
          hndr.2 hbound2 (by rw [← hpr]) rfl
      subst hσ1
      have hσeq : execNodes interp σ st2.revNodes
          = execNodes interp (execNodes interp σ (cloneNodes fr a.elems))
              pr.1.revNodes := by
        rw [hst2n, execNodes_append]
      rw [hσeq, hst2f, hargs2R]
      have hgkR : pr.2.getD k default = a2 := by
        obtain ⟨-, hsp2, -⟩ := processMuts_spec g ρ i rest
          (⟨[], [], frK⟩ : PassState) (args.set k a2) (args.set k a2)
          (fun _ _ => rfl) hndr.2
        have h2 := hsp2 k hndr.1
        rw [← hpr] at h2
        rw [h2]
        exact getD_set_self default args k a2 hklen
      have hktagc : ktag g ρ i args (k :: rest)
          = (args.getD k default).elems.map
              (fun e => (e, (checkArg g ρ i (args.getD k default)).isNone))
            ++ ktag g ρ i args rest := rfl
      rw [← ha] at hktagc
      have htgc : targetsOf pr.2 (k :: rest)
          = (pr.2.getD k default).elems ++ targetsOf pr.2 rest := rfl
      have hcheckFalse : (checkArg g ρ i a).isNone = false := by
        rw [hc]
        rfl
      have hktagrest : ktag g ρ i (args.set k a2) rest
          = ktag g ρ i args rest := by
        apply ktag_congr
        intro k2 hk2
        exact getD_set_ne default args k a2 k2
          (fun hcontra => hndr.1 (hcontra ▸ hk2))
      have hclass : ∀ t2 ∈ targetsOf pr.2 rest, t2 < fr ∨ frK ≤ t2 := by
        intro t2 ht2
        obtain ⟨z, hz, hR⟩ := forall2_mem_right ih5 t2 ht2
        rcases hR with ⟨-, ht2z, -⟩ | ⟨-, hfrK2, -, -⟩
        · left
          rw [hktagrest] at hz
          have hz1b : z.1 ∈ targetsOf args rest := by
            rw [← ktag_fst g ρ i args rest]
            exact List.mem_map_of_mem Prod.fst hz
          have hzlt := hbound z.1 (targetsOf_subset_flat args rest z.1 hz1b)
          rw [ht2z]
          exact hzlt
        · right
          exact hfrK2
      refine ⟨le_trans hfrle ih1, ih2, ?_, ?_, ?_, ?_, ?_⟩
      · intro v hv
        by_cases hvfr : v < fr
        · obtain ⟨e1, r1⟩ := ih3 v (fun hcont =>
            Nat.lt_irrefl v
              (lt_of_lt_of_le (lt_of_lt_of_le hvfr hfrle) hcont.1))
          obtain ⟨e0, r0⟩ := hcu v (fun hcont =>
            Nat.lt_irrefl v (lt_of_lt_of_le hvfr hcont.1))
          exact ⟨by rw [e1, e0], by rw [r1, r0]⟩
        · have hvhigh : pr.1.fresh ≤ v := by
            by_contra hcon
            exact hv ⟨Nat.le_of_not_lt hvfr, Nat.lt_of_not_le hcon⟩
          have hfrKv : frK ≤ v := le_trans ih1 hvhigh
          obtain ⟨e1, r1⟩ := ih3 v (fun hcont =>
            Nat.lt_irrefl v (lt_of_lt_of_le hcont.2 hvhigh))
          obtain ⟨e0, r0⟩ := hcu v (by
            intro hcontra
            have hvlt : v < frK := by
              rw [hfrK]
              exact hcontra.2
            exact Nat.lt_irrefl v (lt_of_lt_of_le hvlt hfrKv))
          exact ⟨by rw [e1, e0], by rw [r1, r0]⟩
      · rw [ih4]
        rw [argVals, argVals, flatMap_set Arg.elems args k a2 hklen,
          flatMap_decomp Arg.elems default args k hklen]
        rw [← ha]
        rw [List.map_append, List.map_append, List.map_append,
          List.map_append]
        congr 1
        congr 1
        · apply List.map_congr_left
          intro e he
          rw [List.mem_flatMap] at he
          obtain ⟨b, hb, heb⟩ := he
          have helt : e < fr := hbound e
            (List.mem_flatMap.mpr ⟨b, List.mem_of_mem_take hb, heb⟩)
          exact (hcu e (by omega)).1
        · rw [ha2e]
          apply List.ext_getElem
          · rw [List.length_map, List.length_map, List.length_range']
          · intro m hm1 hm2
            rw [List.getElem_map, List.getElem_map, List.getElem_range']
            have hmlen : m < a.elems.length := by
              rw [List.length_map, List.length_range'] at hm1
              omega
            have hce := (hcv m hmlen).1
            rw [List.getD_eq_getElem _ _ hmlen] at hce
            rw [show fr + 1 * m = fr + m by omega]
            exact hce
        · apply List.map_congr_left
          intro e he
          rw [List.mem_flatMap] at he
          obtain ⟨b, hb, heb⟩ := he
          have helt : e < fr := hbound e
            (List.mem_flatMap.mpr ⟨b, List.mem_of_mem_drop hb, heb⟩)
          exact (hcu e (by omega)).1
      · rw [hktagc, htgc, hgkR, hcheckFalse, ha2e]
        apply forall2_append
        · apply forall2_range_group
          intro m hm
          have hmK : fr + m < frK := by
            rw [hfrK]
            exact Nat.add_lt_add_left hm fr
          refine Or.inr ⟨rfl, Nat.le_add_right fr m, ?_, ?_⟩
          · exact lt_of_lt_of_le hmK ih1
          · have hr1 : (execNodes interp
                (execNodes interp σ (cloneNodes fr a.elems))
                pr.1.revNodes).root (fr + m)
                = (execNodes interp σ (cloneNodes fr a.elems)).root
                    (fr + m) := by
              exact (ih3 (fr + m) (fun hcont =>
                Nat.lt_irrefl (fr + m)
                  (lt_of_lt_of_le hmK hcont.1))).2
            rw [hr1]
            exact (hcv m hm).2
        · rw [← hktagrest]
          apply List.Forall₂.imp ?_ ih5
          intro z t2 hzR
          rcases hzR with hkept | ⟨hzf, hfr2, hlt2, hroot2⟩
          · exact Or.inl hkept
          · exact Or.inr ⟨hzf, le_trans hfrle hfr2, hlt2, hroot2⟩
      · rw [htgc, hgkR, ha2e]
        apply List.pairwise_append.mpr
        refine ⟨?_, ?_, ?_⟩
        · apply List.Pairwise.imp ?_ (List.pairwise_lt_range' fr _)
          intro x y hxy _ _
          exact hxy
        · apply List.Pairwise.imp_of_mem ?_ ih6
          intro x y hx hy hq hfx hfy
          rcases hclass x hx with hx1 | hx2
          · exact absurd (lt_of_lt_of_le hx1 hfx) (Nat.lt_irrefl x)
          · rcases hclass y hy with hy1 | hy2
            · exact absurd (lt_of_lt_of_le hy1 hfy) (Nat.lt_irrefl y)
            · exact hq hx2 hy2
        · intro x hx y hy hfx hfy
          rw [mem_range1] at hx
          rcases hclass y hy with hy1 | hy2
          · exact absurd (lt_of_lt_of_le hy1 hfy) (Nat.lt_irrefl y)
          · have hxlt : x < frK := by
              rw [hfrK]
              exact hx.2
            exact lt_of_lt_of_le hxlt hy2
      · intro v hv1 hv2
        by_cases hvK : frK ≤ v
        · exact ih7 v hvK hv2
        · have hvm : v < frK := Nat.lt_of_not_le hvK
          have hm : v - fr < a.elems.length := by
            rw [hfrK] at hvm
            omega
          have hr1 : (execNodes interp
              (execNodes interp σ (cloneNodes fr a.elems))
              pr.1.revNodes).root v
              = (execNodes interp σ (cloneNodes fr a.elems)).root v :=
            (ih3 v (fun hcont =>
              Nat.lt_irrefl v (lt_of_lt_of_le hvm hcont.1))).2
          rw [hr1]
          have hveq : v = fr + (v - fr) := by omega
          rw [hveq]
          exact (hcv (v - fr) hm).2

end Reinplace

namespace Reinplace

/-- The forward-simulation invariant between the original execution `σA`
(after the first `i` nodes) and the rewritten execution `σB` (after the
rewritten prefix, with defensive copies numbered up to `fr`): the original
roots follow the static alias analysis, undefined Values still hold their
initial state, rewritten roots of defined Values stay defined, graph-input
storage is never re-rooted or silently overwritten, live storage holds
identical contents in both executions, and two live Values share rewritten
storage exactly when they share original storage. -/
structure SimInv (g : Graph) {V : Type} (inputs : Nat → V) (i fr : Nat)
    (σA σB : St V) : Prop where
  hfr : freshBound g ≤ fr
  arootA : ∀ v, v < defBound g i → σA.root v = roots0 g v
  ahigh : ∀ v, defBound g i ≤ v → σA.root v = v ∧ σA.env v = inputs v
  bundef : ∀ v, ¬ DefB g i fr v → σB.root v = v ∧ σB.env v = inputs v
  brootDef : ∀ v, DefB g i fr v → DefB g i fr (σB.root v)
  binpRoot : ∀ v, v < g.nIn → σB.root v = v
  binRootFix : ∀ v, DefB g i fr v → σB.root v < g.nIn →
      roots0 g v = σB.root v
  liveRoot : ∀ u v, u < defBound g i → v < defBound g i →
      liveFrom g (roots0 g) i (roots0 g u) = true →
      liveFrom g (roots0 g) i (roots0 g v) = true →
      (σB.root u = σB.root v ↔ roots0 g u = roots0 g v)
  benv : ∀ v, v < defBound g i →
      liveFrom g (roots0 g) i (roots0 g v) = true → σB.env v = σA.env v
  benvInput : ∀ v, v < g.nIn → userMutates g v = false →
      σB.env v = inputs v

theorem sim_init (g : Graph) (hwf : WF g = true) {V : Type}
    (inputs : Nat → V) :
    SimInv g inputs 0 (freshBound g) (initSt inputs) (initSt inputs) := by
  have hdb : defBound g 0 = g.nIn := defBound_zero g
  refine ⟨le_refl _, ?_, ?_, ?_, ?_, ?_, ?_, ?_, ?_, ?_⟩
  · intro v hv
    rw [hdb] at hv
    exact (roots0_input g hwf v hv).symm
  · intro v _
    exact ⟨rfl, rfl⟩
  · intro v _
    exact ⟨rfl, rfl⟩
  · intro v hv
    exact hv
  · intro v _
    rfl
  · intro v _ hv2
    show roots0 g v = v
    exact roots0_input g hwf v (by
      have : (initSt inputs : St V).root v = v := rfl
      rw [this] at hv2
      exact hv2)
  · intro u v hu hv _ _
    rw [hdb] at hu hv
    show u = v ↔ roots0 g u = roots0 g v
    rw [roots0_input g hwf u hu, roots0_input g hwf v hv]
  · intro v _ _
    rfl
  · intro v _ _
    rfl

end Reinplace

namespace Reinplace

theorem sim_step_single (g : Graph) (hwf : WF g = true) {V : Type}
    (interp : String → Nat → List V → V) (inputs : Nat → V) (i fr : Nat)
    (hi : i < g.nodes.length) (σA σB : St V)
    (hinv : SimInv g inputs i fr σA σB)
    (wA wB : V) (hw : wB = wA)
    (hcount : outCount (g.nodes.getD i default) = 1)
    (hρc : roots0 g (defBound g i) = defBound g i)
    (hexecA : execNode interp σA (g.nodes.getD i default)
      = defineFresh σA (defBound g i) wA)
    (hexecB : execNodes interp σB
        (emit g (roots0 g) i fr (g.nodes.getD i default))
      = defineFresh σB (defBound g i) wB)
    (hfr2 : emitFresh g (roots0 g) i fr (g.nodes.getD i default) = fr) :
    SimInv g inputs (i + 1)
      (emitFresh g (roots0 g) i fr (g.nodes.getD i default))
      (execNode interp σA (g.nodes.getD i default))
      (execNodes interp σB
        (emit g (roots0 g) i fr (g.nodes.getD i default))) := by
  rw [hw] at hexecB
  rw [hexecA, hexecB, hfr2]
  have hdb1 : defBound g (i + 1) = defBound g i + 1 := by
    rw [defBound_succ g i hi, hcount]
  have hnin := nIn_le_defBound g i
  have hclt : defBound g i < freshBound g := by
    have h1 : defBound g (i + 1) ≤ freshBound g :=
      defBound_le_freshBound g (i + 1)
    omega
  have hcnD : ¬ DefB g i fr (defBound g i) := by
    intro h
    rcases h with h1 | h2
    · exact Nat.lt_irrefl _ h1
    · omega
  refine ⟨hinv.hfr, ?_, ?_, ?_, ?_, ?_, ?_, ?_, ?_, ?_⟩
  · intro v hv
    by_cases hvc : v = defBound g i
    · subst hvc
      show upd σA.root (defBound g i) (defBound g i) (defBound g i)
        = roots0 g (defBound g i)
      rw [upd_self, hρc]
    · show upd σA.root (defBound g i) (defBound g i) v = roots0 g v
      rw [upd_ne _ _ _ _ hvc]
      exact hinv.arootA v (by omega)
  · intro v hv
    have hvc : v ≠ defBound g i := by omega
    constructor
    · show upd σA.root (defBound g i) (defBound g i) v = v
      rw [upd_ne _ _ _ _ hvc]
      exact (hinv.ahigh v (by omega)).1
    · show upd σA.env (defBound g i) wA v = inputs v
      rw [upd_ne _ _ _ _ hvc]
      exact (hinv.ahigh v (by omega)).2
  · intro v hv
    have hv0 : ¬ DefB g i fr v := fun hc =>
      hv (DefB_mono g (Nat.le_succ i) (le_refl fr) hc)
    have hvc : v ≠ defBound g i := by
      intro hc
      exact hv (Or.inl (by omega))
    constructor
    · show upd σB.root (defBound g i) (defBound g i) v = v
      rw [upd_ne _ _ _ _ hvc]
      exact (hinv.bundef v hv0).1
    · show upd σB.env (defBound g i) wA v = inputs v
      rw [upd_ne _ _ _ _ hvc]
      exact (hinv.bundef v hv0).2
  · intro v hv
    by_cases hvc : v = defBound g i
    · subst hvc
      show DefB g (i + 1) fr
        (upd σB.root (defBound g i) (defBound g i) (defBound g i))
      rw [upd_self]
      exact Or.inl (by omega)
    · show DefB g (i + 1) fr (upd σB.root (defBound g i) (defBound g i) v)
      rw [upd_ne _ _ _ _ hvc]
      have hv0 : DefB g i fr v := by
        rcases hv with h1 | h2
        · exact Or.inl (by omega)
        · exact Or.inr h2
      exact DefB_mono g (Nat.le_succ i) (le_refl fr) (hinv.brootDef v hv0)
  · intro v hv
    have hvc : v ≠ defBound g i := by omega
    show upd σB.root (defBound g i) (defBound g i) v = v
    rw [upd_ne _ _ _ _ hvc]
    exact hinv.binpRoot v hv
  · intro v hv hvr
    have hroot : (defineFresh σB (defBound g i) wA).root
        = upd σB.root (defBound g i) (defBound g i) := rfl
    rw [hroot] at hvr
    by_cases hvc : v = defBound g i
    · subst hvc
      rw [upd_self] at hvr
      omega
    · rw [upd_ne _ _ _ _ hvc] at hvr
      have hv0 : DefB g i fr v := by
        rcases hv with h1 | h2
        · exact Or.inl (by omega)
        · exact Or.inr h2
      show roots0 g v = (defineFresh σB (defBound g i) wA).root v
      rw [hroot, upd_ne _ _ _ _ hvc]
      exact hinv.binRootFix v hv0 hvr
  · intro u v hu hv hlu hlv
    by_cases huc : u = defBound g i
    · by_cases hvc : v = defBound g i
      · subst huc
        subst hvc
        exact iff_of_true rfl rfl
      · subst huc
        apply iff_of_false
        · show ¬ upd σB.root (defBound g i) (defBound g i) (defBound g i)
            = upd σB.root (defBound g i) (defBound g i) v
          rw [upd_self, upd_ne _ _ _ _ hvc]
          intro hc
          apply hcnD
          rw [hc]
          exact hinv.brootDef v (Or.inl (by omega))
        · intro hc
          have h1 : roots0 g v < defBound g i :=
            roots0_lt_defBound g hwf i v (by omega)
          rw [hρc] at hc
          omega
    · by_cases hvc : v = defBound g i
      · subst hvc
        apply iff_of_false
        · show ¬ upd σB.root (defBound g i) (defBound g i) u
            = upd σB.root (defBound g i) (defBound g i) (defBound g i)
          rw [upd_self, upd_ne _ _ _ _ huc]
          intro hc
          apply hcnD
          rw [← hc]
          exact hinv.brootDef u (Or.inl (by omega))
        · intro hc
          have h1 : roots0 g u < defBound g i :=
            roots0_lt_defBound g hwf i u (by omega)
          rw [hρc] at hc
          omega
      · show upd σB.root (defBound g i) (defBound g i) u
          = upd σB.root (defBound g i) (defBound g i) v
          ↔ roots0 g u = roots0 g v
        rw [upd_ne _ _ _ _ huc, upd_ne _ _ _ _ hvc]
        exact hinv.liveRoot u v (by omega) (by omega)
          (liveFrom_mono g (roots0 g) i _ hlu)
          (liveFrom_mono g (roots0 g) i _ hlv)
  · intro v hv hlv
    by_cases hvc : v = defBound g i
    · subst hvc
      show upd σB.env (defBound g i) wA (defBound g i)
        = upd σA.env (defBound g i) wA (defBound g i)
      rw [upd_self, upd_self]
    · show upd σB.env (defBound g i) wA v
        = upd σA.env (defBound g i) wA v
      rw [upd_ne _ _ _ _ hvc, upd_ne _ _ _ _ hvc]
      exact hinv.benv v (by omega)
        (liveFrom_mono g (roots0 g) i _ hlv)
  · intro v hv hm
    have hvc : v ≠ defBound g i := by omega
    show upd σB.env (defBound g i) wA v = inputs v
    rw [upd_ne _ _ _ _ hvc]
    exact hinv.benvInput v hv hm

end Reinplace

namespace Reinplace

theorem sim_step_pure (g : Graph) (hwf : WF g = true) {V : Type}
    (interp : String → Nat → List V → V) (inputs : Nat → V) (i fr : Nat)
    (hi : i < g.nodes.length) (σA σB : St V)
    (hinv : SimInv g inputs i fr σA σB) (f : String) (args : List Arg)
    (outs : List ValueId)
    (hn : g.nodes.getD i default = ⟨.pure f, args, outs⟩) :
    SimInv g inputs (i + 1)
      (emitFresh g (roots0 g) i fr (g.nodes.getD i default))
      (execNode interp σA (g.nodes.getD i default))
      (execNodes interp σB
        (emit g (roots0 g) i fr (g.nodes.getD i default))) := by
  have hargsb : ∀ v ∈ args.flatMap Arg.elems, v < defBound g i := by
    have h := (wf_node_parts g hwf i hi).1
    rw [hn] at h
    exact h
  have houts2 : outs = List.range' (defBound g i) 1 := by
    have h := (wf_node_parts g hwf i hi).2
    rw [hn] at h
    exact h
  have hhead : outs.headD 0 = defBound g i := by
    rw [houts2]
    rfl
  have hcount : outCount (g.nodes.getD i default) = 1 := by
    rw [hn]
    rfl
  have hρc : roots0 g (defBound g i) = defBound g i := by
    have h0 := roots0_out g hwf i hi 0 (by rw [hn]; exact Nat.zero_lt_one)
    rw [hn, Nat.add_zero] at h0
    rw [h0]
    show upd (rootsUpTo g i) (outs.headD 0) (outs.headD 0) (defBound g i)
      = defBound g i
    rw [hhead]
    exact upd_self _ _ _
  have hfinEq : argVals σB args = argVals σA args :=
    argVals_agree σB σA args (fun e he =>
      hinv.benv e (hargsb e he)
        (node_arg_live g i hi e (by rw [hn]; exact he)))
  have hexecA : execNode interp σA (g.nodes.getD i default)
      = defineFresh σA (defBound g i) (interp f 0 (argVals σA args)) := by
    rw [hn]
    show defineFresh σA (outs.headD 0) (interp f 0 (argVals σA args)) = _
    rw [hhead]
  have hexecB : execNodes interp σB
      (emit g (roots0 g) i fr (g.nodes.getD i default))
      = defineFresh σB (defBound g i) (interp f 0 (argVals σB args)) := by
    rw [hn]
    show defineFresh σB (outs.headD 0) (interp f 0 (argVals σB args)) = _
    rw [hhead]
  have hfr2 : emitFresh g (roots0 g) i fr (g.nodes.getD i default)
      = fr := by
    rw [hn]
    rfl
  exact sim_step_single g hwf interp inputs i fr hi σA σB hinv
    (interp f 0 (argVals σA args)) (interp f 0 (argVals σB args))
    (congrArg (interp f 0) hfinEq) hcount hρc hexecA hexecB hfr2

end Reinplace

namespace Reinplace

theorem sim_step_view (g : Graph) (hwf : WF g = true) {V : Type}
    (interp : String → Nat → List V → V) (inputs : Nat → V) (i fr : Nat)
    (hi : i < g.nodes.length) (σA σB : St V)
    (hinv : SimInv g inputs i fr σA σB) (t : ValueId)
    (outs : List ValueId)
    (hn : g.nodes.getD i default = ⟨.view, [.val t], outs⟩) :
    SimInv g inputs (i + 1)
      (emitFresh g (roots0 g) i fr (g.nodes.getD i default))
      (execNode interp σA (g.nodes.getD i default))
      (execNodes interp σB
        (emit g (roots0 g) i fr (g.nodes.getD i default))) := by
  have htb : t < defBound g i := by
    have h := (wf_node_parts g hwf i hi).1
    rw [hn] at h
    exact h t (by simp [Arg.elems])
  have houts2 : outs = List.range' (defBound g i) 1 := by
    have h := (wf_node_parts g hwf i hi).2
    rw [hn] at h
    exact h
  have hhead : outs.headD 0 = defBound g i := by
    rw [houts2]
    rfl
  have htlive : liveFrom g (roots0 g) i (roots0 g t) = true :=
    node_arg_live g i hi t (by rw [hn]; simp [Arg.elems])
  have hρc : roots0 g (defBound g i) = roots0 g t := by
    have h0 := roots0_out g hwf i hi 0 (by rw [hn]; exact Nat.zero_lt_one)
    rw [hn, Nat.add_zero] at h0
    rw [h0]
    show upd (rootsUpTo g i)
        (outs.headD 0) (rootsUpTo g i (headVal [Arg.val t]))
        (defBound g i) = roots0 g t
    rw [hhead, upd_self]
    show rootsUpTo g i t = roots0 g t
    exact (roots0_eq_upTo g hwf i (by omega) t htb).symm
  have hfr2 : emitFresh g (roots0 g) i fr (g.nodes.getD i default)
      = fr := by
    rw [hn]
    rfl
  have hexecA : execNode interp σA (g.nodes.getD i default)
      = defineRooted σA (defBound g i) (σA.root t) (σA.env t) := by
    rw [hn]
    show defineRooted σA (outs.headD 0)
      (σA.root (headVal [Arg.val t])) (σA.env (headVal [Arg.val t])) = _
    rw [hhead]
    rfl
  have hexecB : execNodes interp σB
      (emit g (roots0 g) i fr (g.nodes.getD i default))
      = defineRooted σB (defBound g i) (σB.root t) (σB.env t) := by
    rw [hn]
    show defineRooted σB (outs.headD 0)
      (σB.root (headVal [Arg.val t])) (σB.env (headVal [Arg.val t])) = _
    rw [hhead]
    rfl
  rw [hexecA, hexecB, hfr2]
  have hdb1 : defBound g (i + 1) = defBound g i + 1 := by
    rw [defBound_succ g i hi, hn]
    rfl
  have hnin := nIn_le_defBound g i
  have hclt : defBound g i < freshBound g := by
    have h1 : defBound g (i + 1) ≤ freshBound g :=
      defBound_le_freshBound g (i + 1)
    omega
  have hcnD : ¬ DefB g i fr (defBound g i) := by
    intro h
    rcases h with h1 | h2
    · exact Nat.lt_irrefl _ h1
    · omega
  have hρtb : roots0 g t < defBound g i := roots0_lt_defBound g hwf i t htb
  refine ⟨hinv.hfr, ?_, ?_, ?_, ?_, ?_, ?_, ?_, ?_, ?_⟩
  · intro v hv
    by_cases hvc : v = defBound g i
    · subst hvc
      show upd σA.root (defBound g i) (σA.root t) (defBound g i)
        = roots0 g (defBound g i)
      rw [upd_self, hρc]
      exact hinv.arootA t htb
    · show upd σA.root (defBound g i) (σA.root t) v = roots0 g v
      rw [upd_ne _ _ _ _ hvc]
      exact hinv.arootA v (by omega)
  · intro v hv
    have hvc : v ≠ defBound g i := by omega
    constructor
    · show upd σA.root (defBound g i) (σA.root t) v = v
      rw [upd_ne _ _ _ _ hvc]
      exact (hinv.ahigh v (by omega)).1
    · show upd σA.env (defBound g i) (σA.env t) v = inputs v
      rw [upd_ne _ _ _ _ hvc]
      exact (hinv.ahigh v (by omega)).2
  · intro v hv
    have hv0 : ¬ DefB g i fr v := fun hc =>
      hv (DefB_mono g (Nat.le_succ i) (le_refl fr) hc)
    have hvc : v ≠ defBound g i := by
      intro hc
      exact hv (Or.inl (by omega))
    constructor
    · show upd σB.root (defBound g i) (σB.root t) v = v
      rw [upd_ne _ _ _ _ hvc]
      exact (hinv.bundef v hv0).1
    · show upd σB.env (defBound g i) (σB.env t) v = inputs v
      rw [upd_ne _ _ _ _ hvc]
      exact (hinv.bundef v hv0).2
  · intro v hv
    by_cases hvc : v = defBound g i
    · subst hvc
      show DefB g (i + 1) fr
        (upd σB.root (defBound g i) (σB.root t) (defBound g i))
      rw [upd_self]
      exact DefB_mono g (Nat.le_succ i) (le_refl fr)
        (hinv.brootDef t (Or.inl htb))
    · show DefB g (i + 1) fr (upd σB.root (defBound g i) (σB.root t) v)
      rw [upd_ne _ _ _ _ hvc]
      have hv0 : DefB g i fr v := by
        rcases hv with h1 | h2
        · exact Or.inl (by omega)
        · exact Or.inr h2
      exact DefB_mono g (Nat.le_succ i) (le_refl fr) (hinv.brootDef v hv0)
  · intro v hv
    have hvc : v ≠ defBound g i := by omega
    show upd σB.root (defBound g i) (σB.root t) v = v
    rw [upd_ne _ _ _ _ hvc]
    exact hinv.binpRoot v hv
  · intro v hv hvr
    have hroot : (defineRooted σB (defBound g i) (σB.root t)
        (σB.env t)).root = upd σB.root (defBound g i) (σB.root t) := rfl
    rw [hroot] at hvr
    by_cases hvc : v = defBound g i
    · subst hvc
      rw [upd_self] at hvr
      show roots0 g (defBound g i)
        = upd σB.root (defBound g i) (σB.root t) (defBound g i)
      rw [upd_self, hρc]
      exact hinv.binRootFix t (Or.inl htb) hvr
    · rw [upd_ne _ _ _ _ hvc] at hvr
      have hv0 : DefB g i fr v := by
        rcases hv with h1 | h2
        · exact Or.inl (by omega)
        · exact Or.inr h2
      show roots0 g v = upd σB.root (defBound g i) (σB.root t) v
      rw [upd_ne _ _ _ _ hvc]
      exact hinv.binRootFix v hv0 hvr
  · intro u v hu hv hlu hlv
    by_cases huc : u = defBound g i
    · by_cases hvc : v = defBound g i
      · subst huc
        subst hvc
        exact iff_of_true rfl rfl
      · subst huc
        show upd σB.root (defBound g i) (σB.root t) (defBound g i)
            = upd σB.root (defBound g i) (σB.root t) v
          ↔ roots0 g (defBound g i) = roots0 g v
        rw [upd_self, upd_ne _ _ _ _ hvc, hρc]
        exact hinv.liveRoot t v htb (by omega) htlive
          (liveFrom_mono g (roots0 g) i _ hlv)
    · by_cases hvc : v = defBound g i
      · subst hvc
        show upd σB.root (defBound g i) (σB.root t) u
            = upd σB.root (defBound g i) (σB.root t) (defBound g i)
          ↔ roots0 g u = roots0 g (defBound g i)
        rw [upd_self, upd_ne _ _ _ _ huc, hρc]
        exact hinv.liveRoot u t (by omega) htb
          (liveFrom_mono g (roots0 g) i _ hlu) htlive
      · show upd σB.root (defBound g i) (σB.root t) u
            = upd σB.root (defBound g i) (σB.root t) v
          ↔ roots0 g u = roots0 g v
        rw [upd_ne _ _ _ _ huc, upd_ne _ _ _ _ hvc]
        exact hinv.liveRoot u v (by omega) (by omega)
          (liveFrom_mono g (roots0 g) i _ hlu)
          (liveFrom_mono g (roots0 g) i _ hlv)
  · intro v hv hlv
    by_cases hvc : v = defBound g i
    · subst hvc
      show upd σB.env (defBound g i) (σB.env t) (defBound g i)
        = upd σA.env (defBound g i) (σA.env t) (defBound g i)
      rw [upd_self, upd_self]
      exact hinv.benv t htb htlive
    · show upd σB.env (defBound g i) (σB.env t) v
        = upd σA.env (defBound g i) (σA.env t) v
      rw [upd_ne _ _ _ _ hvc, upd_ne _ _ _ _ hvc]
      exact hinv.benv v (by omega)
        (liveFrom_mono g (roots0 g) i _ hlv)
  · intro v hv hm
    have hvc : v ≠ defBound g i := by omega
    show upd σB.env (defBound g i) (σB.env t) v = inputs v
    rw [upd_ne _ _ _ _ hvc]
    exact hinv.benvInput v hv hm

end Reinplace

namespace Reinplace

theorem rootStep_inplace_out (g : Graph) (hwf : WF g = true) (i : Nat)
    (hi : i < g.nodes.length) (f : String) (muts : List Nat)
    (args : List Arg) (outs : List ValueId)
    (hn : g.nodes.getD i default = ⟨.inplaceOp f muts, args, outs⟩)
    (j : Nat) (hj : j < (targetsOf args muts).length) :
    roots0 g (defBound g i + j)
      = roots0 g ((targetsOf args muts).getD j 0) := by
  have houts2 : outs
      = List.range' (defBound g i) (targetsOf args muts).length := by
    have h := (wf_node_parts g hwf i hi).2
    rw [hn] at h
    exact h
  have hargsb : ∀ v ∈ args.flatMap Arg.elems, v < defBound g i := by
    have h := (wf_node_parts g hwf i hi).1
    rw [hn] at h
    exact h
  have htb : (targetsOf args muts).getD j 0 < defBound g i := by
    apply hargsb
    apply targetsOf_subset_flat args muts
    rw [List.getD_eq_getElem _ _ hj]
    exact List.getElem_mem hj
  have h0 := roots0_out g hwf i hi j (by rw [hn]; exact hj)
  rw [hn] at h0
  rw [h0]
  show (List.zip outs ((targetsOf args muts).map (rootsUpTo g i))).foldl
      (fun ρ2 p => upd ρ2 p.1 p.2) (rootsUpTo g i) (defBound g i + j)
    = roots0 g ((targetsOf args muts).getD j 0)
  rw [foldl_upd_pairs_eval]
  have hlenz : (List.zip outs
      ((targetsOf args muts).map (rootsUpTo g i))).length
      = (targetsOf args muts).length := by
    rw [List.length_zip, houts2, List.length_range', List.length_map]
    omega
  have hndkeys : (((List.zip outs
      ((targetsOf args muts).map (rootsUpTo g i))).reverse).map
        Prod.fst).Nodup := by
    rw [List.map_reverse, List.nodup_reverse]
    rw [List.map_fst_zip _ _ (by rw [houts2, List.length_range',
      List.length_map])]
    rw [houts2]
    exact List.nodup_range' _ _
  have hjt : j < outs.length := by
    rw [houts2, List.length_range']
    omega
  have hjm : j < ((targetsOf args muts).map (rootsUpTo g i)).length := by
    rw [List.length_map]
    omega
  have hget : (List.zip outs
      ((targetsOf args muts).map (rootsUpTo g i)))[j]
      = (defBound g i + j,
         rootsUpTo g i ((targetsOf args muts).getD j 0)) := by
    rw [List.getElem_zip, List.getElem_map]
    rw [List.getD_eq_getElem _ _ hj]
    congr 1
    simp only [houts2, List.getElem_range', Nat.one_mul]
  have hjz : j < (List.zip outs
      ((targetsOf args muts).map (rootsUpTo g i))).length := by
    omega
  have hmem : ((defBound g i + j,
      rootsUpTo g i ((targetsOf args muts).getD j 0)) : Nat × Nat)
      ∈ (List.zip outs
          ((targetsOf args muts).map (rootsUpTo g i))).reverse :=
    List.mem_reverse.mpr (hget ▸ List.getElem_mem hjz)
  have hfind := find?_fst_unique _ hndkeys _ hmem
  rw [hfind]
  show rootsUpTo g i ((targetsOf args muts).getD j 0) = _
  exact (roots0_eq_upTo g hwf i (by omega) _ htb).symm

end Reinplace

namespace Reinplace

theorem notin_range_lo {c M v : Nat} (h : v < c) :
    ¬ (c ≤ v ∧ v < c + M) :=
  fun hc => Nat.lt_irrefl v (lt_of_lt_of_le h hc.1)

theorem notin_range_hi {c M v : Nat} (h : c + M ≤ v) :
    ¬ (c ≤ v ∧ v < c + M) :=
  fun hc => Nat.lt_irrefl v (lt_of_lt_of_le hc.2 h)

theorem range_split {c M v : Nat} (h : v < c + M) :
    v < c ∨ ∃ j, j < M ∧ v = c + j := by
  by_cases h1 : v < c
  · exact Or.inl h1
  · exact Or.inr ⟨v - c, by omega, by omega⟩

theorem DefB_succ_cases (g : Graph) {i fr v : Nat}
    (h : DefB g (i + 1) fr v) :
    DefB g i fr v ∨ (defBound g i ≤ v ∧ v < defBound g (i + 1)) := by
  rcases h with h1 | h2
  · by_cases hc : v < defBound g i
    · exact Or.inl (Or.inl hc)
    · exact Or.inr ⟨Nat.le_of_not_lt hc, h1⟩
  · exact Or.inl (Or.inr h2)

theorem wf_inplace_nodup (g : Graph) (hwf : WF g = true) (i : Nat)
    (hi : i < g.nodes.length) (f : String) (muts : List Nat)
    (args : List Arg) (outs : List ValueId)
    (hn : g.nodes.getD i default = ⟨.inplaceOp f muts, args, outs⟩) :
    ((targetsOf args muts).map (roots0 g)).Nodup := by
  have hwn := wf_node g hwf i hi
  rw [hn] at hwn
  rw [nodeWF] at hwn
  simp only [Bool.and_eq_true] at hwn
  exact of_decide_eq_true hwn.2.2

end Reinplace

namespace Reinplace

theorem map_getD_ne {A B : Type} (f : A → B) (l : List A) (d : A)
    (h : (l.map f).Nodup) (j k : Nat) (hj : j < l.length)
    (hk : k < l.length) (hjk : j ≠ k) :
    f (l.getD j d) ≠ f (l.getD k d) := by
  rw [List.getD_eq_getElem _ _ hj, List.getD_eq_getElem _ _ hk]
  intro hc
  have hjm : j < (l.map f).length := by rw [List.length_map]; omega
  have hkm : k < (l.map f).length := by rw [List.length_map]; omega
  have hc2 : (l.map f)[j] = (l.map f)[k] := by
    rw [List.getElem_map, List.getElem_map]
    exact hc
  exact hjk ((List.Nodup.getElem_inj_iff h).mp hc2)

theorem nodup_map_getD {A B : Type} (f : A → B) (l : List A) (d : A)
    (h : ∀ j k, j < l.length → k < l.length → j < k →
      f (l.getD j d) ≠ f (l.getD k d)) : (l.map f).Nodup := by
  show List.Pairwise (fun a b => a ≠ b) (l.map f)
  apply List.pairwise_iff_getElem.mpr
  intro j k hj hk hjk
  rw [List.getElem_map, List.getElem_map]
  rw [List.length_map] at hj hk
  have := h j k hj hk hjk
  rw [List.getD_eq_getElem _ _ hj, List.getD_eq_getElem _ _ hk] at this
  exact this

end Reinplace

namespace Reinplace

theorem sim_step_inplace (g : Graph) (hwf : WF g = true) {V : Type}
    (interp : String → Nat → List V → V) (inputs : Nat → V) (i fr : Nat)
    (hi : i < g.nodes.length) (σA σB : St V)
    (hinv : SimInv g inputs i fr σA σB) (f : String) (muts : List Nat)
    (args : List Arg) (outs : List ValueId)
    (hn : g.nodes.getD i default = ⟨.inplaceOp f muts, args, outs⟩) :
    SimInv g inputs (i + 1)
      (emitFresh g (roots0 g) i fr (g.nodes.getD i default))
      (execNode interp σA (g.nodes.getD i default))
      (execNodes interp σB
        (emit g (roots0 g) i fr (g.nodes.getD i default))) := by
  obtain ⟨M, hM⟩ : ∃ x, x = (targetsOf args muts).length := ⟨_, rfl⟩
  have hargsb : ∀ v ∈ args.flatMap Arg.elems, v < defBound g i := by
    have h := (wf_node_parts g hwf i hi).1
    rw [hn] at h
    exact h
  have houts2 : outs = List.range' (defBound g i) M := by
    rw [hM]
    have h := (wf_node_parts g hwf i hi).2
    rw [hn] at h
    exact h
  have hndρ := wf_inplace_nodup g hwf i hi f muts args outs hn
  have hjtlen : ∀ j, j < M → j < (targetsOf args muts).length := by
    intro j hj
    omega
  have htmem : ∀ j, j < M →
      (targetsOf args muts).getD j 0 ∈ targetsOf args muts := by
    intro j hj
    rw [List.getD_eq_getElem _ _ (hjtlen j hj)]
    exact List.getElem_mem (hjtlen j hj)
  have htb : ∀ j, j < M →
      (targetsOf args muts).getD j 0 < defBound g i := by
    intro j hj
    exact hargsb _ (targetsOf_subset_flat args muts _ (htmem j hj))
  have htlive : ∀ j, j < M →
      liveFrom g (roots0 g) i
        (roots0 g ((targetsOf args muts).getD j 0)) = true := by
    intro j hj
    exact node_arg_live g i hi _
      (target_in_flat g i (by rw [hn]) _ (htmem j hj))
  have hρne : ∀ j k, j < M → k < M → j ≠ k →
      roots0 g ((targetsOf args muts).getD j 0)
        ≠ roots0 g ((targetsOf args muts).getD k 0) :=
    fun j k hj hk hjk => map_getD_ne (roots0 g) (targetsOf args muts) 0
      hndρ j k (hjtlen j hj) (hjtlen k hk) hjk
  have hρltc : ∀ j, j < M →
      roots0 g ((targetsOf args muts).getD j 0) < defBound g i :=
    fun j hj => roots0_lt_defBound g hwf i _ (htb j hj)
  have hBroot : ∀ j k, j < M → k < M → j ≠ k →
      σB.root ((targetsOf args muts).getD j 0)
        ≠ σB.root ((targetsOf args muts).getD k 0) := by
    intro j k hj hk hjk hc
    exact hρne j k hj hk hjk
      ((hinv.liveRoot _ _ (htb j hj) (htb k hk)
        (htlive j hj) (htlive k hk)).mp hc)
  have hndB : ((targetsOf args muts).map σB.root).Nodup := by
    apply nodup_map_getD σB.root (targetsOf args muts) 0
    intro j k hj hk hjk
    exact hBroot j k (by omega) (by omega) (by omega)
  have hndA : ((targetsOf args muts).map σA.root).Nodup := by
    have hmapeq : (targetsOf args muts).map σA.root
        = (targetsOf args muts).map (roots0 g) :=
      List.map_congr_left (fun t ht =>
        hinv.arootA t (hargsb t (targetsOf_subset_flat args muts t ht)))
    rw [hmapeq]
    exact hndρ
  have hfinEq : argVals σB args = argVals σA args :=
    argVals_agree σB σA args (fun e he =>
      hinv.benv e (hargsb e he)
        (node_arg_live g i hi e (by rw [hn]; exact he)))
  have hρout : ∀ j, j < M → roots0 g (defBound g i + j)
      = roots0 g ((targetsOf args muts).getD j 0) :=
    fun j hj => rootStep_inplace_out g hwf i hi f muts args outs hn j
      (hjtlen j hj)
  have hdbM : defBound g (i + 1) = defBound g i + M := by
    rw [defBound_succ g i hi, hn, hM]
    rfl
  have hnin := nIn_le_defBound g i
  have hfB : defBound g (i + 1) ≤ freshBound g :=
    defBound_le_freshBound g (i + 1)
  have hcMf : defBound g i + M ≤ freshBound g := by
    rw [← hdbM]
    exact hfB
  obtain ⟨RA1, RA2, EA3, EA4, EA5⟩ := exec_inplaceOp_eval interp σA f muts
    args (defBound g i) M outs hM.symm houts2 hndA
  obtain ⟨RB1, RB2, EB3, EB4, EB5⟩ := exec_inplaceOp_eval interp σB f muts
    args (defBound g i) M outs hM.symm houts2 hndB
  have hws : ∀ j, interp f j (argVals σB args)
      = interp f j (argVals σA args) :=
    fun j => congrArg (interp f j) hfinEq
  rw [hn]
  have hemit : emit g (roots0 g) i fr
      (⟨.inplaceOp f muts, args, outs⟩ : Node)
      = [⟨.inplaceOp f muts, args, outs⟩] := rfl
  have hfr2 : emitFresh g (roots0 g) i fr
      (⟨.inplaceOp f muts, args, outs⟩ : Node) = fr := rfl
  rw [hemit, hfr2]
  have hexecsB : execNodes interp σB
      [(⟨.inplaceOp f muts, args, outs⟩ : Node)]
      = execNode interp σB ⟨.inplaceOp f muts, args, outs⟩ := rfl
  rw [hexecsB]
  refine ⟨hinv.hfr, ?_, ?_, ?_, ?_, ?_, ?_, ?_, ?_, ?_⟩
  · intro v hv
    rw [hdbM] at hv
    rcases range_split hv with hvlo | ⟨j, hj, rfl⟩
    · rw [RA1 v (notin_range_lo hvlo)]
      exact hinv.arootA v hvlo
    · rw [RA2 j hj, hρout j hj]
      exact hinv.arootA _ (htb j hj)
  · intro v hv
    rw [hdbM] at hv
    have hcle : defBound g i ≤ v := le_trans (Nat.le_add_right _ M) hv
    constructor
    · rw [RA1 v (notin_range_hi hv)]
      exact (hinv.ahigh v hcle).1
    · have hAne : ∀ j, j < M →
          σA.root ((targetsOf args muts).getD j 0) ≠ σA.root v := by
        intro j hj
        rw [hinv.arootA _ (htb j hj), (hinv.ahigh v hcle).1]
        exact Nat.ne_of_lt (lt_of_lt_of_le (hρltc j hj)
          (le_trans (Nat.le_add_right _ M) hv))
      rw [EA4 v (notin_range_hi hv) hAne]
      exact (hinv.ahigh v hcle).2
  · intro v hv
    have hv0 : ¬ DefB g i fr v := fun hc =>
      hv (DefB_mono g (Nat.le_succ i) (le_refl fr) hc)
    have hvr : ¬ (defBound g i ≤ v ∧ v < defBound g i + M) := by
      rw [← hdbM]
      exact fun hc => hv (Or.inl hc.2)
    have hne : ∀ j, j < M →
        σB.root ((targetsOf args muts).getD j 0) ≠ σB.root v := by
      intro j hj
      rw [(hinv.bundef v hv0).1]
      intro hc
      exact hv0 (hc ▸ hinv.brootDef _ (Or.inl (htb j hj)))
    constructor
    · rw [RB1 v hvr]
      exact (hinv.bundef v hv0).1
    · rw [EB4 v hvr hne]
      exact (hinv.bundef v hv0).2
  · intro v hv
    rcases DefB_succ_cases g hv with hv0 | ⟨hvlo, hvhi⟩
    · have hvr : ¬ (defBound g i ≤ v ∧ v < defBound g i + M) := by
        rcases hv0 with h1 | h2
        · exact notin_range_lo h1
        · exact notin_range_hi (le_trans hcMf h2.1)
      rw [RB1 v hvr]
      exact DefB_mono g (Nat.le_succ i) (le_refl fr) (hinv.brootDef v hv0)
    · rw [hdbM] at hvhi
      rcases range_split hvhi with h1 | ⟨j, hj, rfl⟩
      · exact absurd h1 (Nat.not_lt.mpr hvlo)
      · rw [RB2 j hj]
        exact DefB_mono g (Nat.le_succ i) (le_refl fr)
          (hinv.brootDef _ (Or.inl (htb j hj)))
  · intro v hv
    have hvr : ¬ (defBound g i ≤ v ∧ v < defBound g i + M) :=
      notin_range_lo (lt_of_lt_of_le hv hnin)
    rw [RB1 v hvr]
    exact hinv.binpRoot v hv
  · intro v hv hvroot
    rcases DefB_succ_cases g hv with hv0 | ⟨hvlo, hvhi⟩
    · have hvr : ¬ (defBound g i ≤ v ∧ v < defBound g i + M) := by
        rcases hv0 with h1 | h2
        · exact notin_range_lo h1
        · exact notin_range_hi (le_trans hcMf h2.1)
      rw [RB1 v hvr] at hvroot ⊢
      exact hinv.binRootFix v hv0 hvroot
    · rw [hdbM] at hvhi
      rcases range_split hvhi with h1 | ⟨j, hj, rfl⟩
      · exact absurd h1 (Nat.not_lt.mpr hvlo)
      · rw [RB2 j hj] at hvroot ⊢
        rw [hρout j hj]
        exact hinv.binRootFix _ (Or.inl (htb j hj)) hvroot
  · intro u v hu hv hlu hlv
    rw [hdbM] at hu hv
    have hlu2 := liveFrom_mono g (roots0 g) i _ hlu
    have hlv2 := liveFrom_mono g (roots0 g) i _ hlv
    rcases range_split hu with hu1 | ⟨j, hj, rfl⟩
    · rcases range_split hv with hv1 | ⟨k, hk, rfl⟩
      · rw [RB1 u (notin_range_lo hu1), RB1 v (notin_range_lo hv1)]
        exact hinv.liveRoot u v hu1 hv1 hlu2 hlv2
      · rw [RB1 u (notin_range_lo hu1), RB2 k hk, hρout k hk]
        exact hinv.liveRoot u _ hu1 (htb k hk) hlu2 (htlive k hk)
    · rcases range_split hv with hv1 | ⟨k, hk, rfl⟩
      · rw [RB2 j hj, RB1 v (notin_range_lo hv1), hρout j hj]
        exact hinv.liveRoot _ v (htb j hj) hv1 (htlive j hj) hlv2
      · rw [RB2 j hj, RB2 k hk, hρout j hj, hρout k hk]
        exact hinv.liveRoot _ _ (htb j hj) (htb k hk)
          (htlive j hj) (htlive k hk)
  · intro v hv hlv
    rw [hdbM] at hv
    rcases range_split hv with hv1 | ⟨j, hj, rfl⟩
    · have hlv2 := liveFrom_mono g (roots0 g) i _ hlv
      by_cases hmatch : ∃ j, j < M ∧
          roots0 g ((targetsOf args muts).getD j 0) = roots0 g v
      · obtain ⟨j, hj, hjv⟩ := hmatch
        have hAj : σA.root ((targetsOf args muts).getD j 0)
            = σA.root v := by
          rw [hinv.arootA _ (htb j hj), hinv.arootA v hv1, hjv]
        have hBj : σB.root ((targetsOf args muts).getD j 0)
            = σB.root v :=
          (hinv.liveRoot _ v (htb j hj) hv1 (htlive j hj) hlv2).mpr hjv
        rw [EA5 v (notin_range_lo hv1) j hj hAj,
          EB5 v (notin_range_lo hv1) j hj hBj]
        exact hws j
      · push_neg at hmatch
        have hAne : ∀ j, j < M →
            σA.root ((targetsOf args muts).getD j 0) ≠ σA.root v := by
          intro j hj hc
          rw [hinv.arootA _ (htb j hj), hinv.arootA v hv1] at hc
          exact hmatch j hj hc
        have hBne : ∀ j, j < M →
            σB.root ((targetsOf args muts).getD j 0) ≠ σB.root v := by
          intro j hj hc
          exact hmatch j hj
            ((hinv.liveRoot _ v (htb j hj) hv1 (htlive j hj) hlv2).mp hc)
        rw [EA4 v (notin_range_lo hv1) hAne,
          EB4 v (notin_range_lo hv1) hBne]
        exact hinv.benv v hv1 hlv2
    · rw [EA3 j hj, EB3 j hj]
      exact hws j
  · intro v hv hm
    have hρv : roots0 g v = v := roots0_input g hwf v hv
    have hvr : ¬ (defBound g i ≤ v ∧ v < defBound g i + M) :=
      notin_range_lo (lt_of_lt_of_le hv hnin)
    have hBne : ∀ j, j < M →
        σB.root ((targetsOf args muts).getD j 0) ≠ σB.root v := by
      intro j hj hc
      rw [hinv.binpRoot v hv] at hc
      have hfix := hinv.binRootFix _ (Or.inl (htb j hj))
        (by rw [hc]; exact hv)
      rw [hc] at hfix
      apply absurd hm
      rw [Bool.not_eq_false]
      rw [userMutates, List.any_eq_true]
      refine ⟨g.nodes.getD i default, nodes_getD_mem g i hi, ?_⟩
      rw [hn]
      show (targetsOf args muts).any
        (fun t => roots0 g t == roots0 g v) = true
      rw [List.any_eq_true]
      refine ⟨(targetsOf args muts).getD j 0, htmem j hj, ?_⟩
      rw [hfix, hρv]
      exact beq_self_eq_true v
    rw [EB4 v hvr hBne]
    exact hinv.benvInput v hv hm

end Reinplace

namespace Reinplace

theorem sim_step_inplaceable_keep (g : Graph) (hwf : WF g = true)
    {V : Type} (interp : String → Nat → List V → V) (inputs : Nat → V)
    (i fr : Nat) (hi : i < g.nodes.length) (σA σB : St V)
    (hinv : SimInv g inputs i fr σA σB) (f : String) (t : ValueId)
    (rest : List Arg) (outs : List ValueId)
    (hn : g.nodes.getD i default
      = ⟨.inplaceable f, Arg.val t :: rest, outs⟩)
    (hcan : can_reinplace g (roots0 g) i (.val t) = false) :
    SimInv g inputs (i + 1)
      (emitFresh g (roots0 g) i fr (g.nodes.getD i default))
      (execNode interp σA (g.nodes.getD i default))
      (execNodes interp σB
        (emit g (roots0 g) i fr (g.nodes.getD i default))) := by
  have hargsb : ∀ v ∈ (Arg.val t :: rest).flatMap Arg.elems,
      v < defBound g i := by
    have h := (wf_node_parts g hwf i hi).1
    rw [hn] at h
    exact h
  have houts2 : outs = List.range' (defBound g i) 1 := by
    have h := (wf_node_parts g hwf i hi).2
    rw [hn] at h
    exact h
  have hhead : outs.headD 0 = defBound g i := by
    rw [houts2]
    rfl
  have hcount : outCount (g.nodes.getD i default) = 1 := by
    rw [hn]
    rfl
  have hρc : roots0 g (defBound g i) = defBound g i := by
    have h0 := roots0_out g hwf i hi 0 (by rw [hn]; exact Nat.zero_lt_one)
    rw [hn, Nat.add_zero] at h0
    rw [h0]
    show upd (rootsUpTo g i) (outs.headD 0) (outs.headD 0) (defBound g i)
      = defBound g i
    rw [hhead]
    exact upd_self _ _ _
  have hfinEq : argVals σB (Arg.val t :: rest)
      = argVals σA (Arg.val t :: rest) :=
    argVals_agree σB σA _ (fun e he =>
      hinv.benv e (hargsb e he)
        (node_arg_live g i hi e (by rw [hn]; exact he)))
  have hexecA : execNode interp σA (g.nodes.getD i default)
      = defineFresh σA (defBound g i)
          (interp f 0 (argVals σA (Arg.val t :: rest))) := by
    rw [hn]
    show defineFresh σA (outs.headD 0)
      (interp f 0 (argVals σA (Arg.val t :: rest))) = _
    rw [hhead]
  have hemit : emit g (roots0 g) i fr (g.nodes.getD i default)
      = [⟨.inplaceable f, Arg.val t :: rest, outs⟩] := by
    rw [hn]
    rw [emit]
    simp only [hcan, Bool.false_eq_true, if_false]
  have hexecB : execNodes interp σB
      (emit g (roots0 g) i fr (g.nodes.getD i default))
      = defineFresh σB (defBound g i)
          (interp f 0 (argVals σB (Arg.val t :: rest))) := by
    rw [hemit]
    show defineFresh σB (outs.headD 0)
      (interp f 0 (argVals σB (Arg.val t :: rest))) = _
    rw [hhead]
  have hfr2 : emitFresh g (roots0 g) i fr (g.nodes.getD i default)
      = fr := by
    rw [hn]
    rfl
  exact sim_step_single g hwf interp inputs i fr hi σA σB hinv
    (interp f 0 (argVals σA (Arg.val t :: rest)))
    (interp f 0 (argVals σB (Arg.val t :: rest)))
    (congrArg (interp f 0) hfinEq) hcount hρc hexecA hexecB hfr2

end Reinplace

namespace Reinplace

theorem sim_step_inplaceable_rw (g : Graph) (hwf : WF g = true)
    {V : Type} (interp : String → Nat → List V → V) (inputs : Nat → V)
    (i fr : Nat) (hi : i < g.nodes.length) (σA σB : St V)
    (hinv : SimInv g inputs i fr σA σB) (f : String) (t : ValueId)
    (rest : List Arg) (outs : List ValueId)
    (hn : g.nodes.getD i default
      = ⟨.inplaceable f, Arg.val t :: rest, outs⟩)
    (hcan : can_reinplace g (roots0 g) i (.val t) = true) :
    SimInv g inputs (i + 1)
      (emitFresh g (roots0 g) i fr (g.nodes.getD i default))
      (execNode interp σA (g.nodes.getD i default))
      (execNodes interp σB
        (emit g (roots0 g) i fr (g.nodes.getD i default))) := by
  have hchk : checkVal g (roots0 g) i t = none := by
    rw [can_reinplace] at hcan
    cases hc : checkArg g (roots0 g) i (.val t) with
    | none => exact hc
    | some r =>
      rw [hc] at hcan
      exact absurd hcan (by simp)
  have hdead : liveFrom g (roots0 g) (i + 1) (roots0 g t) = false :=
    checkVal_none_not_live g i t hchk
  have hnint : g.nIn ≤ roots0 g t := (checkVal_none_iff g _ i t).mp hchk |>.1
  have hargsb : ∀ v ∈ (Arg.val t :: rest).flatMap Arg.elems,
      v < defBound g i := by
    have h := (wf_node_parts g hwf i hi).1
    rw [hn] at h
    exact h
  have htmemflat : t ∈ (Arg.val t :: rest).flatMap Arg.elems := by
    simp [Arg.elems]
  have htb : t < defBound g i := hargsb t htmemflat
  have htlive : liveFrom g (roots0 g) i (roots0 g t) = true :=
    node_arg_live g i hi t (by rw [hn]; exact htmemflat)
  have houts2 : outs = List.range' (defBound g i) 1 := by
    have h := (wf_node_parts g hwf i hi).2
    rw [hn] at h
    exact h
  have hhead : outs.headD 0 = defBound g i := by
    rw [houts2]
    rfl
  have hρc : roots0 g (defBound g i) = defBound g i := by
    have h0 := roots0_out g hwf i hi 0 (by rw [hn]; exact Nat.zero_lt_one)
    rw [hn, Nat.add_zero] at h0
    rw [h0]
    show upd (rootsUpTo g i) (outs.headD 0) (outs.headD 0) (defBound g i)
      = defBound g i
    rw [hhead]
    exact upd_self _ _ _
  have hfinEq : argVals σB (Arg.val t :: rest)
      = argVals σA (Arg.val t :: rest) :=
    argVals_agree σB σA _ (fun e he =>
      hinv.benv e (hargsb e he)
        (node_arg_live g i hi e (by rw [hn]; exact he)))
  have hexecA : execNode interp σA (g.nodes.getD i default)
      = defineFresh σA (defBound g i)
          (interp f 0 (argVals σA (Arg.val t :: rest))) := by
    rw [hn]
    show defineFresh σA (outs.headD 0)
      (interp f 0 (argVals σA (Arg.val t :: rest))) = _
    rw [hhead]
  have hemit : emit g (roots0 g) i fr (g.nodes.getD i default)
      = [⟨.inplaceOp f [0], Arg.val t :: rest, outs⟩] := by
    rw [hn]
    rw [emit]
    simp only [hcan, if_true]
  have hfr2 : emitFresh g (roots0 g) i fr (g.nodes.getD i default)
      = fr := by
    rw [hn]
    rfl
  have hndB : ((targetsOf (Arg.val t :: rest) [0]).map σB.root).Nodup := by
    show ([σB.root t] : List Nat).Nodup
    exact List.nodup_singleton _
  obtain ⟨RB1, RB2, EB3, EB4, EB5⟩ := exec_inplaceOp_eval interp σB f [0]
    (Arg.val t :: rest) (defBound g i) 1 outs rfl houts2 hndB
  have RB2c : (execNode interp σB
      ⟨.inplaceOp f [0], Arg.val t :: rest, outs⟩).root (defBound g i)
      = σB.root t := by
    have h := RB2 0 Nat.zero_lt_one
    rw [Nat.add_zero] at h
    exact h
  have EB3c : (execNode interp σB
      ⟨.inplaceOp f [0], Arg.val t :: rest, outs⟩).env (defBound g i)
      = interp f 0 (argVals σB (Arg.val t :: rest)) := by
    have h := EB3 0 Nat.zero_lt_one
    rw [Nat.add_zero] at h
    exact h
  have EB4c : ∀ v, ¬ (defBound g i ≤ v ∧ v < defBound g i + 1) →
      σB.root t ≠ σB.root v →
      (execNode interp σB
        ⟨.inplaceOp f [0], Arg.val t :: rest, outs⟩).env v
      = σB.env v := by
    intro v hv hne
    refine EB4 v hv ?_
    intro j hj
    have hj0 : j = 0 := by omega
    subst hj0
    exact hne
  have hrootBne : ∀ v, liveFrom g (roots0 g) (i + 1) (roots0 g v) = true →
      v < defBound g i → σB.root t ≠ σB.root v := by
    intro v hlv hvlt hc
    have := (hinv.liveRoot t v htb hvlt htlive
      (liveFrom_mono g (roots0 g) i _ hlv)).mp hc
    rw [← this] at hlv
    rw [hlv] at hdead
    exact absurd hdead (by simp)
  have hws : interp f 0 (argVals σB (Arg.val t :: rest))
      = interp f 0 (argVals σA (Arg.val t :: rest)) :=
    congrArg (interp f 0) hfinEq
  have hdb1 : defBound g (i + 1) = defBound g i + 1 := by
    rw [defBound_succ g i hi, hn]
    rfl
  have hnin := nIn_le_defBound g i
  have hclt : defBound g i < freshBound g := by
    have h1 : defBound g (i + 1) ≤ freshBound g :=
      defBound_le_freshBound g (i + 1)
    omega
  rw [hexecA, hemit, hfr2]
  have hexecsB : execNodes interp σB
      [(⟨.inplaceOp f [0], Arg.val t :: rest, outs⟩ : Node)]
      = execNode interp σB ⟨.inplaceOp f [0], Arg.val t :: rest, outs⟩ :=
    rfl
  rw [hexecsB]
  refine ⟨hinv.hfr, ?_, ?_, ?_, ?_, ?_, ?_, ?_, ?_, ?_⟩
  · intro v hv
    by_cases hvc : v = defBound g i
    · subst hvc
      show upd σA.root (defBound g i) (defBound g i) (defBound g i)
        = roots0 g (defBound g i)
      rw [upd_self, hρc]
    · show upd σA.root (defBound g i) (defBound g i) v = roots0 g v
      rw [upd_ne _ _ _ _ hvc]
      rw [hdb1] at hv
      exact hinv.arootA v (by omega)
  · intro v hv
    rw [hdb1] at hv
    have hvc : v ≠ defBound g i := by omega
    constructor
    · show upd σA.root (defBound g i) (defBound g i) v = v
      rw [upd_ne _ _ _ _ hvc]
      exact (hinv.ahigh v (by omega)).1
    · show upd σA.env (defBound g i)
        (interp f 0 (argVals σA (Arg.val t :: rest))) v = inputs v
      rw [upd_ne _ _ _ _ hvc]
      exact (hinv.ahigh v (by omega)).2
  · intro v hv
    have hv0 : ¬ DefB g i fr v := fun hc =>
      hv (DefB_mono g (Nat.le_succ i) (le_refl fr) hc)
    have hvr : ¬ (defBound g i ≤ v ∧ v < defBound g i + 1) := by
      intro hc
      exact hv (Or.inl (by rw [hdb1]; omega))
    constructor
    · rw [RB1 v hvr]
      exact (hinv.bundef v hv0).1
    · rw [EB4c v hvr ?_]
      · exact (hinv.bundef v hv0).2
      · rw [(hinv.bundef v hv0).1]
        intro hc
        exact hv0 (hc ▸ hinv.brootDef t (Or.inl htb))
  · intro v hv
    rcases DefB_succ_cases g hv with hv0 | ⟨hvlo, hvhi⟩
    · have hvr : ¬ (defBound g i ≤ v ∧ v < defBound g i + 1) := by
        rcases hv0 with h1 | h2
        · exact notin_range_lo h1
        · exact notin_range_hi (by omega)
      rw [RB1 v hvr]
      exact DefB_mono g (Nat.le_succ i) (le_refl fr) (hinv.brootDef v hv0)
    · rw [hdb1] at hvhi
      have hvc : v = defBound g i := by omega
      subst hvc
      rw [RB2c]
      exact DefB_mono g (Nat.le_succ i) (le_refl fr)
        (hinv.brootDef t (Or.inl htb))
  · intro v hv
    have hvr : ¬ (defBound g i ≤ v ∧ v < defBound g i + 1) :=
      notin_range_lo (lt_of_lt_of_le hv hnin)
    rw [RB1 v hvr]
    exact hinv.binpRoot v hv
  · intro v hv hvroot
    rcases DefB_succ_cases g hv with hv0 | ⟨hvlo, hvhi⟩
    · have hvr : ¬ (defBound g i ≤ v ∧ v < defBound g i + 1) := by
        rcases hv0 with h1 | h2
        · exact notin_range_lo h1
        · exact notin_range_hi (by omega)
      rw [RB1 v hvr] at hvroot ⊢
      exact hinv.binRootFix v hv0 hvroot
    · rw [hdb1] at hvhi
      have hvc : v = defBound g i := by omega
      subst hvc
      rw [RB2c] at hvroot
      have hfix := hinv.binRootFix t (Or.inl htb) hvroot
      rw [← hfix] at hvroot
      omega
  · intro u v hu hv hlu hlv
    rw [hdb1] at hu hv
    by_cases huc : u = defBound g i
    · by_cases hvc : v = defBound g i
      · subst huc
        subst hvc
        exact iff_of_true rfl rfl
      · subst huc
        have hvlt : v < defBound g i := by omega
        apply iff_of_false
        · rw [RB2c, RB1 v (notin_range_lo hvlt)]
          exact hrootBne v hlv hvlt
        · rw [hρc]
          have := roots0_lt_defBound g hwf i v hvlt
          omega
    · by_cases hvc : v = defBound g i
      · subst hvc
        have hult : u < defBound g i := by omega
        apply iff_of_false
        · rw [RB2c, RB1 u (notin_range_lo hult)]
          exact fun hc => hrootBne u hlu hult hc.symm
        · rw [hρc]
          have := roots0_lt_defBound g hwf i u hult
          omega
      · have hult : u < defBound g i := by omega
        have hvlt : v < defBound g i := by omega
        rw [RB1 u (notin_range_lo hult), RB1 v (notin_range_lo hvlt)]
        exact hinv.liveRoot u v hult hvlt
          (liveFrom_mono g (roots0 g) i _ hlu)
          (liveFrom_mono g (roots0 g) i _ hlv)
  · intro v hv hlv
    rw [hdb1] at hv
    by_cases hvc : v = defBound g i
    · subst hvc
      rw [EB3c, hws]
      show _ = upd σA.env (defBound g i)
        (interp f 0 (argVals σA (Arg.val t :: rest))) (defBound g i)
      rw [upd_self]
    · have hvlt : v < defBound g i := by omega
      rw [EB4c v (notin_range_lo hvlt) (hrootBne v hlv hvlt)]
      show σB.env v = upd σA.env (defBound g i)
        (interp f 0 (argVals σA (Arg.val t :: rest))) v
      rw [upd_ne _ _ _ _ hvc]
      exact hinv.benv v hvlt (liveFrom_mono g (roots0 g) i _ hlv)
  · intro v hv hm
    have hvlt : v < defBound g i := lt_of_lt_of_le hv hnin
    have hne : σB.root t ≠ σB.root v := by
      rw [hinv.binpRoot v hv]
      intro hc
      have hfix := hinv.binRootFix t (Or.inl htb) (by rw [hc]; exact hv)
      rw [hc] at hfix
      omega
    rw [EB4c v (notin_range_lo hvlt) hne]
    exact hinv.benvInput v hv hm

end Reinplace

namespace Reinplace

theorem pairwise_getD {A : Type} {Q : A → A → Prop} (l : List A) (d : A)
    (h : List.Pairwise Q l) (j k : Nat) (hj : j < l.length)
    (hk : k < l.length) (hjk : j < k) : Q (l.getD j d) (l.getD k d) := by
  rw [List.getD_eq_getElem _ _ hj, List.getD_eq_getElem _ _ hk]
  exact List.pairwise_iff_getElem.mp h j k hj hk hjk

theorem wf_auto_parts (g : Graph) (hwf : WF g = true) (i : Nat)
    (hi : i < g.nodes.length) (f : String) (muts : List Nat)
    (args : List Arg) (outs : List ValueId)
    (hn : g.nodes.getD i default = ⟨.autoFunc f muts, args, outs⟩) :
    muts.Nodup ∧
    ((keptTargets g (roots0 g) i args muts).map (roots0 g)).Nodup := by
  have hwn := wf_node g hwf i hi
  rw [hn] at hwn
  rw [nodeWF] at hwn
  simp only [Bool.and_eq_true] at hwn
  exact ⟨of_decide_eq_true hwn.2.1.2, of_decide_eq_true hwn.2.2⟩

end Reinplace

namespace Reinplace

theorem sim_step_autoFunc (g : Graph) (hwf : WF g = true) {V : Type}
    (interp : String → Nat → List V → V) (inputs : Nat → V) (i fr : Nat)
    (hi : i < g.nodes.length) (σA σB : St V)
    (hinv : SimInv g inputs i fr σA σB) (f : String) (muts : List Nat)
    (args : List Arg) (outs : List ValueId)
    (hn : g.nodes.getD i default = ⟨.autoFunc f muts, args, outs⟩) :
    SimInv g inputs (i + 1)
      (emitFresh g (roots0 g) i fr (g.nodes.getD i default))
      (execNode interp σA (g.nodes.getD i default))
      (execNodes interp σB
        (emit g (roots0 g) i fr (g.nodes.getD i default))) := by
  obtain ⟨hmutnd, hkeptnd⟩ := wf_auto_parts g hwf i hi f muts args outs hn
  obtain ⟨M, hM⟩ : ∃ x, x = (targetsOf args muts).length := ⟨_, rfl⟩
  have hargsb : ∀ v ∈ args.flatMap Arg.elems, v < defBound g i := by
    have h := (wf_node_parts g hwf i hi).1
    rw [hn] at h
    exact h
  have houts2 : outs = List.range' (defBound g i) M := by
    rw [hM]
    have h := (wf_node_parts g hwf i hi).2
    rw [hn] at h
    exact h
  have hfrD : defBound g i ≤ fr :=
    le_trans (defBound_le_freshBound g i) hinv.hfr
  have hbound : ∀ e ∈ args.flatMap Arg.elems, e < fr :=
    fun e he => lt_of_lt_of_le (hargsb e he) hfrD
  have hjtlen : ∀ j, j < M → j < (targetsOf args muts).length := by
    intro j hj
    rw [← hM]
    exact hj
  have htmem : ∀ j, j < M →
      (targetsOf args muts).getD j 0 ∈ targetsOf args muts := by
    intro j hj
    rw [List.getD_eq_getElem _ _ (hjtlen j hj)]
    exact List.getElem_mem (hjtlen j hj)
  have htb : ∀ j, j < M →
      (targetsOf args muts).getD j 0 < defBound g i := by
    intro j hj
    exact hargsb _ (targetsOf_subset_flat args muts _ (htmem j hj))
  have htlive : ∀ j, j < M →
      liveFrom g (roots0 g) i
        (roots0 g ((targetsOf args muts).getD j 0)) = true := by
    intro j hj
    exact node_arg_live g i hi _
      (target_in_flat g i (by rw [hn]) _ (htmem j hj))
  obtain ⟨pr, hpr⟩
    : ∃ x, x = processMuts g (roots0 g) i muts
        (⟨[], [], fr⟩ : PassState) args := ⟨_, rfl⟩
  obtain ⟨P1, P2, P3, P4, PF, PP, P7⟩ :=
    processMuts_run g (roots0 g) i interp muts args fr σB pr.1 pr.2
      (execNodes interp σB pr.1.revNodes) hmutnd hbound (by rw [← hpr])
      rfl
  have hfr' : freshBound g ≤ pr.1.fresh := le_trans hinv.hfr P1
  have hlen' : (targetsOf pr.2 muts).length = M := by
    have h1 := forall2_length PF
    rw [ktag_length] at h1
    rw [← h1, ← hM]
  have hDefBlt : ∀ x, DefB g i fr x → x < fr := by
    intro x hx
    rcases hx with h1 | h2
    · exact lt_of_lt_of_le h1 hfrD
    · exact h2.2
  have hB1low : ∀ v, v < fr →
      (execNodes interp σB pr.1.revNodes).env v = σB.env v ∧
      (execNodes interp σB pr.1.revNodes).root v = σB.root v :=
    fun v hv => P3 v (fun hcont =>
      Nat.lt_irrefl v (lt_of_lt_of_le hv hcont.1))
  have hB1high : ∀ v, pr.1.fresh ≤ v →
      (execNodes interp σB pr.1.revNodes).env v = σB.env v ∧
      (execNodes interp σB pr.1.revNodes).root v = σB.root v :=
    fun v hv => P3 v (fun hcont =>
      Nat.lt_irrefl v (lt_of_lt_of_le hcont.2 hv))
  have hfull : ∀ m, m < M →
      (((ktag g (roots0 g) i args muts).getD m (0, false)).2 = true
        ∧ (targetsOf pr.2 muts).getD m 0 = (targetsOf args muts).getD m 0
        ∧ checkVal g (roots0 g) i ((targetsOf args muts).getD m 0) = none
        ∧ (execNodes interp σB pr.1.revNodes).root
            ((targetsOf pr.2 muts).getD m 0)
          = σB.root ((targetsOf args muts).getD m 0))
      ∨ (fr ≤ (targetsOf pr.2 muts).getD m 0
        ∧ (targetsOf pr.2 muts).getD m 0 < pr.1.fresh
        ∧ (execNodes interp σB pr.1.revNodes).root
            ((targetsOf pr.2 muts).getD m 0)
          = (targetsOf pr.2 muts).getD m 0) := by
    intro m hm
    have hmk : m < (ktag g (roots0 g) i args muts).length := by
      rw [ktag_length, ← hM]
      exact hm
    have hR := forall2_getD (0, false) 0 PF m hmk
    rcases hR with ⟨htag, hteq, hchk⟩ | ⟨-, hge, hlt, hroot⟩
    · left
      rw [ktag_getD_fst g (roots0 g) i args muts m (hjtlen m hm)]
        at hteq hchk
      refine ⟨htag, hteq, hchk, ?_⟩
      rw [hteq]
      exact (hB1low _ (lt_of_lt_of_le (htb m hm) hfrD)).2
    · right
      exact ⟨hge, hlt, hroot⟩
  have hkQ : ∀ m m2, m < M → m2 < M → m ≠ m2 →
      ((ktag g (roots0 g) i args muts).getD m (0, false)).2 = true →
      ((ktag g (roots0 g) i args muts).getD m2 (0, false)).2 = true →
      roots0 g ((targetsOf args muts).getD m 0)
        ≠ roots0 g ((targetsOf args muts).getD m2 0) := by
    have hpw := tag_pairwise (roots0 g) (ktag g (roots0 g) i args muts)
      (by rw [ktag_kept]; exact hkeptnd)
    intro m m2 hm hm2 hne htag htag2
    have hmk : m < (ktag g (roots0 g) i args muts).length := by
      rw [ktag_length, ← hM]
      exact hm
    have hm2k : m2 < (ktag g (roots0 g) i args muts).length := by
      rw [ktag_length, ← hM]
      exact hm2
    rcases Nat.lt_or_ge m m2 with hlt | hge
    · have hq := pairwise_getD _ (0, false) hpw m m2 hmk hm2k hlt
      have h2 := hq htag htag2
      rw [ktag_getD_fst g (roots0 g) i args muts m (hjtlen m hm),
        ktag_getD_fst g (roots0 g) i args muts m2 (hjtlen m2 hm2)] at h2
      exact h2
    · have hlt2 : m2 < m := by omega
      have hq := pairwise_getD _ (0, false) hpw m2 m hm2k hmk hlt2
      have h2 := hq htag2 htag
      rw [ktag_getD_fst g (roots0 g) i args muts m (hjtlen m hm),
        ktag_getD_fst g (roots0 g) i args muts m2 (hjtlen m2 hm2)] at h2
      exact fun hc => h2 hc.symm
  have hPPne : ∀ m m2, m < M → m2 < M → m ≠ m2 →
      fr ≤ (targetsOf pr.2 muts).getD m 0 →
      fr ≤ (targetsOf pr.2 muts).getD m2 0 →
      (targetsOf pr.2 muts).getD m 0
        ≠ (targetsOf pr.2 muts).getD m2 0 := by
    intro m m2 hm hm2 hne h1 h2
    have hmt : m < (targetsOf pr.2 muts).length := by
      rw [hlen']
      exact hm
    have hm2t : m2 < (targetsOf pr.2 muts).length := by
      rw [hlen']
      exact hm2
    rcases Nat.lt_or_ge m m2 with hlt | hge
    · exact Nat.ne_of_lt (pairwise_getD _ 0 PP m m2 hmt hm2t hlt h1 h2)
    · have hlt2 : m2 < m := by omega
      exact (Nat.ne_of_lt
        (pairwise_getD _ 0 PP m2 m hm2t hmt hlt2 h2 h1)).symm
  have hB1ne : ∀ m, m < M → ∀ v, v < defBound g i →
      liveFrom g (roots0 g) (i + 1) (roots0 g v) = true →
      (execNodes interp σB pr.1.revNodes).root
        ((targetsOf pr.2 muts).getD m 0)
      ≠ (execNodes interp σB pr.1.revNodes).root v := by
    intro m hm v hvlt hlv
    have hB1v : (execNodes interp σB pr.1.revNodes).root v = σB.root v :=
      (hB1low v (lt_of_lt_of_le hvlt hfrD)).2
    rw [hB1v]
    rcases hfull m hm with ⟨-, -, hchk, hroot⟩ | ⟨hge, -, hroot⟩
    · rw [hroot]
      intro hc
      have hρeq := (hinv.liveRoot _ v (htb m hm) hvlt (htlive m hm)
        (liveFrom_mono g (roots0 g) i _ hlv)).mp hc
      have hdead := checkVal_none_not_live g i _ hchk
      rw [hρeq] at hdead
      rw [hlv] at hdead
      exact absurd hdead (by simp)
    · rw [hroot]
      intro hc
      have := hDefBlt _ (hinv.brootDef v (Or.inl hvlt))
      rw [← hc] at this
      exact Nat.lt_irrefl fr (lt_of_le_of_lt hge this)
  have hndB1 : ((targetsOf pr.2 muts).map
      (execNodes interp σB pr.1.revNodes).root).Nodup := by
    apply nodup_map_getD _ _ 0
    intro m m2 hmt hm2t hlt
    rw [hlen'] at hmt hm2t
    have hne : m ≠ m2 := Nat.ne_of_lt hlt
    intro hc
    rcases hfull m hmt with ⟨htagm, -, hchkm, hrootm⟩
        | ⟨hgem, hltm, hrootm⟩
    · rcases hfull m2 hm2t with ⟨htagm2, -, hchkm2, hrootm2⟩
          | ⟨hgem2, -, hrootm2⟩
      · rw [hrootm, hrootm2] at hc
        have hρeq := (hinv.liveRoot _ _ (htb m hmt) (htb m2 hm2t)
          (htlive m hmt) (htlive m2 hm2t)).mp hc
        exact hkQ m m2 hmt hm2t hne htagm htagm2 hρeq
      · rw [hrootm, hrootm2] at hc
        have hD := hDefBlt _ (hinv.brootDef _ (Or.inl (htb m hmt)))
        rw [hc] at hD
        exact Nat.lt_irrefl fr (lt_of_le_of_lt hgem2 hD)
    · rcases hfull m2 hm2t with ⟨htagm2, -, hchkm2, hrootm2⟩
          | ⟨hgem2, -, hrootm2⟩
      · rw [hrootm, hrootm2] at hc
        have hD := hDefBlt _ (hinv.brootDef _ (Or.inl (htb m2 hm2t)))
        rw [← hc] at hD
        exact Nat.lt_irrefl fr (lt_of_le_of_lt hgem hD)
      · rw [hrootm, hrootm2] at hc
        exact hPPne m m2 hmt hm2t hne hgem hgem2 hc
  have hfinEq : argVals σB args = argVals σA args :=
    argVals_agree σB σA args (fun e he =>
      hinv.benv e (hargsb e he)
        (node_arg_live g i hi e (by rw [hn]; exact he)))
  obtain ⟨A1, A2⟩ := exec_autoFunc_eval interp σA f muts args
    (defBound g i) M outs hM.symm houts2
  obtain ⟨RB1, RB2, EB3, EB4, -⟩ := exec_inplaceOp_eval interp
    (execNodes interp σB pr.1.revNodes) f muts pr.2 (defBound g i) M outs
    hlen' houts2 hndB1
  have hws : ∀ j, interp f j
      (argVals (execNodes interp σB pr.1.revNodes) pr.2)
      = interp f j (argVals σA args) :=
    fun j => congrArg (interp f j) (P4.trans hfinEq)
  have hρout : ∀ j, j < M →
      roots0 g (defBound g i + j) = defBound g i + j := by
    intro j hj
    have h0 := roots0_out g hwf i hi j (by
      rw [hn]
      show j < (targetsOf args muts).length
      exact hjtlen j hj)
    rw [hn] at h0
    rw [h0]
    show (outs.foldl (fun ρ2 o => upd ρ2 o o) (rootsUpTo g i))
        (defBound g i + j) = defBound g i + j
    rw [foldl_upd_self_eval]
    have hmem : defBound g i + j ∈ outs := by
      rw [houts2, mem_range1]
      exact ⟨Nat.le_add_right _ _, Nat.add_lt_add_left hj _⟩
    simp [hmem]
  have hdbM : defBound g (i + 1) = defBound g i + M := by
    rw [defBound_succ g i hi, hn, hM]
    rfl
  have hnin := nIn_le_defBound g i
  have hcMfresh : defBound g i + M ≤ freshBound g := by
    rw [← hdbM]
    exact defBound_le_freshBound g (i + 1)
  rw [hn]
  have hemit : emit g (roots0 g) i fr
      (⟨.autoFunc f muts, args, outs⟩ : Node)
      = pr.1.revNodes ++ [⟨.inplaceOp f muts, pr.2, outs⟩] := by
    show (processMuts g (roots0 g) i muts ⟨[], [], fr⟩ args).1.revNodes
        ++ [⟨.inplaceOp f muts,
            (processMuts g (roots0 g) i muts ⟨[], [], fr⟩ args).2, outs⟩]
      = _
    rw [← hpr]
  have hfr2 : emitFresh g (roots0 g) i fr
      (⟨.autoFunc f muts, args, outs⟩ : Node) = pr.1.fresh := by
    show (processMuts g (roots0 g) i muts ⟨[], [], fr⟩ args).1.fresh = _
    rw [← hpr]
  rw [hemit, hfr2]
  have hexecB2 : execNodes interp σB
      (pr.1.revNodes ++ [⟨.inplaceOp f muts, pr.2, outs⟩])
      = execNode interp (execNodes interp σB pr.1.revNodes)
          ⟨.inplaceOp f muts, pr.2, outs⟩ := by
    rw [execNodes_append]
    rfl
  rw [hexecB2]
  refine ⟨hfr', ?_, ?_, ?_, ?_, ?_, ?_, ?_, ?_, ?_⟩
  · intro v hv
    rw [hdbM] at hv
    rcases range_split hv with hvlo | ⟨j, hj, rfl⟩
    · rw [(A1 v (notin_range_lo hvlo)).2]
      exact hinv.arootA v hvlo
    · rw [(A2 j hj).2, hρout j hj]
  · intro v hv
    rw [hdbM] at hv
    have hcle : defBound g i ≤ v := le_trans (Nat.le_add_right _ M) hv
    constructor
    · rw [(A1 v (notin_range_hi hv)).2]
      exact (hinv.ahigh v hcle).1
    · rw [(A1 v (notin_range_hi hv)).1]
      exact (hinv.ahigh v hcle).2
  · intro v hv
    rcases (not_DefB g (i + 1) pr.1.fresh v hfr').mp hv with
      ⟨hva, hvb⟩ | hvc
    · rw [hdbM] at hva
      have hvfr : v < fr := lt_of_lt_of_le hvb hinv.hfr
      have hv0 : ¬ DefB g i fr v :=
        (not_DefB g i fr v hinv.hfr).mpr
          (Or.inl ⟨le_trans (Nat.le_add_right _ M) hva, hvb⟩)
      have hvr : ¬ (defBound g i ≤ v ∧ v < defBound g i + M) :=
        notin_range_hi hva
      have hne : ∀ j, j < M →
          (execNodes interp σB pr.1.revNodes).root
            ((targetsOf pr.2 muts).getD j 0)
          ≠ (execNodes interp σB pr.1.revNodes).root v := by
        intro j hj
        rw [(hB1low v hvfr).2, (hinv.bundef v hv0).1]
        rcases hfull j hj with ⟨-, -, -, hroot⟩ | ⟨hge, -, hroot⟩
        · rw [hroot]
          intro hc
          exact hv0 (hc ▸ hinv.brootDef _ (Or.inl (htb j hj)))
        · rw [hroot]
          intro hc
          rw [hc] at hge
          exact Nat.lt_irrefl v (lt_of_lt_of_le hvfr hge)
      constructor
      · rw [RB1 v hvr, (hB1low v hvfr).2]
        exact (hinv.bundef v hv0).1
      · rw [EB4 v hvr hne, (hB1low v hvfr).1]
        exact (hinv.bundef v hv0).2
    · have hvfr : fr ≤ v := le_trans P1 hvc
      have hv0 : ¬ DefB g i fr v :=
        (not_DefB g i fr v hinv.hfr).mpr (Or.inr hvfr)
      have hvr : ¬ (defBound g i ≤ v ∧ v < defBound g i + M) :=
        notin_range_hi
          (le_trans hcMfresh (le_trans hinv.hfr hvfr))
      have hne : ∀ j, j < M →
          (execNodes interp σB pr.1.revNodes).root
            ((targetsOf pr.2 muts).getD j 0)
          ≠ (execNodes interp σB pr.1.revNodes).root v := by
        intro j hj
        rw [(hB1high v hvc).2, (hinv.bundef v hv0).1]
        rcases hfull j hj with ⟨-, -, -, hroot⟩ | ⟨hge, hlt, hroot⟩
        · rw [hroot]
          intro hc
          exact hv0 (hc ▸ hinv.brootDef _ (Or.inl (htb j hj)))
        · rw [hroot]
          intro hc
          rw [hc] at hlt
          exact Nat.lt_irrefl v (lt_of_lt_of_le hlt hvc)
      constructor
      · rw [RB1 v hvr, (hB1high v hvc).2]
        exact (hinv.bundef v hv0).1
      · rw [EB4 v hvr hne, (hB1high v hvc).1]
        exact (hinv.bundef v hv0).2
  · intro v hv
    rcases hv with h1 | h2
    · rw [hdbM] at h1
      rcases range_split h1 with hlo | ⟨j, hj, rfl⟩
      · have hvfr : v < fr := lt_of_lt_of_le hlo hfrD
        rw [RB1 v (notin_range_lo hlo), (hB1low v hvfr).2]
        exact DefB_mono g (Nat.le_succ i) P1
          (hinv.brootDef v (Or.inl hlo))
      · rw [RB2 j hj]
        rcases hfull j hj with ⟨-, -, -, hroot⟩ | ⟨hge, hlt, hroot⟩
        · rw [hroot]
          exact DefB_mono g (Nat.le_succ i) P1
            (hinv.brootDef _ (Or.inl (htb j hj)))
        · rw [hroot]
          exact Or.inr ⟨le_trans hinv.hfr hge, hlt⟩
    · by_cases hvfr : v < fr
      · have hv0 : DefB g i fr v := Or.inr ⟨h2.1, hvfr⟩
        have hvr : ¬ (defBound g i ≤ v ∧ v < defBound g i + M) :=
          notin_range_hi (le_trans hcMfresh h2.1)
        rw [RB1 v hvr, (hB1low v hvfr).2]
        exact DefB_mono g (Nat.le_succ i) P1 (hinv.brootDef v hv0)
      · have hvge : fr ≤ v := Nat.le_of_not_lt hvfr
        have hvr : ¬ (defBound g i ≤ v ∧ v < defBound g i + M) :=
          notin_range_hi (le_trans hcMfresh h2.1)
        rw [RB1 v hvr, P7 v hvge h2.2]
        exact Or.inr h2
  · intro v hv
    have hvfr : v < fr := lt_of_lt_of_le hv (le_trans hnin hfrD)
    have hvr : ¬ (defBound g i ≤ v ∧ v < defBound g i + M) :=
      notin_range_lo (lt_of_lt_of_le hv hnin)
    rw [RB1 v hvr, (hB1low v hvfr).2]
    exact hinv.binpRoot v hv
  · intro v hv hvroot
    rcases hv with h1 | h2
    · rw [hdbM] at h1
      rcases range_split h1 with hlo | ⟨j, hj, rfl⟩
      · have hvfr : v < fr := lt_of_lt_of_le hlo hfrD
        rw [RB1 v (notin_range_lo hlo), (hB1low v hvfr).2] at hvroot ⊢
        exact hinv.binRootFix v (Or.inl hlo) hvroot
      · rw [RB2 j hj] at hvroot ⊢
        rcases hfull j hj with ⟨-, -, hchk, hroot⟩ | ⟨hge, hlt, hroot⟩
        · rw [hroot] at hvroot ⊢
          have hninρ := ((checkVal_none_iff g (roots0 g) i _).mp hchk).1
          have hfix := hinv.binRootFix _ (Or.inl (htb j hj)) hvroot
          rw [← hfix] at hvroot
          exact absurd hvroot (Nat.not_lt.mpr hninρ)
        · rw [hroot] at hvroot
          have : g.nIn ≤ (targetsOf pr.2 muts).getD j 0 :=
            le_trans (le_trans hnin hfrD) hge
          exact absurd hvroot (Nat.not_lt.mpr this)
    · by_cases hvfr : v < fr
      · have hv0 : DefB g i fr v := Or.inr ⟨h2.1, hvfr⟩
        have hvr : ¬ (defBound g i ≤ v ∧ v < defBound g i + M) :=
          notin_range_hi (le_trans hcMfresh h2.1)
        rw [RB1 v hvr, (hB1low v hvfr).2] at hvroot ⊢
        exact hinv.binRootFix v hv0 hvroot
      · have hvge : fr ≤ v := Nat.le_of_not_lt hvfr
        have hvr : ¬ (defBound g i ≤ v ∧ v < defBound g i + M) :=
          notin_range_hi (le_trans hcMfresh h2.1)
        rw [RB1 v hvr, P7 v hvge h2.2] at hvroot
        have : g.nIn ≤ v := le_trans (le_trans hnin hfrD) hvge
        exact absurd hvroot (Nat.not_lt.mpr this)
  · intro u v hu hv hlu hlv
    rw [hdbM] at hu hv
    rcases range_split hu with hu1 | ⟨j, hj, rfl⟩
    · rcases range_split hv with hv1 | ⟨k, hk, rfl⟩
      · rw [RB1 u (notin_range_lo hu1), RB1 v (notin_range_lo hv1),
          (hB1low u (lt_of_lt_of_le hu1 hfrD)).2,
          (hB1low v (lt_of_lt_of_le hv1 hfrD)).2]
        exact hinv.liveRoot u v hu1 hv1
          (liveFrom_mono g (roots0 g) i _ hlu)
          (liveFrom_mono g (roots0 g) i _ hlv)
      · apply iff_of_false
        · rw [RB1 u (notin_range_lo hu1), RB2 k hk]
          exact fun hc => hB1ne k hk u hu1 hlu hc.symm
        · rw [hρout k hk]
          have := roots0_lt_defBound g hwf i u hu1
          intro hc
          rw [hc] at this
          exact Nat.lt_irrefl _
            (lt_of_lt_of_le this (Nat.le_add_right _ k))
    · rcases range_split hv with hv1 | ⟨k, hk, rfl⟩
      · apply iff_of_false
        · rw [RB1 v (notin_range_lo hv1), RB2 j hj]
          exact hB1ne j hj v hv1 hlv
        · rw [hρout j hj]
          have := roots0_lt_defBound g hwf i v hv1
          intro hc
          rw [← hc] at this
          exact Nat.lt_irrefl _
            (lt_of_lt_of_le this (Nat.le_add_right _ j))
      · by_cases hjk : j = k
        · subst hjk
          exact iff_of_true rfl rfl
        · apply iff_of_false
          · rw [RB2 j hj, RB2 k hk]
            rcases hfull j hj with ⟨htagj, -, hchkj, hrootj⟩
                | ⟨hgej, hltj, hrootj⟩
            · rcases hfull k hk with ⟨htagk, -, hchkk, hrootk⟩
                  | ⟨hgek, -, hrootk⟩
              · rw [hrootj, hrootk]
                intro hc
                have hρeq := (hinv.liveRoot _ _ (htb j hj) (htb k hk)
                  (htlive j hj) (htlive k hk)).mp hc
                exact hkQ j k hj hk hjk htagj htagk hρeq
              · rw [hrootj, hrootk]
                intro hc
                have hD := hDefBlt _
                  (hinv.brootDef _ (Or.inl (htb j hj)))
                rw [hc] at hD
                exact Nat.lt_irrefl fr (lt_of_le_of_lt hgek hD)
            · rcases hfull k hk with ⟨htagk, -, hchkk, hrootk⟩
                  | ⟨hgek, -, hrootk⟩
              · rw [hrootj, hrootk]
                intro hc
                have hD := hDefBlt _
                  (hinv.brootDef _ (Or.inl (htb k hk)))
                rw [← hc] at hD
                exact Nat.lt_irrefl fr (lt_of_le_of_lt hgej hD)
              · rw [hrootj, hrootk]
                exact hPPne j k hj hk hjk hgej hgek
          · rw [hρout j hj, hρout k hk]
            intro hc
            exact hjk (Nat.add_left_cancel hc)
  · intro v hv hlv
    rw [hdbM] at hv
    rcases range_split hv with hv1 | ⟨j, hj, rfl⟩
    · have hlv2 := liveFrom_mono g (roots0 g) i _ hlv
      have hne : ∀ j, j < M →
          (execNodes interp σB pr.1.revNodes).root
            ((targetsOf pr.2 muts).getD j 0)
          ≠ (execNodes interp σB pr.1.revNodes).root v :=
        fun j hj => hB1ne j hj v hv1 hlv
      rw [EB4 v (notin_range_lo hv1) hne,
        (hB1low v (lt_of_lt_of_le hv1 hfrD)).1,
        (A1 v (notin_range_lo hv1)).1]
      exact hinv.benv v hv1 hlv2
    · rw [EB3 j hj, hws j, (A2 j hj).1]
  · intro v hv hm
    have hvfr : v < fr := lt_of_lt_of_le hv (le_trans hnin hfrD)
    have hvr : ¬ (defBound g i ≤ v ∧ v < defBound g i + M) :=
      notin_range_lo (lt_of_lt_of_le hv hnin)
    have hne : ∀ j, j < M →
        (execNodes interp σB pr.1.revNodes).root
          ((targetsOf pr.2 muts).getD j 0)
        ≠ (execNodes interp σB pr.1.revNodes).root v := by
      intro j hj
      rw [(hB1low v hvfr).2, hinv.binpRoot v hv]
      rcases hfull j hj with ⟨-, -, hchk, hroot⟩ | ⟨hge, -, hroot⟩
      · rw [hroot]
        intro hc
        have hfix := hinv.binRootFix _ (Or.inl (htb j hj))
          (by rw [hc]; exact hv)
        rw [hc] at hfix
        have hninρ := ((checkVal_none_iff g (roots0 g) i _).mp hchk).1
        rw [hfix] at hninρ
        exact Nat.lt_irrefl v (lt_of_lt_of_le hv hninρ)
      · rw [hroot]
        intro hc
        rw [hc] at hge
        exact Nat.lt_irrefl v (lt_of_lt_of_le hvfr hge)
    rw [EB4 v hvr hne, (hB1low v hvfr).1]
    exact hinv.benvInput v hv hm

end Reinplace

namespace Reinplace

theorem sim_step (g : Graph) (hwf : WF g = true) {V : Type}
    (interp : String → Nat → List V → V) (inputs : Nat → V) (i fr : Nat)
    (hi : i < g.nodes.length) (σA σB : St V)
    (hinv : SimInv g inputs i fr σA σB) :
    SimInv g inputs (i + 1)
      (emitFresh g (roots0 g) i fr (g.nodes.getD i default))
      (execNode interp σA (g.nodes.getD i default))
      (execNodes interp σB
        (emit g (roots0 g) i fr (g.nodes.getD i default))) := by
  have hw := wf_node g hwf i hi
  obtain ⟨nd, hnd⟩ : ∃ x, x = g.nodes.getD i default := ⟨_, rfl⟩
  obtain ⟨kind, args, outs⟩ := nd
  cases kind with
  | pure f =>
    exact sim_step_pure g hwf interp inputs i fr hi σA σB hinv f args
      outs hnd.symm
  | view =>
    rw [← hnd, nodeWF] at hw
    simp only [Bool.and_eq_true] at hw
    have h3 := hw.2
    rcases args with _ | ⟨a, rest⟩
    · exact (Bool.false_ne_true h3).elim
    · rcases a with t | l
      · rcases rest with _ | ⟨b, rest2⟩
        · exact sim_step_view g hwf interp inputs i fr hi σA σB hinv t
            outs hnd.symm
        · exact (Bool.false_ne_true h3).elim
      · exact (Bool.false_ne_true h3).elim
  | inplaceable f =>
    rw [← hnd, nodeWF] at hw
    simp only [Bool.and_eq_true] at hw
    have h3 := hw.2
    rcases args with _ | ⟨a, rest⟩
    · exact (Bool.false_ne_true h3).elim
    · rcases a with t | l
      · cases hcan : can_reinplace g (roots0 g) i (.val t) with
        | false =>
          exact sim_step_inplaceable_keep g hwf interp inputs i fr hi
            σA σB hinv f t rest outs hnd.symm hcan
        | true =>
          exact sim_step_inplaceable_rw g hwf interp inputs i fr hi
            σA σB hinv f t rest outs hnd.symm hcan
      · exact (Bool.false_ne_true h3).elim
  | autoFunc f muts =>
    exact sim_step_autoFunc g hwf interp inputs i fr hi σA σB hinv f
      muts args outs hnd.symm
  | inplaceOp f muts =>
    exact sim_step_inplace g hwf interp inputs i fr hi σA σB hinv f
      muts args outs hnd.symm
  | clone =>
    rw [← hnd, nodeWF] at hw
    simp only [Bool.and_eq_true] at hw
    exact (Bool.false_ne_true hw.2).elim

end Reinplace

namespace Reinplace

theorem sim_run (g : Graph) (hwf : WF g = true) {V : Type}
    (interp : String → Nat → List V → V) (inputs : Nat → V) :
    ∀ (k i fr : Nat) (σA σB : St V), i + k = g.nodes.length →
    SimInv g inputs i fr σA σB →
    ∃ fr2, SimInv g inputs g.nodes.length fr2
      (execNodes interp σA (g.nodes.drop i))
      (execNodes interp σB
        (rwNodes g (roots0 g) i fr (g.nodes.drop i))) := by
  intro k
  induction k with
  | zero =>
    intro i fr σA σB hik hinv
    have hieq : i = g.nodes.length := by omega
    subst hieq
    rw [List.drop_length]
    exact ⟨fr, hinv⟩
  | succ k ih =>
    intro i fr σA σB hik hinv
    have hlt : i < g.nodes.length := by omega
    have hcons : g.nodes.drop i
        = g.nodes.getD i default :: g.nodes.drop (i + 1) := by
      rw [List.getD_eq_getElem _ _ hlt]
      exact List.drop_eq_getElem_cons hlt
    rw [hcons, rwNodes, execNodes_append]
    have hA : execNodes interp σA
        (g.nodes.getD i default :: g.nodes.drop (i + 1))
        = execNodes interp
            (execNode interp σA (g.nodes.getD i default))
            (g.nodes.drop (i + 1)) := rfl
    rw [hA]
    exact ih (i + 1)
      (emitFresh g (roots0 g) i fr (g.nodes.getD i default))
      (execNode interp σA (g.nodes.getD i default))
      (execNodes interp σB
        (emit g (roots0 g) i fr (g.nodes.getD i default)))
      (by omega)
      (sim_step g hwf interp inputs i fr hlt σA σB hinv)

end Reinplace

namespace Reinplace

/-- **C1**: Output equivalence — for every graph accepted by the pass,
every interpretation of the operations and every assignment of input
contents, executing the rewritten (reinplaced) graph produces outputs
identical to executing the original fully-functional graph: reinplacing
has zero observable semantic effect. -/
theorem output_equivalence (g : Graph) (hwf : WF g = true) {V : Type}
    (interp : String → Nat → List V → V) (inputs : Nat → V) :
    graphOutputs interp inputs (run_pass g).1
      = graphOutputs interp inputs g := by
  obtain ⟨fr2, hinv⟩ := sim_run g hwf interp inputs g.nodes.length 0
    (freshBound g) (initSt inputs) (initSt inputs)
    (Nat.zero_add _) (sim_init g hwf inputs)
  rw [List.drop_zero] at hinv
  have houts : (run_pass g).1.outputs = g.outputs := rfl
  rw [graphOutputs, graphOutputs, houts, run_pass_nodes]
  apply List.map_congr_left
  intro v hv
  have hvb : v < freshBound g := wf_outputs g hwf v hv
  rw [freshBound] at hvb
  have hout : isOutRoot g (roots0 g) (roots0 g v) = true := by
    rw [isOutRoot, List.any_eq_true]
    exact ⟨v, hv, by simp⟩
  have hlive : liveFrom g (roots0 g) g.nodes.length (roots0 g v)
      = true := by
    rw [liveFrom, List.drop_length]
    simp [hout]
  exact hinv.benv v hvb hlive

theorem output_equivalence_witness :
    WF multiIntermediateGraph = true ∧
    graphOutputs (fun f _ l => if f = "sin" then l.headD 0 + 1 else 0)
      (fun _ => (10 : Nat)) (run_pass multiIntermediateGraph).1
      = graphOutputs (fun f _ l => if f = "sin" then l.headD 0 + 1 else 0)
        (fun _ => 10) multiIntermediateGraph :=
  ⟨by decide, output_equivalence multiIntermediateGraph (by decide)
    (fun f _ l => if f = "sin" then l.headD 0 + 1 else 0) (fun _ => 10)⟩

/-- **C2**: Input non-corruption — a Value that is a graph input and is
not explicitly written by a user-written in-place call in the original
program retains its original contents after the rewritten program runs:
the pass never silently mutates a graph input on its own initiative. -/
theorem input_non_corruption (g : Graph) (hwf : WF g = true) {V : Type}
    (interp : String → Nat → List V → V) (inputs : Nat → V)
    (v : ValueId) (hv : v < g.nIn) (hm : userMutates g v = false) :
    (execNodes interp (initSt inputs) (run_pass g).1.nodes).env v
      = inputs v := by
  obtain ⟨fr2, hinv⟩ := sim_run g hwf interp inputs g.nodes.length 0
    (freshBound g) (initSt inputs) (initSt inputs)
    (Nat.zero_add _) (sim_init g hwf inputs)
  rw [List.drop_zero] at hinv
  rw [run_pass_nodes]
  exact hinv.benvInput v hv hm

theorem input_non_corruption_witness :
    WF liveGraph = true ∧ (0 : Nat) < liveGraph.nIn ∧
    userMutates liveGraph 0 = false ∧
    (execNodes (fun f _ l => l.headD 0 + f.length)
        (initSt (fun w => w + 7)) (run_pass liveGraph).1.nodes).env 0
      = (fun w => w + 7) 0 :=
  ⟨by decide, by decide, by decide,
    input_non_corruption liveGraph (by decide)
      (fun f _ l => l.headD 0 + f.length) (fun w => w + 7) 0
      (by decide) (by decide)⟩

end Reinplace
